import Mathlib

/-!
# A verification development for `advanced-vector/vector.h`

The header defines two class templates: `RawMemory<T>`, the owner of one block of
uninitialised storage, and `Vector<T>`, the growable array built on it.

The embedding is a state-passing one.  Storage lives in an explicit `Heap`: a list of
blocks, each a list of slots, a slot being either raw memory (`none`) or a live object
(`some x`).  A pointer is a block identifier together with a slot offset; block `0` is the
null pointer.  `RawMemory` and `Vector` objects are plain records of their data members and
every member function takes the heap and the object and returns the new heap and object.

The element type `T` is described by an `ElemType` record: which constructors throw, what a
move leaves behind in its source, and the two traits the header queries with `if constexpr`.
Constructors of `T` may throw; its assignment operators and its destructor do not.  A member
function that may throw returns an `Outcome`: the heap and the object as the exception (or the
return) leaves them, and the result.

Conventions of the embedding:
* `size_t` is `Nat`, and the allocator hands out whole slots: byte sizes, `n * sizeof(T)` and
  its wrap-around are not modelled;
* an argument passed by reference (`const T& value`, `T&& value`) is an object outside the
  container;
* where the source has undefined behaviour (reading or moving from a raw slot, writing outside
  a block) the primitive in question does nothing; the theorems assume `Vector.Holds` and the
  precondition of the member, under which this does not happen;
* the overloads `Insert(const T&)`, `Insert(T&&)`, `Emplace` and `PushBack(const T&)`,
  `PushBack(T&&)`, `EmplaceBack` are written out one by one, as in the header.
-/

namespace AdvancedVector

/-! ## Pointers, blocks and the heap -/

/-- Address of a slot: the block it lies in (`0` is `nullptr`) and the offset within it. -/
structure Ptr where
  block : Nat
  off : Nat
deriving DecidableEq, Repr

/-- Pointer arithmetic `p + n`. -/
instance : HAdd Ptr Nat Ptr := ⟨fun p n => ⟨p.block, p.off + n⟩⟩

/-- One block handed out by `operator new`: its slots and whether `operator delete` has
released it.  A released block keeps its last contents so that they can be inspected. -/
structure Block (α : Type) where
  slots : List (Option α)
  freed : Bool
deriving DecidableEq, Repr

/-- The free store.  Block `b + 1` is `blocks[b]`; `avail` is the number of slots the
allocator can still hand out. -/
structure Heap (α : Type) where
  blocks : List (Block α)
  avail : Nat
deriving DecidableEq, Repr

/-- What a function can throw: `std::bad_alloc`, an exception of the element type, or the
string literal thrown by the handlers of `Insert` and `Emplace`. -/
inductive Exn (ε : Type) where
  | bad_alloc : Exn ε
  | elem (e : ε) : Exn ε
  | c_str (msg : String) : Exn ε
deriving DecidableEq, Repr

/-- The element type `T` as the container sees it. -/
structure ElemType (α ε : Type) where
  /-- Outcome of value-initialisation `T()`. -/
  value_init : Except ε α
  /-- The exception thrown by copy-constructing from the given object, if any. -/
  copy_throws : α → Option ε
  /-- The exception thrown by move-constructing from the given object, if any. -/
  move_throws : α → Option ε
  /-- The state a move (construction or assignment) leaves in its source. -/
  moved_from : α → α
  /-- Trait `std::is_nothrow_move_constructible_v<T>`. -/
  nothrow_move_constructible : Bool
  /-- Trait `std::is_copy_constructible_v<T>`. -/
  copy_constructible : Bool

variable {α ε : Type}

/-- Copy construction `T(x)`: a copy of `x`, or the exception it throws. -/
def ElemType.copy_ctor (E : ElemType α ε) (x : α) : Except ε α :=
  match E.copy_throws x with
  | some e => .error e
  | none => .ok x

/-- Move construction `T(std::move(x))` from an object outside the container. -/
def ElemType.move_ctor (E : ElemType α ε) (x : α) : Except ε α :=
  match E.move_throws x with
  | some e => .error e
  | none => .ok x

/-- The slots of block `b`; the null block and unknown blocks have none. -/
def Heap.slots (h : Heap α) (b : Nat) : List (Option α) :=
  match b with
  | 0 => []
  | b + 1 =>
    match h.blocks[b]? with
    | some blk => blk.slots
    | none => []

/-- The slot a pointer designates: `none` when the pointer is outside every block,
`some none` for raw memory, `some (some x)` for a live object `x`. -/
def Heap.slot (h : Heap α) (p : Ptr) : Option (Option α) :=
  (h.slots p.block)[p.off]?

/-- The live object a pointer designates, if there is one. -/
def Heap.get (h : Heap α) (p : Ptr) : Option α :=
  (h.slot p).join

/-- Overwrite the slot a pointer designates; a pointer outside every block changes nothing. -/
def Heap.set (h : Heap α) (p : Ptr) (s : Option α) : Heap α :=
  match p.block with
  | 0 => h
  | b + 1 =>
    match h.blocks[b]? with
    | some blk => { h with blocks := h.blocks.set b { blk with slots := blk.slots.set p.off s } }
    | none => h

/-- Whether block `b` has been released. -/
def Heap.freed (h : Heap α) (b : Nat) : Bool :=
  match b with
  | 0 => false
  | b + 1 =>
    match h.blocks[b]? with
    | some blk => blk.freed
    | none => false

/-- Two heaps that differ at most in the contents of slots: same blocks, same sizes, same
released blocks, same allocator budget. -/
def Heap.SameShape (h h' : Heap α) : Prop :=
  h'.blocks.length = h.blocks.length ∧ h'.avail = h.avail ∧
    ∀ b, h'.freed b = h.freed b ∧ (h'.slots b).length = (h.slots b).length

/-- The member `RawMemory::Allocate(n)`: `nullptr` for `n = 0`, otherwise a fresh block of `n`
raw slots from `operator new`, which throws `std::bad_alloc` (`none`) when the request
exceeds what is available. -/
def Allocate (h : Heap α) (n : Nat) : Option (Heap α × Nat) :=
  if n ≠ 0 then
    if n ≤ h.avail then
      some ({ blocks := h.blocks ++ [{ slots := List.replicate n none, freed := false }],
              avail := h.avail - n }, h.blocks.length + 1)
    else none
  else some (h, 0)

/-- The member `RawMemory::Deallocate(buf)`: `operator delete(buf)`; a null pointer is
ignored, the contents of the slots are not looked at. -/
def Deallocate (h : Heap α) (buf : Nat) : Heap α :=
  match buf with
  | 0 => h
  | b + 1 =>
    match h.blocks[b]? with
    | some blk =>
      { blocks := h.blocks.set b { blk with freed := true }, avail := h.avail + blk.slots.length }
    | none => h

/-! ## Element-wise primitives and the standard algorithms the header calls -/

/-- Placement construction by copy, `new (dst) T(*src)`: the destination receives a copy of
the source object unless the copy constructor throws.  Reading a raw source slot is undefined
in the source; here it does nothing. -/
def copy_construct_at (E : ElemType α ε) (h : Heap α) (dst src : Ptr) : Heap α × Option ε :=
  match h.get src with
  | some x =>
    match E.copy_throws x with
    | some e => (h, some e)
    | none => (h.set dst (some x), none)
  | none => (h, none)

/-- Placement construction by move, `new (dst) T(std::move(*src))`: unless the move
constructor throws, the destination receives the source object and the source is left
moved-from. -/
def move_construct_at (E : ElemType α ε) (h : Heap α) (dst src : Ptr) : Heap α × Option ε :=
  match h.get src with
  | some x =>
    match E.move_throws x with
    | some e => (h, some e)
    | none => ((h.set dst (some x)).set src (some (E.moved_from x)), none)
  | none => (h, none)

/-- Move assignment `*dst = std::move(*src)`: the destination receives the source object and
the source is left moved-from. -/
def move_assign_at (E : ElemType α ε) (h : Heap α) (dst src : Ptr) : Heap α :=
  match h.get src with
  | some x => (h.set dst (some x)).set src (some (E.moved_from x))
  | none => h

/-- The algorithm `std::destroy_n(first, n)`: ends the lifetime of `n` objects. -/
def destroy_n (h : Heap α) (first : Ptr) : Nat → Heap α
  | 0 => h
  | n + 1 => destroy_n (h.set first none) (first + 1) n

/-- Loop of `std::uninitialized_copy_n(first, _, d_first)` with `i` objects already constructed:
each step copy-constructs `d_first[i]` from `first[i]`; when a copy throws, the `i` objects
constructed so far are destroyed and the exception is passed on. -/
def uninitialized_copy_loop (E : ElemType α ε) (first d_first : Ptr) :
    Nat → Nat → Heap α → Heap α × Option ε
  | 0, _, h => (h, none)
  | n + 1, i, h =>
    match copy_construct_at E h (d_first + i) (first + i) with
    | (h1, some e) => (destroy_n h1 d_first i, some e)
    | (h1, none) => uninitialized_copy_loop E first d_first n (i + 1) h1

/-- The algorithm `std::uninitialized_copy_n(first, count, d_first)`; the second component is
the exception that escaped, if any. -/
def uninitialized_copy_n (E : ElemType α ε) (h : Heap α) (first : Ptr) (count : Nat)
    (d_first : Ptr) : Heap α × Option ε :=
  uninitialized_copy_loop E first d_first count 0 h

/-- The algorithm `std::uninitialized_copy(first, last, d_first)`. -/
def uninitialized_copy (E : ElemType α ε) (h : Heap α) (first last d_first : Ptr) :
    Heap α × Option ε :=
  uninitialized_copy_n E h first (last.off - first.off) d_first

/-- Loop of `std::uninitialized_move_n(first, _, d_first)` with `i` objects already
constructed: each step move-constructs `d_first[i]` from `first[i]`; when a move throws, the
`i` objects constructed so far are destroyed and the exception is passed on. -/
def uninitialized_move_loop (E : ElemType α ε) (first d_first : Ptr) :
    Nat → Nat → Heap α → Heap α × Option ε
  | 0, _, h => (h, none)
  | n + 1, i, h =>
    match move_construct_at E h (d_first + i) (first + i) with
    | (h1, some e) => (destroy_n h1 d_first i, some e)
    | (h1, none) => uninitialized_move_loop E first d_first n (i + 1) h1

/-- The algorithm `std::uninitialized_move_n(first, count, d_first)`. -/
def uninitialized_move_n (E : ElemType α ε) (h : Heap α) (first : Ptr) (count : Nat)
    (d_first : Ptr) : Heap α × Option ε :=
  uninitialized_move_loop E first d_first count 0 h

/-- The algorithm `std::uninitialized_move(first, last, d_first)`. -/
def uninitialized_move (E : ElemType α ε) (h : Heap α) (first last d_first : Ptr) :
    Heap α × Option ε :=
  uninitialized_move_n E h first (last.off - first.off) d_first

/-- Loop of `std::uninitialized_value_construct_n(first, _)` with `i` objects already
constructed; a throwing `T()` destroys them and passes the exception on. -/
def uninitialized_value_construct_loop (E : ElemType α ε) (first : Ptr) :
    Nat → Nat → Heap α → Heap α × Option ε
  | 0, _, h => (h, none)
  | n + 1, i, h =>
    match E.value_init with
    | .error e => (destroy_n h first i, some e)
    | .ok x => uninitialized_value_construct_loop E first n (i + 1) (h.set (first + i) (some x))

/-- The algorithm `std::uninitialized_value_construct_n(first, count)`. -/
def uninitialized_value_construct_n (E : ElemType α ε) (h : Heap α) (first : Ptr)
    (count : Nat) : Heap α × Option ε :=
  uninitialized_value_construct_loop E first count 0 h

/-- Loop of `std::move(first, last, d_first)`, front to back, `n` objects to go:
`*d_first++ = std::move(*first++)`. -/
def move_loop (E : ElemType α ε) : Nat → Ptr → Ptr → Heap α → Heap α
  | 0, _, _, h => h
  | n + 1, first, d_first, h =>
    move_loop E n (first + 1) (d_first + 1) (move_assign_at E h d_first first)

/-- The algorithm `std::move(first, last, d_first)` on pointers into one block. -/
def std_move (E : ElemType α ε) (h : Heap α) (first last d_first : Ptr) : Heap α :=
  move_loop E (last.off - first.off) first d_first h

/-- Loop of `std::move_backward(first, last, d_last)`, back to front, `n` objects to go:
`*(--d_last) = std::move(*(--last))`.  The pointers are given by block and offset so that the
decrement is exact. -/
def move_backward_loop (E : ElemType α ε) (blk d_blk : Nat) : Nat → Nat → Nat → Heap α → Heap α
  | 0, _, _, h => h
  | n + 1, last, d_last, h =>
    move_backward_loop E blk d_blk n (last - 1) (d_last - 1)
      (move_assign_at E h ⟨d_blk, d_last - 1⟩ ⟨blk, last - 1⟩)

/-- The algorithm `std::move_backward(first, last, d_last)`. -/
def move_backward (E : ElemType α ε) (h : Heap α) (first last d_last : Ptr) : Heap α :=
  move_backward_loop E last.block d_last.block (last.off - first.off) last.off d_last.off h

/-! ## `RawMemory<T>` -/

/-- The data members of `RawMemory<T>`: `buffer_` (a block, `0` for `nullptr`) and
`capacity_`.  The default member initialisers give the default constructor. -/
structure RawMemory where
  buffer : Nat := 0
  capacity : Nat := 0
deriving DecidableEq, Repr

namespace RawMemory

/-- The constructor `RawMemory(size_t capacity)`; `none` when `Allocate` throws. -/
def create (h : Heap α) (capacity : Nat) : Option (Heap α × RawMemory) :=
  match Allocate h capacity with
  | some (h1, buf) => some (h1, { buffer := buf, capacity := capacity })
  | none => none

/-- The move constructor `RawMemory(RawMemory&& other)`: the new object and what is left of
`other`. -/
def move_ctor (other : RawMemory) : RawMemory × RawMemory :=
  ({ buffer := other.buffer, capacity := other.capacity }, { buffer := 0, capacity := 0 })

/-- The address `buffer_`, as returned by `GetAddress()`. -/
def GetAddress (m : RawMemory) : Ptr := ⟨m.buffer, 0⟩

/-- The move assignment `operator=(RawMemory&& rhs)`: the heap, the assigned object and what
is left of `rhs`. -/
def move_assign (h : Heap α) (self rhs : RawMemory) : Heap α × RawMemory × RawMemory :=
  let h1 := destroy_n h self.GetAddress self.capacity
  (h1, { buffer := rhs.buffer, capacity := rhs.capacity }, { buffer := 0, capacity := 0 })

/-- The destructor `~RawMemory()`. -/
def dtor (h : Heap α) (m : RawMemory) : Heap α := Deallocate h m.buffer

/-- The address `buffer_ + offset`, as returned by `operator+`. -/
def add (m : RawMemory) (offset : Nat) : Ptr := ⟨m.buffer, offset⟩

/-- The member `Swap(RawMemory& other)`: both members are exchanged. -/
def Swap (self other : RawMemory) : RawMemory × RawMemory :=
  ({ buffer := other.buffer, capacity := other.capacity },
   { buffer := self.buffer, capacity := self.capacity })

/-- The member `Capacity()`. -/
def Capacity (m : RawMemory) : Nat := m.capacity

end RawMemory

/-- The call `std::swap(a, b)` on two `RawMemory` objects: `tmp` is move-constructed from
`a`, `a` is move-assigned from `b`, `b` is move-assigned from `tmp`, `tmp` is destroyed. -/
def swap_RawMemory (h : Heap α) (a b : RawMemory) : Heap α × RawMemory × RawMemory :=
  let (tmp, a1) := RawMemory.move_ctor a
  let (h1, a2, b1) := RawMemory.move_assign h a1 b
  let (h2, b2, tmp1) := RawMemory.move_assign h1 b1 tmp
  (RawMemory.dtor h2 tmp1, a2, b2)

/-! ## `Vector<T>` -/

/-- The data members of `Vector<T>`: `data_` and `size_`.  The default member initialisers
give the default constructor `Vector() = default`. -/
structure Vector where
  data : RawMemory := {}
  size : Nat := 0
deriving DecidableEq, Repr

/-- What a member function that may throw leaves behind: the heap, the object, and either the
returned value or the exception that escaped. -/
structure Outcome (α ε β : Type) where
  heap : Heap α
  self : Vector
  result : Except (Exn ε) β

/-- Whether the member function returned rather than threw. -/
def Outcome.succeeded {α ε β : Type} (o : Outcome α ε β) : Bool :=
  match o.result with
  | .ok _ => true
  | .error _ => false

/-- Copy assignment of one element, `*dst = *src`. -/
def copy_assign_at (h : Heap α) (dst src : Ptr) : Heap α :=
  match h.get src with
  | some x => h.set dst (some x)
  | none => h

/-- The loop `for (counter = i; counter < i + n; ++counter) dst[counter] = src[counter];` of
the copy assignment operator. -/
def copy_assign_loop (dst src : RawMemory) : Nat → Nat → Heap α → Heap α
  | 0, _, h => h
  | n + 1, i, h => copy_assign_loop dst src n (i + 1) (copy_assign_at h (dst.add i) (src.add i))

namespace Vector

/-- The member `Size()`. -/
def Size (v : Vector) : Nat := v.size

/-- The member `Capacity()`. -/
def Capacity (v : Vector) : Nat := v.data.Capacity

/-- The iterator `begin()`, that is `data_ + 0`. -/
def begin_ (v : Vector) : Ptr := v.data.add 0

/-- The iterator `end()`, that is `data_ + size_`. -/
def end_ (v : Vector) : Ptr := v.data.add v.size

/-- The live objects in slots `[0, size_)`, in order. -/
def elems (h : Heap α) (v : Vector) : List α :=
  ((h.slots v.data.buffer).take v.size).reduceOption

/-- The constructor `Vector(size_t size)`. -/
def sized (E : ElemType α ε) (h : Heap α) (size : Nat) : Heap α × Except (Exn ε) Vector :=
  match RawMemory.create h size with
  | none => (h, .error .bad_alloc)
  | some (h1, data) =>
    match uninitialized_value_construct_n E h1 data.GetAddress size with
    | (h2, some e) => (data.dtor h2, .error (.elem e))
    | (h2, none) => (h2, .ok { data := data, size := size })

/-- The copy constructor `Vector(const Vector& other)`. -/
def copy_ctor (E : ElemType α ε) (h : Heap α) (other : Vector) :
    Heap α × Except (Exn ε) Vector :=
  match RawMemory.create h other.size with
  | none => (h, .error .bad_alloc)
  | some (h1, data) =>
    match uninitialized_copy_n E h1 other.data.GetAddress other.size data.GetAddress with
    | (h2, some e) => (data.dtor h2, .error (.elem e))
    | (h2, none) => (h2, .ok { data := data, size := other.size })

/-- The move constructor `Vector(Vector&& rhs)`: the new object and what is left of `rhs`. -/
def move_ctor (rhs : Vector) : Vector × Vector :=
  let (data, rhs_data) := RawMemory.move_ctor rhs.data
  ({ data := data, size := rhs.size }, { data := rhs_data, size := 0 })

/-- The destructor `~Vector()`: the live objects are destroyed, then `data_` releases the
block. -/
def dtor (h : Heap α) (v : Vector) : Heap α :=
  v.data.dtor (destroy_n h v.data.GetAddress v.size)

/-- The member `Swap(Vector& other)`: the heap, this object and `other` afterwards. -/
def Swap (h : Heap α) (self other : Vector) : Heap α × Vector × Vector :=
  let (h1, data, other_data) := swap_RawMemory h self.data other.data
  (h1, { data := data, size := other.size }, { data := other_data, size := self.size })

/-- The right-hand side of an assignment: the assigned-to object itself (`this == &rhs`) or
another object. -/
inductive Rhs where
  | this : Rhs
  | other (v : Vector) : Rhs
deriving DecidableEq

/-- The copy assignment `operator=(const Vector& rhs)`. -/
def copy_assign (E : ElemType α ε) (h : Heap α) (self : Vector) (rhs : Rhs) :
    Outcome α ε Unit :=
  match rhs with
  | .this => ⟨h, self, .ok ()⟩
  | .other rhs =>
    if rhs.size > self.data.Capacity then
      match copy_ctor E h rhs with
      | (h1, .error e) => ⟨h1, self, .error e⟩
      | (h1, .ok rhs_copy) =>
        let (h2, self1, rhs_copy1) := Swap h1 self rhs_copy
        ⟨dtor h2 rhs_copy1, self1, .ok ()⟩
    else
      if rhs.size < self.size then
        let h1 := copy_assign_loop self.data rhs.data rhs.size 0 h
        let h2 := destroy_n h1 (self.data.GetAddress + rhs.size) (self.size - rhs.size)
        ⟨h2, { self with size := rhs.size }, .ok ()⟩
      else
        let h1 := copy_assign_loop self.data rhs.data self.size 0 h
        match uninitialized_copy_n E h1 (rhs.data.add self.size) (rhs.size - self.size)
            (self.data.add self.size) with
        | (h2, some e) => ⟨h2, self, .error (.elem e)⟩
        | (h2, none) => ⟨h2, { self with size := rhs.size }, .ok ()⟩

/-- The move assignment `operator=(Vector&& rhs)`: the heap, this object and `rhs`
afterwards; `none` for `rhs` means that `rhs` is this object. -/
def move_assign (h : Heap α) (self : Vector) (rhs : Rhs) : Heap α × Vector × Option Vector :=
  match rhs with
  | .this => (h, self, none)
  | .other rhs =>
    let (h1, self1, rhs1) := Swap h self rhs
    (h1, self1, some rhs1)

/-- The member `Reserve(size_t new_capacity)`. -/
def Reserve (E : ElemType α ε) (h : Heap α) (self : Vector) (new_capacity : Nat) :
    Outcome α ε Unit :=
  if new_capacity ≤ self.data.Capacity then ⟨h, self, .ok ()⟩
  else
    match RawMemory.create h new_capacity with
    | none => ⟨h, self, .error .bad_alloc⟩
    | some (h1, new_data) =>
      let t :=
        if E.nothrow_move_constructible || !E.copy_constructible then
          uninitialized_move_n E h1 self.data.GetAddress self.size new_data.GetAddress
        else
          uninitialized_copy_n E h1 self.data.GetAddress self.size new_data.GetAddress
      match t with
      | (h2, some e) => ⟨new_data.dtor h2, self, .error (.elem e)⟩
      | (h2, none) =>
        let h3 := destroy_n h2 self.data.GetAddress self.size
        let (data, new_data1) := self.data.Swap new_data
        ⟨new_data1.dtor h3, { self with data := data }, .ok ()⟩

/-- The member `Resize(size_t new_size)`. -/
def Resize (E : ElemType α ε) (h : Heap α) (self : Vector) (new_size : Nat) :
    Outcome α ε Unit :=
  if new_size < self.size then
    let h1 := destroy_n h (self.data.add new_size) (self.size - new_size)
    ⟨h1, { self with size := new_size }, .ok ()⟩
  else if new_size > self.size then
    match Reserve E h self new_size with
    | ⟨h1, self1, .error e⟩ => ⟨h1, self1, .error e⟩
    | ⟨h1, self1, .ok _⟩ =>
      match uninitialized_value_construct_n E h1 (self1.data.add self1.size)
          (new_size - self1.size) with
      | (h2, some e) => ⟨h2, self1, .error (.elem e)⟩
      | (h2, none) => ⟨h2, { self1 with size := new_size }, .ok ()⟩
  else ⟨h, self, .ok ()⟩

/-- The member template `EmplaceBack(Args&&... args)`.  The forwarded arguments are given by
the outcome `args` of the constructor call `T(std::forward<Args>(args)...)`: the object it
builds or the exception it throws.  The result is the address of `data_[size_ - 1]`. -/
def EmplaceBack (E : ElemType α ε) (h : Heap α) (self : Vector) (args : Except ε α) :
    Outcome α ε Ptr :=
  if self.size = self.Capacity then
    match RawMemory.create h (if self.size ≠ 0 then self.Capacity * 2 else 1) with
    | none => ⟨h, self, .error .bad_alloc⟩
    | some (h1, new_data) =>
      match args with
      | .error e => ⟨new_data.dtor h1, self, .error (.elem e)⟩
      | .ok x =>
        let h2 := h1.set (new_data.add self.size) (some x)
        let t :=
          if E.nothrow_move_constructible || !E.copy_constructible then
            uninitialized_move_n E h2 self.data.GetAddress self.size new_data.GetAddress
          else
            uninitialized_copy_n E h2 self.data.GetAddress self.size new_data.GetAddress
        match t with
        | (h3, some e) => ⟨new_data.dtor h3, self, .error (.elem e)⟩
        | (h3, none) =>
          let (data, new_data1) := self.data.Swap new_data
          let h4 := destroy_n h3 new_data1.GetAddress self.size
          let self1 : Vector := { data := data, size := self.size + 1 }
          ⟨new_data1.dtor h4, self1, .ok (self1.data.add (self1.size - 1))⟩
  else
    match args with
    | .error e => ⟨h, self, .error (.elem e)⟩
    | .ok x =>
      let h1 := h.set (self.data.add self.size) (some x)
      let self1 : Vector := { self with size := self.size + 1 }
      ⟨h1, self1, .ok (self1.data.add (self1.size - 1))⟩

/-- The member `PushBack(const T& value)`; `value` is an object outside the container. -/
def PushBack (E : ElemType α ε) (h : Heap α) (self : Vector) (value : α) : Outcome α ε Unit :=
  if self.size = self.Capacity then
    match RawMemory.create h (if self.size ≠ 0 then self.Capacity * 2 else 1) with
    | none => ⟨h, self, .error .bad_alloc⟩
    | some (h1, new_data) =>
      match E.copy_ctor value with
      | .error e => ⟨new_data.dtor h1, self, .error (.elem e)⟩
      | .ok x =>
        let h2 := h1.set (new_data.add self.size) (some x)
        let t :=
          if E.nothrow_move_constructible || !E.copy_constructible then
            uninitialized_move_n E h2 self.data.GetAddress self.size new_data.GetAddress
          else
            uninitialized_copy_n E h2 self.data.GetAddress self.size new_data.GetAddress
        match t with
        | (h3, some e) => ⟨new_data.dtor h3, self, .error (.elem e)⟩
        | (h3, none) =>
          let (data, new_data1) := self.data.Swap new_data
          let h4 := destroy_n h3 new_data1.GetAddress self.size
          ⟨new_data1.dtor h4, { data := data, size := self.size + 1 }, .ok ()⟩
  else
    match E.copy_ctor value with
    | .error e => ⟨h, self, .error (.elem e)⟩
    | .ok x => ⟨h.set (self.data.add self.size) (some x), { self with size := self.size + 1 }, .ok ()⟩

/-- The member `PushBack(T&& value)`; `value` is an object outside the container. -/
def PushBackMove (E : ElemType α ε) (h : Heap α) (self : Vector) (value : α) :
    Outcome α ε Unit :=
  if self.size = self.Capacity then
    match RawMemory.create h (if self.size ≠ 0 then self.Capacity * 2 else 1) with
    | none => ⟨h, self, .error .bad_alloc⟩
    | some (h1, new_data) =>
      match E.move_ctor value with
      | .error e => ⟨new_data.dtor h1, self, .error (.elem e)⟩
      | .ok x =>
        let h2 := h1.set (new_data.add self.size) (some x)
        let t :=
          if E.nothrow_move_constructible || !E.copy_constructible then
            uninitialized_move_n E h2 self.data.GetAddress self.size new_data.GetAddress
          else
            uninitialized_copy_n E h2 self.data.GetAddress self.size new_data.GetAddress
        match t with
        | (h3, some e) => ⟨new_data.dtor h3, self, .error (.elem e)⟩
        | (h3, none) =>
          let (data, new_data1) := self.data.Swap new_data
          let h4 := destroy_n h3 new_data1.GetAddress self.size
          ⟨new_data1.dtor h4, { data := data, size := self.size + 1 }, .ok ()⟩
  else
    match E.move_ctor value with
    | .error e => ⟨h, self, .error (.elem e)⟩
    | .ok x => ⟨h.set (self.data.add self.size) (some x), { self with size := self.size + 1 }, .ok ()⟩

/-- The member `PopBack()`. -/
def PopBack (h : Heap α) (self : Vector) : Heap α × Vector :=
  (destroy_n h (self.data.add (self.size - 1)) 1, { self with size := self.size - 1 })

/-- The member `Insert(const_iterator pos, const T& value)`; `value` is an object outside the
container. -/
def Insert (E : ElemType α ε) (h : Heap α) (self : Vector) (pos : Ptr) (value : α) :
    Outcome α ε Ptr :=
  let dist_save := pos.off - self.begin_.off
  if self.size = self.Capacity then
    match RawMemory.create h (if self.size ≠ 0 then self.Capacity * 2 else 1) with
    | none => ⟨h, self, .error .bad_alloc⟩
    | some (h1, new_data) =>
      match E.copy_ctor value with
      | .error e => ⟨new_data.dtor h1, self, .error (.elem e)⟩
      | .ok x =>
        let h2 := h1.set (new_data.add dist_save) (some x)
        let t : Heap α × Option (Exn ε) :=
          if E.nothrow_move_constructible || !E.copy_constructible then
            match uninitialized_move E h2 self.begin_ (self.data.add dist_save)
                new_data.GetAddress with
            | (h3, some e) => (h3, some (.elem e))
            | (h3, none) =>
              match uninitialized_move E h3 (self.begin_ + dist_save) self.end_
                  (new_data.add dist_save + 1) with
              | (h4, some e) => (h4, some (.elem e))
              | (h4, none) => (h4, none)
          else
            match uninitialized_copy E h2 self.begin_ (self.data.add dist_save)
                new_data.GetAddress with
            | (h3, some _) => (destroy_n h3 (new_data.add dist_save) 1, some (.c_str "Execption!"))
            | (h3, none) =>
              match uninitialized_copy E h3 (self.begin_ + dist_save) self.end_
                  (new_data.add dist_save + 1) with
              | (h4, some _) =>
                (destroy_n h4 new_data.GetAddress (dist_save + 1), some (.c_str "Execption!"))
              | (h4, none) => (h4, none)
        match t with
        | (h5, some e) => ⟨new_data.dtor h5, self, .error e⟩
        | (h5, none) =>
          let (data, new_data1) := self.data.Swap new_data
          let h6 := destroy_n h5 new_data1.GetAddress self.size
          let self1 : Vector := { data := data, size := self.size + 1 }
          ⟨new_data1.dtor h6, self1, .ok (self1.begin_ + dist_save)⟩
  else
    if self.size = 0 then
      match E.copy_ctor value with
      | .error e => ⟨h, self, .error (.elem e)⟩
      | .ok x =>
        let self1 : Vector := { self with size := self.size + 1 }
        ⟨h.set pos (some x), self1, .ok (self1.begin_ + dist_save)⟩
    else
      match move_construct_at E h (self.data.add self.size) (self.data.add (self.size - 1)) with
      | (h1, some e) => ⟨h1, self, .error (.elem e)⟩
      | (h1, none) =>
        let h2 := move_backward E h1 pos self.end_ (self.end_ + 1)
        let h3 := destroy_n h2 (self.begin_ + dist_save) 1
        match E.copy_ctor value with
        | .error e => ⟨h3, self, .error (.elem e)⟩
        | .ok x =>
          let self1 : Vector := { self with size := self.size + 1 }
          ⟨h3.set (self.begin_ + dist_save) (some x), self1, .ok (self1.begin_ + dist_save)⟩

/-- The member `Insert(const_iterator pos, T&& value)`; `value` is an object outside the
container. -/
def InsertMove (E : ElemType α ε) (h : Heap α) (self : Vector) (pos : Ptr) (value : α) :
    Outcome α ε Ptr :=
  let dist_save := pos.off - self.begin_.off
  if self.size = self.Capacity then
    match RawMemory.create h (if self.size ≠ 0 then self.Capacity * 2 else 1) with
    | none => ⟨h, self, .error .bad_alloc⟩
    | some (h1, new_data) =>
      match E.move_ctor value with
      | .error e => ⟨new_data.dtor h1, self, .error (.elem e)⟩
      | .ok x =>
        let h2 := h1.set (new_data.add dist_save) (some x)
        let t : Heap α × Option (Exn ε) :=
          if E.nothrow_move_constructible || !E.copy_constructible then
            match uninitialized_move E h2 self.begin_ (self.data.add dist_save)
                new_data.GetAddress with
            | (h3, some e) => (h3, some (.elem e))
            | (h3, none) =>
              match uninitialized_move E h3 (self.begin_ + dist_save) self.end_
                  (new_data.add dist_save + 1) with
              | (h4, some e) => (h4, some (.elem e))
              | (h4, none) => (h4, none)
          else
            match uninitialized_copy E h2 self.begin_ (self.data.add dist_save)
                new_data.GetAddress with
            | (h3, some _) => (destroy_n h3 (new_data.add dist_save) 1, some (.c_str "Execption!"))
            | (h3, none) =>
              match uninitialized_copy E h3 (self.begin_ + dist_save) self.end_
                  (new_data.add dist_save + 1) with
              | (h4, some _) =>
                (destroy_n h4 new_data.GetAddress (dist_save + 1), some (.c_str "Execption!"))
              | (h4, none) => (h4, none)
        match t with
        | (h5, some e) => ⟨new_data.dtor h5, self, .error e⟩
        | (h5, none) =>
          let (data, new_data1) := self.data.Swap new_data
          let h6 := destroy_n h5 new_data1.GetAddress self.size
          let self1 : Vector := { data := data, size := self.size + 1 }
          ⟨new_data1.dtor h6, self1, .ok (self1.begin_ + dist_save)⟩
  else
    if self.size = 0 then
      match E.move_ctor value with
      | .error e => ⟨h, self, .error (.elem e)⟩
      | .ok x =>
        let self1 : Vector := { self with size := self.size + 1 }
        ⟨h.set pos (some x), self1, .ok (self1.begin_ + dist_save)⟩
    else
      match move_construct_at E h (self.data.add self.size) (self.data.add (self.size - 1)) with
      | (h1, some e) => ⟨h1, self, .error (.elem e)⟩
      | (h1, none) =>
        let h2 := move_backward E h1 pos self.end_ (self.end_ + 1)
        let h3 := destroy_n h2 (self.begin_ + dist_save) 1
        match E.move_ctor value with
        | .error e => ⟨h3, self, .error (.elem e)⟩
        | .ok x =>
          let self1 : Vector := { self with size := self.size + 1 }
          ⟨h3.set (self.begin_ + dist_save) (some x), self1, .ok (self1.begin_ + dist_save)⟩

/-- The member template `Emplace(const_iterator pos, Args&&... args)`.  The forwarded
arguments are given by the outcome `args` of the constructor call
`T(std::forward<Args>(args)...)`. -/
def Emplace (E : ElemType α ε) (h : Heap α) (self : Vector) (pos : Ptr) (args : Except ε α) :
    Outcome α ε Ptr :=
  let dist_save := pos.off - self.begin_.off
  if self.size = self.Capacity then
    match RawMemory.create h (if self.size ≠ 0 then self.Capacity * 2 else 1) with
    | none => ⟨h, self, .error .bad_alloc⟩
    | some (h1, new_data) =>
      match args with
      | .error e => ⟨new_data.dtor h1, self, .error (.elem e)⟩
      | .ok x =>
        let h2 := h1.set (new_data.add dist_save) (some x)
        let t : Heap α × Option (Exn ε) :=
          if E.nothrow_move_constructible || !E.copy_constructible then
            match uninitialized_move E h2 self.begin_ (self.data.add dist_save)
                new_data.GetAddress with
            | (h3, some e) => (h3, some (.elem e))
            | (h3, none) =>
              match uninitialized_move E h3 (self.begin_ + dist_save) self.end_
                  (new_data.add dist_save + 1) with
              | (h4, some e) => (h4, some (.elem e))
              | (h4, none) => (h4, none)
          else
            match uninitialized_copy E h2 self.begin_ (self.data.add dist_save)
                new_data.GetAddress with
            | (h3, some _) => (destroy_n h3 (new_data.add dist_save) 1, some (.c_str "Execption!"))
            | (h3, none) =>
              match uninitialized_copy E h3 (self.begin_ + dist_save) self.end_
                  (new_data.add dist_save + 1) with
              | (h4, some _) =>
                (destroy_n h4 new_data.GetAddress (dist_save + 1), some (.c_str "Execption!"))
              | (h4, none) => (h4, none)
        match t with
        | (h5, some e) => ⟨new_data.dtor h5, self, .error e⟩
        | (h5, none) =>
          let (data, new_data1) := self.data.Swap new_data
          let h6 := destroy_n h5 new_data1.GetAddress self.size
          let self1 : Vector := { data := data, size := self.size + 1 }
          ⟨new_data1.dtor h6, self1, .ok (self1.begin_ + dist_save)⟩
  else
    if self.size = 0 then
      match args with
      | .error e => ⟨h, self, .error (.elem e)⟩
      | .ok x =>
        let self1 : Vector := { self with size := self.size + 1 }
        ⟨h.set pos (some x), self1, .ok (self1.begin_ + dist_save)⟩
    else
      match move_construct_at E h (self.data.add self.size) (self.data.add (self.size - 1)) with
      | (h1, some e) => ⟨h1, self, .error (.elem e)⟩
      | (h1, none) =>
        let h2 := move_backward E h1 pos self.end_ (self.end_ + 1)
        let h3 := destroy_n h2 (self.begin_ + dist_save) 1
        match args with
        | .error e => ⟨h3, self, .error (.elem e)⟩
        | .ok x =>
          let self1 : Vector := { self with size := self.size + 1 }
          ⟨h3.set (self.begin_ + dist_save) (some x), self1, .ok (self1.begin_ + dist_save)⟩

/-- The member `Erase(const_iterator pos)`: the heap, the object and the returned iterator. -/
def Erase (E : ElemType α ε) (h : Heap α) (self : Vector) (pos : Ptr) : Heap α × Vector × Ptr :=
  let dist_save := pos.off - self.begin_.off
  let h1 := std_move E h (pos + 1) self.end_ pos
  let h2 := destroy_n h1 (self.data.add (self.size - 1)) 1
  let self1 : Vector := { self with size := self.size - 1 }
  (h2, self1, self1.begin_ + dist_save)

end Vector

/-! ## The abstraction: which sequence a vector holds -/

/-- The contents of a block of `cap` slots whose first slots hold the live objects `xs` and
whose remaining slots are raw. -/
def layout (xs : List α) (cap : Nat) : List (Option α) :=
  xs.map some ++ List.replicate (cap - xs.length) none

/-- The vector `v` holds the sequence `xs` in the heap `h`: `size_` is the length of `xs`, it
does not exceed `capacity_`, `buffer_` is null or a block that has not been released, and the
block has exactly `capacity_` slots, of which `[0, size_)` hold `xs` and the rest are raw. -/
def Vector.Holds (h : Heap α) (v : Vector) (xs : List α) : Prop :=
  v.size = xs.length ∧ v.size ≤ v.data.capacity ∧ v.data.buffer ≤ h.blocks.length ∧
    h.freed v.data.buffer = false ∧ h.slots v.data.buffer = layout xs v.data.capacity

instance [DecidableEq α] (h : Heap α) (v : Vector) (xs : List α) : Decidable (v.Holds h xs) := by
  unfold Vector.Holds
  infer_instance

/-- The outcome of an insertion that returned, for a vector that held `xs`: the vector holds
`xs` with `x` put in at index `p`, the size is one more, and the returned iterator is
`begin() + p`. -/
def Outcome.InsertedAt (o : Outcome α ε Ptr) (xs : List α) (p : Nat) (x : α) : Prop :=
  o.self.Holds o.heap (xs.take p ++ [x] ++ xs.drop p) ∧ o.self.size = xs.length + 1 ∧
    o.result = .ok (o.self.begin_ + p)

/-- The sequence `xs` with its last element replaced by what a move leaves of it. -/
def moved_last (E : ElemType α ε) (xs : List α) : List α :=
  match xs.getLast? with
  | some l => xs.dropLast ++ [E.moved_from l]
  | none => []

/-- Two vector objects own different blocks; two null buffers are not a shared block. -/
def Vector.Separate (a b : Vector) : Prop :=
  a.data.buffer = b.data.buffer → a.data.buffer = 0

instance (a b : Vector) : Decidable (a.Separate b) := by
  unfold Vector.Separate
  infer_instance

/-! ## Sequences of append and remove calls -/

/-- One call on the back of the vector: `PushBack(const T&)`, `PushBack(T&&)`,
`EmplaceBack(args...)` (given by the outcome of the constructor call) or `PopBack()`. -/
inductive BackCall (α ε : Type) where
  | push (value : α) : BackCall α ε
  | push_move (value : α) : BackCall α ε
  | emplace (args : Except ε α) : BackCall α ε
  | pop : BackCall α ε

/-- Whether the call is one of the appending ones. -/
def BackCall.appends : BackCall α ε → Bool
  | .pop => false
  | _ => true

/-- Perform one call; `none` when the call throws. -/
def BackCall.perform (E : ElemType α ε) (h : Heap α) (v : Vector) :
    BackCall α ε → Option (Heap α × Vector)
  | .push x =>
    let o := Vector.PushBack E h v x
    if o.succeeded then some (o.heap, o.self) else none
  | .push_move x =>
    let o := Vector.PushBackMove E h v x
    if o.succeeded then some (o.heap, o.self) else none
  | .emplace args =>
    let o := Vector.EmplaceBack E h v args
    if o.succeeded then some (o.heap, o.self) else none
  | .pop => some (Vector.PopBack h v)

/-- Perform the calls in order, starting from the given heap and vector; `none` as soon as a
call throws. -/
def perform_all (E : ElemType α ε) : Heap α → Vector → List (BackCall α ε) → Option (Heap α × Vector)
  | h, v, [] => some (h, v)
  | h, v, c :: cs =>
    match c.perform E h v with
    | some (h1, v1) => perform_all E h1 v1 cs
    | none => none

/-- The object a returning append call adds, for a list-based stack: the pushed value, or the
object the constructor call builds. -/
def BackCall.pushed : BackCall α ε → Option α
  | .push x => some x
  | .push_move x => some x
  | .emplace (.ok x) => some x
  | .emplace (.error _) => none
  | .pop => none

/-- One call on a list-based stack whose top is the end of the list. -/
def stack_step (xs : List α) (c : BackCall α ε) : List α :=
  match c with
  | .pop => xs.dropLast
  | c =>
    match c.pushed with
    | some x => xs ++ [x]
    | none => xs

/-- The list-based stack after the calls. -/
def stack_run (xs : List α) (cs : List (BackCall α ε)) : List α :=
  cs.foldl stack_step xs

/-- No `pop` in the sequence meets an empty stack. -/
def pops_nonempty : List α → List (BackCall α ε) → Bool
  | _, [] => true
  | xs, c :: cs =>
    (match c with
      | .pop => !xs.isEmpty
      | _ => true) && pops_nonempty (stack_step xs c) cs

/-- Number of appending calls in the sequence. -/
def count_pushes (cs : List (BackCall α ε)) : Nat :=
  (cs.filter BackCall.appends).length

/-- Number of `PopBack` calls in the sequence. -/
def count_pops (cs : List (BackCall α ε)) : Nat :=
  (cs.filter (fun c => !c.appends)).length

/-- An `int`-like element type: nothing throws, value-initialisation gives `0`, and a move
leaves its source as it was. -/
def int_elem : ElemType Nat Unit :=
  { value_init := .ok 0, copy_throws := fun _ => none, move_throws := fun _ => none,
    moved_from := fun x => x, nothrow_move_constructible := true, copy_constructible := true }

/-- A `std::string`-like element type: nothing throws, value-initialisation gives the empty
string, and a move leaves its source empty. -/
def string_elem : ElemType String Unit :=
  { value_init := .ok "", copy_throws := fun _ => none, move_throws := fun _ => none,
    moved_from := fun _ => "", nothrow_move_constructible := true, copy_constructible := true }

/-- A heap with a single block of `cap` slots holding `xs`, and `avail` slots left to hand
out. -/
def heap_of (xs : List α) (cap avail : Nat) : Heap α :=
  { blocks := [{ slots := layout xs cap, freed := false }], avail := avail }

/-- The vector whose storage is block `1` with `cap` slots and whose size is `n`. -/
def vector_of (n cap : Nat) : Vector :=
  { data := { buffer := 1, capacity := cap }, size := n }

/-- A heap with two blocks: block `1` of `c1` slots holding `xs` and block `2` of `c2` slots
holding `ys`. -/
def heap_two (xs ys : List α) (c1 c2 avail : Nat) : Heap α :=
  { blocks := [{ slots := layout xs c1, freed := false }, { slots := layout ys c2, freed := false }],
    avail := avail }

/-- The vector whose storage is block `b` with `cap` slots and whose size is `n`. -/
def vector_at (b n cap : Nat) : Vector :=
  { data := { buffer := b, capacity := cap }, size := n }

/-- A sample sequence of calls: two pushes, a pop, an emplace. -/
def sample_calls : List (BackCall Nat Unit) :=
  [.push 1, .push_move 2, .pop, .emplace (.ok 3)]

/-- The calls `PushBack(1); PushBack(2); PushBack(3)`. -/
def three_pushes : List (BackCall Nat Unit) :=
  [.push 1, .push 2, .push 3]

/-- The heap and vector that `sample_calls` lead to from a default-constructed vector and an
empty heap with 100 slots available. -/
def after_sample_calls : Heap Nat × Vector :=
  ({ blocks := [{ slots := [none], freed := true },
                { slots := [some 1, some 3], freed := false }], avail := 98 },
   { data := { buffer := 2, capacity := 2 }, size := 2 })

/-- The heap and vector that `Reserve(3)` followed by `three_pushes` lead to from a
default-constructed vector and an empty heap with 7 slots available. -/
def after_reserve_three_pushes : Heap Nat × Vector :=
  ({ blocks := [{ slots := [some 1, some 2, some 3], freed := false }], avail := 4 },
   { data := { buffer := 1, capacity := 3 }, size := 3 })

/-! ## Further observations on outcomes and objects -/

/-- The exception that escaped the member function, if one did. -/
def Outcome.thrown {α ε β : Type} (o : Outcome α ε β) : Option (Exn ε) :=
  match o.result with
  | .ok _ => none
  | .error e => some e

/-- The address of `buffer_[index]`, as returned by `RawMemory::operator[]`. -/
def RawMemory.index (m : RawMemory) (index : Nat) : Ptr := ⟨m.buffer, index⟩

/-- The address of `data_[index]`, as returned by `Vector::operator[]`. -/
def Vector.index (v : Vector) (index : Nat) : Ptr := v.data.index index

/-- An element write `v[index] = value` through the reference `operator[]` returns; `value` is
an object outside the container.  Assigning to a raw slot is undefined in the source; here it
does nothing. -/
def Vector.write (h : Heap α) (v : Vector) (index : Nat) (value : α) : Heap α :=
  match h.get (v.index index) with
  | some _ => h.set (v.index index) (some value)
  | none => h

/-- The class invariant of `Vector`: `size_` does not exceed `capacity_`, and of the slots of
the block exactly those at the indices `[0, size_)` hold a live object. -/
def Vector.Invariant (h : Heap α) (v : Vector) : Prop :=
  v.size ≤ v.data.capacity ∧
    ∀ i, i < v.data.capacity → ((h.get (v.data.add i)).isSome = true ↔ i < v.size)

instance (h : Heap α) (v : Vector) : Decidable (v.Invariant h) := by
  unfold Vector.Invariant
  infer_instance

/-- The heap `h'` has kept block `b` of `h`: its slots and whether it has been released are
the same, and no block has disappeared. -/
def Heap.Keeps (b : Nat) (h h' : Heap α) : Prop :=
  h'.slots b = h.slots b ∧ h'.freed b = h.freed b ∧ h.blocks.length ≤ h'.blocks.length

/-- The number of live objects in block `b`. -/
def Heap.live (h : Heap α) (b : Nat) : Nat :=
  ((h.slots b).filter Option.isSome).length

/-- An element type whose copy constructor throws the error code `7` when the object copied
is `13`, and whose move constructor is not `noexcept`: the container transfers its objects by
copy. -/
def throwing_elem : ElemType Nat Nat :=
  { value_init := .ok 0, copy_throws := fun x => if x = 13 then some 7 else none,
    move_throws := fun _ => none, moved_from := fun x => x,
    nothrow_move_constructible := false, copy_constructible := true }

/-- A move-only element type whose move constructor throws the error code `7` when the object
moved is `"bad"`, and leaves its source empty otherwise: the container transfers its objects
by move. -/
def move_only_elem : ElemType String Nat :=
  { value_init := .ok "", copy_throws := fun _ => none,
    move_throws := fun x => if x = "bad" then some 7 else none, moved_from := fun _ => "",
    nothrow_move_constructible := false, copy_constructible := false }

/-- The vector `b`, which holds `zs` in the heap `h`, is untouched by every mutating member
function called on the vector `a`: whatever the arguments and whether the call returns or
throws, `b` holds `zs` in the heap the call leaves, and the storage of `a` afterwards is still
separate from that of `b`. -/
def Vector.KeptByOps (E : ElemType α ε) (h : Heap α) (a b : Vector) (zs : List α) : Prop :=
  (∀ args, b.Holds (Vector.EmplaceBack E h a args).heap zs ∧
    (Vector.EmplaceBack E h a args).self.Separate b) ∧
  (∀ x, b.Holds (Vector.PushBack E h a x).heap zs ∧
    (Vector.PushBack E h a x).self.Separate b) ∧
  (∀ x, b.Holds (Vector.PushBackMove E h a x).heap zs ∧
    (Vector.PushBackMove E h a x).self.Separate b) ∧
  (b.Holds (Vector.PopBack h a).1 zs ∧ (Vector.PopBack h a).2.Separate b) ∧
  (∀ (p : Nat) args, b.Holds (Vector.Emplace E h a (a.begin_ + p) args).heap zs ∧
    (Vector.Emplace E h a (a.begin_ + p) args).self.Separate b) ∧
  (∀ (p : Nat) x, b.Holds (Vector.Insert E h a (a.begin_ + p) x).heap zs ∧
    (Vector.Insert E h a (a.begin_ + p) x).self.Separate b) ∧
  (∀ (p : Nat) x, b.Holds (Vector.InsertMove E h a (a.begin_ + p) x).heap zs ∧
    (Vector.InsertMove E h a (a.begin_ + p) x).self.Separate b) ∧
  (∀ p : Nat, b.Holds (Vector.Erase E h a (a.begin_ + p)).1 zs ∧
    (Vector.Erase E h a (a.begin_ + p)).2.1.Separate b) ∧
  (∀ n, b.Holds (Vector.Resize E h a n).heap zs ∧ (Vector.Resize E h a n).self.Separate b) ∧
  (∀ n, b.Holds (Vector.Reserve E h a n).heap zs ∧ (Vector.Reserve E h a n).self.Separate b) ∧
  (∀ i x, b.Holds (Vector.write h a i x) zs)

/-! ## The debug assertions

`RawMemory::operator+`, `RawMemory::operator[]` and `Vector::operator[]` each evaluate one
`assert`.  For every member function of `Vector` the list below gives the assertions a call
evaluates, in program order, along the path on which nothing throws, together with those
evaluated in the handlers; an exception can only cut the list short.  Pointer arithmetic on
`T*` (`GetAddress() + n`, `begin() + n`, `end() + 1`) evaluates no assertion. -/

/-- One evaluation of a debug assertion of the header, with the values it compares. -/
inductive Check where
  /-- The check `assert(offset <= capacity_)` of `RawMemory::operator+`. -/
  | offset_le (offset capacity : Nat) : Check
  /-- The check `assert(index < capacity_)` of `RawMemory::operator[]`. -/
  | index_lt (index capacity : Nat) : Check
  /-- The check `assert(index < size_)` of `Vector::operator[]`. -/
  | index_lt_size (index size : Nat) : Check
deriving DecidableEq, Repr

/-- The assertion does not fire. -/
def Check.passes : Check → Prop
  | .offset_le offset capacity => offset ≤ capacity
  | .index_lt index capacity => index < capacity
  | .index_lt_size index size => index < size

instance (c : Check) : Decidable c.passes := by
  cases c <;> unfold Check.passes <;> infer_instance

/-- The assertion evaluated by `m + offset`. -/
def RawMemory.add_check (m : RawMemory) (offset : Nat) : Check := .offset_le offset m.capacity

/-- The assertion evaluated by `m[index]`. -/
def RawMemory.index_check (m : RawMemory) (index : Nat) : Check := .index_lt index m.capacity

namespace Vector

/-- The assertion of `begin()`, that is of `data_ + 0`. -/
def begin_checks (self : Vector) : List Check := [self.data.add_check 0]

/-- The assertion of `end()`, that is of `data_ + size_`. -/
def end_checks (self : Vector) : List Check := [self.data.add_check self.size]

/-- The assertions of `operator[](index)`: its own, then that of `data_[index]`. -/
def index_checks (self : Vector) (index : Nat) : List Check :=
  [.index_lt_size index self.size, self.data.index_check index]

/-- The assertions of the copy assignment: `data_[counter]` and `rhs.data_[counter]` in each
round of the loop, then `rhs.data_ + size_` and `data_ + size_`.  The branch that copies and
swaps evaluates none. -/
def copy_assign_checks (self : Vector) (rhs : Rhs) : List Check :=
  match rhs with
  | .this => []
  | .other rhs =>
    if rhs.size > self.data.Capacity then []
    else
      if rhs.size < self.size then
        (List.range rhs.size).flatMap
          (fun counter => [self.data.index_check counter, rhs.data.index_check counter])
      else
        (List.range self.size).flatMap
          (fun counter => [self.data.index_check counter, rhs.data.index_check counter]) ++
        [rhs.data.add_check self.size, self.data.add_check self.size]

/-- The capacity of `data_` after a `Reserve(new_capacity)` that returned. -/
def reserved_capacity (self : Vector) (new_capacity : Nat) : Nat :=
  if new_capacity ≤ self.data.Capacity then self.data.capacity else new_capacity

/-- The assertions of `Resize(new_size)`: `data_ + new_size` when shrinking, `data_ + size_`
on the storage left by `Reserve(new_size)` when growing. -/
def Resize_checks (self : Vector) (new_size : Nat) : List Check :=
  if new_size < self.size then [self.data.add_check new_size]
  else if new_size > self.size then [.offset_le self.size (self.reserved_capacity new_size)]
  else []

/-- The capacity of the storage `new_data` that a growing call allocates. -/
def new_data_capacity (self : Vector) : Nat :=
  if self.size ≠ 0 then self.Capacity * 2 else 1

/-- The assertions of both overloads of `PushBack`: `new_data + size_` or `data_ + size_`. -/
def PushBack_checks (self : Vector) : List Check :=
  if self.size = self.Capacity then [.offset_le self.size self.new_data_capacity]
  else [self.data.add_check self.size]

/-- The assertions of `EmplaceBack`: those of `PushBack`, then `data_[size_ - 1]` with the new
size on the storage the call has installed. -/
def EmplaceBack_checks (self : Vector) : List Check :=
  if self.size = self.Capacity then
    [.offset_le self.size self.new_data_capacity,
      .index_lt (self.size + 1 - 1) self.new_data_capacity]
  else [self.data.add_check self.size, self.data.index_check (self.size + 1 - 1)]

/-- The assertion of `PopBack`: `data_ + (size_ - 1)`. -/
def PopBack_checks (self : Vector) : List Check := [self.data.add_check (self.size - 1)]

/-- The assertions of `Emplace(pos, args...)`, which are also those of both overloads of
`Insert`: `begin()` for the distance; when reallocating `new_data + dist_save`, then
`begin()`, `data_ + dist_save`, `begin()`, `end()`, `new_data + dist_save` for the two
transfers, with `new_data + dist_save` of the first handler in between when the transfer is by
copy; in place `data_ + size_`, `data_[size_ - 1]`, `end()`, `end()`, `begin()`, `begin()`
unless the vector is empty; finally `begin()` on the storage the call leaves. -/
def Emplace_checks (E : ElemType α ε) (self : Vector) (pos : Ptr) : List Check :=
  let dist_save := pos.off - self.begin_.off
  self.begin_checks ++
  (if self.size = self.Capacity then
    [.offset_le dist_save self.new_data_capacity] ++
    (if E.nothrow_move_constructible || !E.copy_constructible then
      self.begin_checks ++ [self.data.add_check dist_save] ++
      self.begin_checks ++ self.end_checks ++ [.offset_le dist_save self.new_data_capacity]
    else
      self.begin_checks ++ [self.data.add_check dist_save] ++
      [.offset_le dist_save self.new_data_capacity] ++
      self.begin_checks ++ self.end_checks ++ [.offset_le dist_save self.new_data_capacity]) ++
    [.offset_le 0 self.new_data_capacity]
  else
    (if self.size = 0 then []
    else
      [self.data.add_check self.size, self.data.index_check (self.size - 1)] ++
      self.end_checks ++ self.end_checks ++ self.begin_checks ++ self.begin_checks) ++
    [self.data.add_check 0])

/-- The assertions of `Erase(pos)`: `begin()`, `end()`, `data_ + (size_ - 1)`, `begin()`. -/
def Erase_checks (self : Vector) : List Check :=
  self.begin_checks ++ self.end_checks ++ [self.data.add_check (self.size - 1)] ++
    self.begin_checks

end Vector

/-! ## Theorems -/

section HeapLemmas

variable {α ε : Type}

@[simp] theorem Ptr.add_block (p : Ptr) (n : Nat) : (p + n).block = p.block := rfl

@[simp] theorem Ptr.add_off (p : Ptr) (n : Nat) : (p + n).off = p.off + n := rfl

theorem Ptr.eq_iff (p q : Ptr) : p = q ↔ p.block = q.block ∧ p.off = q.off := by
  cases p; cases q; simp

theorem Heap.slots_set (h : Heap α) (p : Ptr) (s : Option α) (b : Nat) :
    (h.set p s).slots b = if b = p.block then (h.slots b).set p.off s else h.slots b := by
  unfold Heap.set Heap.slots
  rcases p with ⟨pb, po⟩
  cases pb with
  | zero =>
    cases b with
    | zero => simp
    | succ b => simp
  | succ pb =>
    cases b with
    | zero => simp
    | succ b =>
      simp only
      cases hb : h.blocks[pb]? with
      | none =>
        by_cases hbb : b = pb
        · subst hbb; simp [hb]
        · simp [hbb]
      | some blk =>
        by_cases hbb : b = pb
        · subst hbb; simp [hb, List.getElem?_set]
          have := List.getElem?_eq_some_iff.mp hb
          obtain ⟨hlt, _⟩ := this
          simp [hlt]
        · have : ¬ pb = b := fun h => hbb h.symm
          simp [hbb, List.getElem?_set, this]

theorem Heap.slot_set (h : Heap α) (p q : Ptr) (s : Option α) :
    (h.set p s).slot q = if q = p then (h.slot p).map (fun _ => s) else h.slot q := by
  unfold Heap.slot
  rw [Heap.slots_set]
  by_cases hb : q.block = p.block
  · by_cases ho : q.off = p.off
    · have : q = p := (Ptr.eq_iff q p).mpr ⟨hb, ho⟩
      subst this
      simp [List.getElem?_set]
      by_cases hl : q.off < (h.slots q.block).length
      · simp [hl]
      · have hn : (h.slots q.block)[q.off]? = none := List.getElem?_eq_none (by omega)
        simp [hl, hn]
    · have : ¬ q = p := fun e => ho (by rw [e])
      have ho2 : ¬ p.off = q.off := fun e => ho e.symm
      simp [hb, this, List.getElem?_set, ho2]
  · have : ¬ q = p := fun e => hb (by rw [e])
    simp [hb, this]

theorem Heap.sameShape_refl (h : Heap α) : h.SameShape h :=
  ⟨rfl, rfl, fun _ => ⟨rfl, rfl⟩⟩

theorem Heap.SameShape.trans {h1 h2 h3 : Heap α} (a : h1.SameShape h2) (b : h2.SameShape h3) :
    h1.SameShape h3 :=
  ⟨b.1.trans a.1, b.2.1.trans a.2.1,
    fun c => ⟨((b.2.2 c).1).trans (a.2.2 c).1, ((b.2.2 c).2).trans (a.2.2 c).2⟩⟩

theorem Heap.sameShape_set (h : Heap α) (p : Ptr) (s : Option α) : h.SameShape (h.set p s) := by
  refine ⟨?_, ?_, fun b => ⟨?_, ?_⟩⟩
  · unfold Heap.set
    split
    · rfl
    · split <;> simp
  · unfold Heap.set
    split
    · rfl
    · split <;> simp
  · rcases p with ⟨pb, po⟩
    unfold Heap.set Heap.freed
    cases pb with
    | zero => rfl
    | succ pb =>
      cases b with
      | zero => rfl
      | succ b =>
        simp only
        cases hb : h.blocks[pb]? with
        | none => rfl
        | some blk =>
          simp only [List.getElem?_set]
          by_cases hbb : pb = b
          · subst hbb
            have := (List.getElem?_eq_some_iff.mp hb).1
            simp [hb, this]
          · simp [hbb]
  · rw [Heap.slots_set]
    split <;> simp

theorem Heap.slot_isSome (h : Heap α) (p : Ptr) :
    (h.slot p).isSome = true ↔ p.off < (h.slots p.block).length := by
  unfold Heap.slot
  constructor
  · intro hs
    by_contra hc
    rw [List.getElem?_eq_none (by omega)] at hs
    simp at hs
  · intro hl
    rw [List.getElem?_eq_getElem hl]
    rfl

theorem Heap.slot_eq_none (h : Heap α) (p : Ptr) :
    h.slot p = none ↔ (h.slots p.block).length ≤ p.off := by
  unfold Heap.slot
  simp

theorem Heap.get_eq (h : Heap α) (p : Ptr) : h.get p = (h.slot p).join := rfl

theorem Heap.get_eq_some (h : Heap α) (p : Ptr) (x : α) :
    h.get p = some x ↔ h.slot p = some (some x) := by
  unfold Heap.get
  cases h.slot p with
  | none => simp
  | some s => cases s <;> simp

theorem sameShape_destroy_n (n : Nat) (h : Heap α) (p : Ptr) : h.SameShape (destroy_n h p n) := by
  induction n generalizing h p with
  | zero => exact Heap.sameShape_refl h
  | succ n ih => exact (Heap.sameShape_set h p none).trans (ih _ _)

theorem slot_destroy_n (n : Nat) (h : Heap α) (p q : Ptr) :
    (destroy_n h p n).slot q =
      if q.block = p.block ∧ p.off ≤ q.off ∧ q.off < p.off + n
      then (h.slot q).map (fun _ => none) else h.slot q := by
  induction n generalizing h p with
  | zero =>
    have c : ¬ (q.block = p.block ∧ p.off ≤ q.off ∧ q.off < p.off + 0) := by omega
    rw [destroy_n, if_neg c]
  | succ n ih =>
    rw [destroy_n, ih, Heap.slot_set]
    simp only [Ptr.add_block, Ptr.add_off, Ptr.eq_iff]
    by_cases hb : q.block = p.block
    · by_cases h1 : q.off = p.off
      · have c1 : ¬ (p.off + 1 ≤ q.off) := by omega
        have c2 : p.off ≤ q.off ∧ q.off < p.off + (n + 1) := by omega
        have e : q = p := (Ptr.eq_iff q p).mpr ⟨hb, h1⟩
        subst e
        simp [c1]
      · by_cases h2 : p.off + 1 ≤ q.off ∧ q.off < p.off + 1 + n
        · have c2 : p.off ≤ q.off ∧ q.off < p.off + (n + 1) := by omega
          simp [hb, h1, h2, c2]
        · have c2 : ¬ (p.off ≤ q.off ∧ q.off < p.off + (n + 1)) := by omega
          simp [hb, h1, h2, c2]
    · simp [hb]

end HeapLemmas
section LoopLemmas
variable {α ε : Type}

theorem Heap.get_set_of_ne (h : Heap α) (p q : Ptr) (s : Option α) (hne : q ≠ p) :
    (h.set p s).get q = h.get q := by
  rw [Heap.get_eq, Heap.get_eq, Heap.slot_set, if_neg hne]

theorem copy_construct_at_eq (E : ElemType α ε) (h : Heap α) (dst src : Ptr) (x : α)
    (hx : h.get src = some x) (hok : (copy_construct_at E h dst src).2 = none) :
    copy_construct_at E h dst src = (h.set dst (some x), none) := by
  unfold copy_construct_at at hok ⊢
  rw [hx] at hok ⊢
  simp only at hok ⊢
  cases ht : E.copy_throws x with
  | none => rfl
  | some e => rw [ht] at hok; simp at hok

theorem move_construct_at_eq (E : ElemType α ε) (h : Heap α) (dst src : Ptr) (x : α)
    (hx : h.get src = some x) (hok : (move_construct_at E h dst src).2 = none) :
    move_construct_at E h dst src =
      ((h.set dst (some x)).set src (some (E.moved_from x)), none) := by
  unfold move_construct_at at hok ⊢
  rw [hx] at hok ⊢
  simp only at hok ⊢
  cases ht : E.move_throws x with
  | none => rfl
  | some e => rw [ht] at hok; simp at hok

theorem uninitialized_copy_loop_spec (E : ElemType α ε) (first d : Ptr)
    (hne : first.block ≠ d.block) (n i : Nat) (h : Heap α)
    (hsrc : ∀ k, i ≤ k → k < i + n → ∃ x, h.get (first + k) = some x)
    (hok : (uninitialized_copy_loop E first d n i h).2 = none) :
    h.SameShape (uninitialized_copy_loop E first d n i h).1 ∧
    ∀ q, (uninitialized_copy_loop E first d n i h).1.slot q =
      if q.block = d.block ∧ d.off + i ≤ q.off ∧ q.off < d.off + i + n
      then (h.slot q).map (fun _ => h.get ⟨first.block, first.off + (q.off - d.off)⟩)
      else h.slot q := by
  induction n generalizing i h with
  | zero =>
    refine ⟨Heap.sameShape_refl h, fun q => ?_⟩
    have c : ¬ (q.block = d.block ∧ d.off + i ≤ q.off ∧ q.off < d.off + i + 0) := by omega
    rw [if_neg c]; rfl
  | succ n ih =>
    obtain ⟨x, hx⟩ := hsrc i (le_refl _) (by omega)
    unfold uninitialized_copy_loop at hok ⊢
    have hstep : (copy_construct_at E h (d + i) (first + i)).2 = none := by
      cases hc : copy_construct_at E h (d + i) (first + i) with
      | mk h1 r =>
        cases r with
        | none => rfl
        | some e => rw [hc] at hok; simp at hok
    rw [copy_construct_at_eq E h _ _ x hx hstep] at hok ⊢
    simp only at hok ⊢
    have hsrc1 : ∀ k, i + 1 ≤ k → k < i + 1 + n →
        ∃ y, (h.set (d + i) (some x)).get (first + k) = some y := by
      intro k hk1 hk2
      obtain ⟨y, hy⟩ := hsrc k (by omega) (by omega)
      refine ⟨y, ?_⟩
      rw [Heap.get_set_of_ne _ _ _ _ ?_]
      · exact hy
      · intro e; apply hne; have := congrArg Ptr.block e; simpa using this
    obtain ⟨sh, sl⟩ := ih (i + 1) _ hsrc1 hok
    refine ⟨(Heap.sameShape_set h _ _).trans sh, fun q => ?_⟩
    rw [sl q]
    have hsrcq : (h.set (d + i) (some x)).get ⟨first.block, first.off + (q.off - d.off)⟩ =
        h.get ⟨first.block, first.off + (q.off - d.off)⟩ := by
      apply Heap.get_set_of_ne
      intro e; apply hne; have := congrArg Ptr.block e; simpa using this
    rw [hsrcq, Heap.slot_set]
    by_cases e : q = d + i
    · have hb : q.block = d.block := by rw [e]; rfl
      have h1 : q.off = d.off + i := by rw [e]; rfl
      have c1 : ¬ (q.block = d.block ∧ d.off + (i + 1) ≤ q.off ∧ q.off < d.off + (i + 1) + n) := by
        omega
      have c2 : q.block = d.block ∧ d.off + i ≤ q.off ∧ q.off < d.off + i + (n + 1) :=
        ⟨hb, by omega, by omega⟩
      have hfx : h.get ⟨first.block, first.off + (q.off - d.off)⟩ = some x := by
        have : first.off + (q.off - d.off) = first.off + i := by omega
        rw [this]; exact hx
      rw [if_neg c1, if_pos c2, if_pos e, hfx, ← e]
    · rw [if_neg e]
      by_cases c2 : q.block = d.block ∧ d.off + i ≤ q.off ∧ q.off < d.off + i + (n + 1)
      · have c1 : q.block = d.block ∧ d.off + (i + 1) ≤ q.off ∧ q.off < d.off + (i + 1) + n := by
          refine ⟨c2.1, ?_, by omega⟩
          by_contra hc
          apply e
          exact (Ptr.eq_iff _ _).mpr ⟨c2.1, by simp only [Ptr.add_off]; omega⟩
        rw [if_pos c1, if_pos c2]
      · have c1 : ¬ (q.block = d.block ∧ d.off + (i + 1) ≤ q.off ∧ q.off < d.off + (i + 1) + n) := by
          omega
        rw [if_neg c1, if_neg c2]

theorem slot_move_step (E : ElemType α ε) (h : Heap α) (dst src q : Ptr) (x : α)
    (hx : h.get src = some x) (hne : src ≠ dst) :
    ((h.set dst (some x)).set src (some (E.moved_from x))).slot q =
      if q = src then some (some (E.moved_from x))
      else if q = dst then (h.slot dst).map (fun _ => some x) else h.slot q := by
  rw [Heap.slot_set, Heap.slot_set, Heap.slot_set, if_neg hne]
  by_cases e : q = src
  · rw [if_pos e, if_pos e, (Heap.get_eq_some h src x).mp hx]; rfl
  · rw [if_neg e, if_neg e]

theorem get_move_step_of_ne (E : ElemType α ε) (h : Heap α) (dst src q : Ptr) (x : α)
    (h1 : q ≠ src) (h2 : q ≠ dst) :
    ((h.set dst (some x)).set src (some (E.moved_from x))).get q = h.get q := by
  rw [Heap.get_set_of_ne _ _ _ _ h1, Heap.get_set_of_ne _ _ _ _ h2]

theorem sameShape_move_step (E : ElemType α ε) (h : Heap α) (dst src : Ptr) (x : α) :
    h.SameShape ((h.set dst (some x)).set src (some (E.moved_from x))) :=
  (Heap.sameShape_set h _ _).trans (Heap.sameShape_set _ _ _)

theorem uninitialized_move_loop_spec (E : ElemType α ε) (first d : Ptr)
    (hne : first.block ≠ d.block) (n i : Nat) (h : Heap α)
    (hsrc : ∀ k, i ≤ k → k < i + n → ∃ x, h.get (first + k) = some x)
    (hok : (uninitialized_move_loop E first d n i h).2 = none) :
    h.SameShape (uninitialized_move_loop E first d n i h).1 ∧
    ∀ q, (uninitialized_move_loop E first d n i h).1.slot q =
      if q.block = d.block ∧ d.off + i ≤ q.off ∧ q.off < d.off + i + n
      then (h.slot q).map (fun _ => h.get ⟨first.block, first.off + (q.off - d.off)⟩)
      else if q.block = first.block ∧ first.off + i ≤ q.off ∧ q.off < first.off + i + n
      then (h.slot q).map (Option.map E.moved_from)
      else h.slot q := by
  induction n generalizing i h with
  | zero =>
    refine ⟨Heap.sameShape_refl h, fun q => ?_⟩
    have c : ¬ (q.block = d.block ∧ d.off + i ≤ q.off ∧ q.off < d.off + i + 0) := by omega
    have c' : ¬ (q.block = first.block ∧ first.off + i ≤ q.off ∧ q.off < first.off + i + 0) := by
      omega
    rw [if_neg c, if_neg c']; rfl
  | succ n ih =>
    obtain ⟨x, hx⟩ := hsrc i (le_refl _) (by omega)
    unfold uninitialized_move_loop at hok ⊢
    have hstep : (move_construct_at E h (d + i) (first + i)).2 = none := by
      cases hc : move_construct_at E h (d + i) (first + i) with
      | mk h1 r =>
        cases r with
        | none => rfl
        | some e => rw [hc] at hok; simp at hok
    rw [move_construct_at_eq E h _ _ x hx hstep] at hok ⊢
    simp only at hok ⊢
    have hfd : first + i ≠ d + i := by
      intro e; apply hne; have := congrArg Ptr.block e; simpa using this
    have hsrc1 : ∀ k, i + 1 ≤ k → k < i + 1 + n →
        ∃ y, ((h.set (d + i) (some x)).set (first + i) (some (E.moved_from x))).get (first + k)
          = some y := by
      intro k hk1 hk2
      obtain ⟨y, hy⟩ := hsrc k (by omega) (by omega)
      refine ⟨y, ?_⟩
      rw [get_move_step_of_ne]
      · exact hy
      · intro e; have := congrArg Ptr.off e; simp at this; omega
      · intro e; apply hne; have := congrArg Ptr.block e; simpa using this
    obtain ⟨sh, sl⟩ := ih (i + 1) _ hsrc1 hok
    refine ⟨(sameShape_move_step E h _ _ x).trans sh, fun q => ?_⟩
    rw [sl q, slot_move_step E h _ _ q x hx hfd]
    by_cases e : q = d + i
    · have hb : q.block = d.block := by rw [e]; rfl
      have h1 : q.off = d.off + i := by rw [e]; rfl
      have e' : ¬ q = first + i := by rw [e]; exact fun c => hfd c.symm
      have c1 : ¬ (q.block = d.block ∧ d.off + (i + 1) ≤ q.off ∧ q.off < d.off + (i + 1) + n) := by
        omega
      have c3 : ¬ (q.block = first.block ∧ first.off + (i + 1) ≤ q.off ∧
          q.off < first.off + (i + 1) + n) := by
        intro c; apply hne; rw [← c.1, hb]
      have c2 : q.block = d.block ∧ d.off + i ≤ q.off ∧ q.off < d.off + i + (n + 1) :=
        ⟨hb, by omega, by omega⟩
      have hfx : h.get ⟨first.block, first.off + (q.off - d.off)⟩ = some x := by
        have : first.off + (q.off - d.off) = first.off + i := by omega
        rw [this]; exact hx
      rw [if_neg c1, if_neg c3, if_pos c2, if_neg e', if_pos e, hfx, ← e]
    · by_cases e' : q = first + i
      · have hb : q.block = first.block := by rw [e']; rfl
        have h1 : q.off = first.off + i := by rw [e']; rfl
        have c1 : ¬ (q.block = d.block ∧ d.off + (i + 1) ≤ q.off ∧
            q.off < d.off + (i + 1) + n) := by
          intro c; apply hne; rw [← c.1, hb]
        have c2 : ¬ (q.block = d.block ∧ d.off + i ≤ q.off ∧ q.off < d.off + i + (n + 1)) := by
          intro c; apply hne; rw [← c.1, hb]
        have c3 : ¬ (q.block = first.block ∧ first.off + (i + 1) ≤ q.off ∧
            q.off < first.off + (i + 1) + n) := by omega
        have c4 : q.block = first.block ∧ first.off + i ≤ q.off ∧
            q.off < first.off + i + (n + 1) := ⟨hb, by omega, by omega⟩
        have hs := (Heap.get_eq_some h (first + i) x).mp hx
        rw [if_neg c1, if_neg c3, if_neg c2, if_pos c4, if_pos e', e', hs]; rfl
      · rw [if_neg e', if_neg e]
        by_cases c2 : q.block = d.block ∧ d.off + i ≤ q.off ∧ q.off < d.off + i + (n + 1)
        · have c1 : q.block = d.block ∧ d.off + (i + 1) ≤ q.off ∧
              q.off < d.off + (i + 1) + n := by
            refine ⟨c2.1, ?_, by omega⟩
            by_contra hc
            exact e ((Ptr.eq_iff _ _).mpr ⟨c2.1, by simp only [Ptr.add_off]; omega⟩)
          have hq1 : ¬ (⟨first.block, first.off + (q.off - d.off)⟩ : Ptr) = first + i := by
            intro c; have := congrArg Ptr.off c; simp at this; omega
          have hq2 : ¬ (⟨first.block, first.off + (q.off - d.off)⟩ : Ptr) = d + i := by
            intro c; apply hne; have := congrArg Ptr.block c; simpa using this
          rw [if_pos c1, if_pos c2, get_move_step_of_ne E h _ _ _ x hq1 hq2]
        · have c1 : ¬ (q.block = d.block ∧ d.off + (i + 1) ≤ q.off ∧
              q.off < d.off + (i + 1) + n) := by omega
          rw [if_neg c1, if_neg c2]
          by_cases c4 : q.block = first.block ∧ first.off + i ≤ q.off ∧
              q.off < first.off + i + (n + 1)
          · have c3 : q.block = first.block ∧ first.off + (i + 1) ≤ q.off ∧
                q.off < first.off + (i + 1) + n := by
              refine ⟨c4.1, ?_, by omega⟩
              by_contra hc
              exact e' ((Ptr.eq_iff _ _).mpr ⟨c4.1, by simp only [Ptr.add_off]; omega⟩)
            rw [if_pos c3, if_pos c4]
          · have c3 : ¬ (q.block = first.block ∧ first.off + (i + 1) ≤ q.off ∧
                q.off < first.off + (i + 1) + n) := by omega
            rw [if_neg c3, if_neg c4]

end LoopLemmas
section LoopLemmas2
variable {α ε : Type}

theorem Ptr.add_add (p : Ptr) (a b : Nat) : ((p + a : Ptr) + b : Ptr) = (p + (a + b) : Ptr) := by
  apply (Ptr.eq_iff _ _).mpr
  simp only [Ptr.add_block, Ptr.add_off]
  exact ⟨trivial, Nat.add_assoc _ _ _⟩

theorem Ptr.add_zero (p : Ptr) : (p + 0 : Ptr) = p := by
  apply (Ptr.eq_iff _ _).mpr
  simp

theorem move_assign_at_eq (E : ElemType α ε) (h : Heap α) (dst src : Ptr) (x : α)
    (hx : h.get src = some x) :
    move_assign_at E h dst src = (h.set dst (some x)).set src (some (E.moved_from x)) := by
  unfold move_assign_at
  rw [hx]

theorem Heap.slot_of_lt (h : Heap α) (p q : Ptr) (hb : q.block = p.block) (ho : q.off ≤ p.off)
    (hp : h.slot p ≠ none) : ∃ s, h.slot q = some s := by
  have h1 : p.off < (h.slots p.block).length := by
    by_contra hc
    exact hp ((Heap.slot_eq_none h p).mpr (by omega))
  have h2 : q.off < (h.slots q.block).length := by rw [hb]; omega
  exact ⟨_, List.getElem?_eq_getElem h2⟩

theorem move_loop_spec (E : ElemType α ε) (n : Nat) (first d : Ptr) (h : Heap α)
    (hb : first.block = d.block) (hlt : d.off < first.off)
    (hsrc : ∀ k, k < n → ∃ x, h.get (first + k) = some x) :
    h.SameShape (move_loop E n first d h) ∧
    ∀ q, (move_loop E n first d h).slot q =
      if q.block = d.block ∧ d.off ≤ q.off ∧ q.off < d.off + n
      then h.slot ⟨d.block, q.off + (first.off - d.off)⟩
      else if q.block = d.block ∧ first.off ≤ q.off ∧ q.off < first.off + n
      then (h.slot q).map (Option.map E.moved_from)
      else h.slot q := by
  induction n generalizing first d h with
  | zero =>
    refine ⟨Heap.sameShape_refl h, fun q => ?_⟩
    have c : ¬ (q.block = d.block ∧ d.off ≤ q.off ∧ q.off < d.off + 0) := by omega
    have c' : ¬ (q.block = d.block ∧ first.off ≤ q.off ∧ q.off < first.off + 0) := by omega
    rw [if_neg c, if_neg c']; rfl
  | succ n ih =>
    obtain ⟨x, hx0⟩ := hsrc 0 (by omega)
    have hx : h.get first = some x := by rw [Ptr.add_zero] at hx0; exact hx0
    unfold move_loop
    rw [move_assign_at_eq E h d first x hx]
    have hfd : first ≠ d := by
      intro e; have := congrArg Ptr.off e; omega
    have hsrc1 : ∀ k, k < n →
        ∃ y, ((h.set d (some x)).set first (some (E.moved_from x))).get (first + 1 + k)
          = some y := by
      intro k hk
      obtain ⟨y, hy⟩ := hsrc (k + 1) (by omega)
      refine ⟨y, ?_⟩
      rw [get_move_step_of_ne]
      · rw [Ptr.add_add, Nat.add_comm 1 k]; exact hy
      · intro e; have := congrArg Ptr.off e; simp at this; omega
      · intro e; have := congrArg Ptr.off e; simp at this; omega
    obtain ⟨sh, sl⟩ := ih (first + 1) (d + 1) _ (by simpa using hb) (by simp; omega) hsrc1
    refine ⟨(sameShape_move_step E h _ _ x).trans sh, fun q => ?_⟩
    rw [sl q]
    simp only [Ptr.add_block, Ptr.add_off, Nat.add_sub_add_right]
    have hs := (Heap.get_eq_some h first x).mp hx
    obtain ⟨sd, hsd⟩ := Heap.slot_of_lt h first d hb.symm (by omega) (by rw [hs]; simp)
    by_cases c1 : q.block = d.block ∧ d.off + 1 ≤ q.off ∧ q.off < d.off + 1 + n
    · have c2 : q.block = d.block ∧ d.off ≤ q.off ∧ q.off < d.off + (n + 1) := by omega
      have n1 : (⟨d.block, q.off + (first.off - d.off)⟩ : Ptr) ≠ first := by
        intro e; have := congrArg Ptr.off e; simp at this; omega
      have n2 : (⟨d.block, q.off + (first.off - d.off)⟩ : Ptr) ≠ d := by
        intro e; have := congrArg Ptr.off e; simp at this; omega
      rw [if_pos c1, if_pos c2, slot_move_step E h _ _ _ x hx hfd, if_neg n1, if_neg n2]
    · rw [if_neg c1]
      by_cases e : q = d
      · have c3 : ¬ (q.block = d.block ∧ first.off + 1 ≤ q.off ∧ q.off < first.off + 1 + n) := by
          rw [e]; omega
        have c2 : q.block = d.block ∧ d.off ≤ q.off ∧ q.off < d.off + (n + 1) := by
          rw [e]; omega
        have e' : ¬ q = first := by rw [e]; exact fun c => hfd c.symm
        have hsrcq : (⟨d.block, q.off + (first.off - d.off)⟩ : Ptr) = first := by
          apply (Ptr.eq_iff _ _).mpr; rw [e]; simp; omega
        rw [if_neg c3, if_pos c2, slot_move_step E h _ _ _ x hx hfd, if_neg e', if_pos e,
          hsrcq, hs, hsd]; rfl
      · have c2 : ¬ (q.block = d.block ∧ d.off ≤ q.off ∧ q.off < d.off + (n + 1)) := by
          intro c
          rcases Nat.lt_or_ge d.off q.off with hl | hl
          · exact c1 ⟨c.1, by omega, by omega⟩
          · exact e ((Ptr.eq_iff _ _).mpr ⟨c.1, by omega⟩)
        rw [if_neg c2]
        by_cases e' : q = first
        · have c3 : ¬ (q.block = d.block ∧ first.off + 1 ≤ q.off ∧
              q.off < first.off + 1 + n) := by rw [e']; omega
          have c4 : q.block = d.block ∧ first.off ≤ q.off ∧ q.off < first.off + (n + 1) := by
            rw [e']; omega
          rw [if_neg c3, if_pos c4, slot_move_step E h _ _ _ x hx hfd, if_pos e', e', hs]; rfl
        · by_cases c4 : q.block = d.block ∧ first.off ≤ q.off ∧ q.off < first.off + (n + 1)
          · have c3 : q.block = d.block ∧ first.off + 1 ≤ q.off ∧ q.off < first.off + 1 + n := by
              refine ⟨c4.1, ?_, by omega⟩
              by_contra hc
              exact e' ((Ptr.eq_iff _ _).mpr ⟨by rw [c4.1, hb], by omega⟩)
            rw [if_pos c3, if_pos c4, slot_move_step E h _ _ _ x hx hfd, if_neg e', if_neg e]
          · have c3 : ¬ (q.block = d.block ∧ first.off + 1 ≤ q.off ∧
                q.off < first.off + 1 + n) := by omega
            rw [if_neg c3, if_neg c4, slot_move_step E h _ _ _ x hx hfd, if_neg e', if_neg e]

end LoopLemmas2
section HoldsLemmas
variable {α ε : Type}

theorem layout_length (xs : List α) (cap : Nat) (hle : xs.length ≤ cap) :
    (layout xs cap).length = cap := by
  simp [layout]; omega

theorem layout_getElem? (xs : List α) (cap j : Nat) :
    (layout xs cap)[j]? =
      if j < xs.length then some xs[j]? else if j < cap then some none else none := by
  unfold layout
  by_cases h1 : j < xs.length
  · rw [if_pos h1, List.getElem?_append_left (by simpa using h1)]
    simp [List.getElem?_eq_getElem h1]
  · rw [if_neg h1, List.getElem?_append_right (by simpa using h1)]
    simp only [List.length_map]
    by_cases h2 : j < cap
    · rw [if_pos h2, List.getElem?_eq_getElem (by simp; omega)]
      simp
    · rw [if_neg h2, List.getElem?_eq_none (by simp; omega)]

theorem slots_eq_layout_iff (h : Heap α) (b : Nat) (xs : List α) (cap : Nat) :
    h.slots b = layout xs cap ↔
      ∀ j, h.slot ⟨b, j⟩ =
        if j < xs.length then some xs[j]? else if j < cap then some none else none := by
  constructor
  · intro e j
    show (h.slots b)[j]? = _
    rw [e, layout_getElem?]
  · intro e
    apply List.ext_getElem?
    intro j
    rw [layout_getElem?]
    exact e j

theorem Vector.Holds.elems_eq {h : Heap α} {v : Vector} {xs : List α} (hv : v.Holds h xs) :
    v.elems h = xs := by
  obtain ⟨h1, _, _, _, h5⟩ := hv
  unfold Vector.elems
  rw [h5, h1, layout, List.take_left' (by simp)]
  simp [List.reduceOption]

end HoldsLemmas

section AllocLemmas
variable {α ε : Type}

theorem Allocate_spec (h : Heap α) (n : Nat) (h1 : Heap α) (nb : Nat) (hn : n ≠ 0)
    (ha : Allocate h n = some (h1, nb)) :
    nb = h.blocks.length + 1 ∧ h1.blocks.length = h.blocks.length + 1 ∧
    (∀ b, b ≤ h.blocks.length → h1.slots b = h.slots b ∧ h1.freed b = h.freed b) ∧
    h1.slots nb = List.replicate n none ∧ h1.freed nb = false := by
  unfold Allocate at ha
  rw [if_pos hn] at ha
  by_cases hav : n ≤ h.avail
  · rw [if_pos hav] at ha
    simp only [Option.some.injEq, Prod.mk.injEq] at ha
    obtain ⟨e1, e2⟩ := ha
    subst e1 e2
    refine ⟨rfl, by simp, ?_, ?_, ?_⟩
    · intro b hb
      cases b with
      | zero => exact ⟨rfl, rfl⟩
      | succ b =>
        have hlt : b < h.blocks.length := by omega
        simp [Heap.slots, Heap.freed, List.getElem?_append_left hlt]
    · simp [Heap.slots]
    · simp [Heap.freed]
  · rw [if_neg hav] at ha
    simp at ha

theorem Allocate_zero (h : Heap α) : Allocate h 0 = some (h, 0) := by
  simp [Allocate]

theorem RawMemory.create_spec (h : Heap α) (n : Nat) (h1 : Heap α) (m : RawMemory)
    (hc : RawMemory.create h n = some (h1, m)) :
    m.capacity = n ∧ Allocate h n = some (h1, m.buffer) := by
  unfold RawMemory.create at hc
  cases ha : Allocate h n with
  | none => rw [ha] at hc; simp at hc
  | some r =>
    obtain ⟨h2, b⟩ := r
    rw [ha] at hc
    simp only [Option.some.injEq, Prod.mk.injEq] at hc
    obtain ⟨e1, e2⟩ := hc
    subst e1 e2
    exact ⟨rfl, rfl⟩

theorem Deallocate_blocks_length (h : Heap α) (b : Nat) :
    (Deallocate h b).blocks.length = h.blocks.length := by
  unfold Deallocate
  split
  · rfl
  · split <;> simp

theorem Deallocate_slots (h : Heap α) (b c : Nat) : (Deallocate h b).slots c = h.slots c := by
  unfold Deallocate
  cases b with
  | zero => rfl
  | succ b =>
    simp only
    cases hb : h.blocks[b]? with
    | none => rfl
    | some blk =>
      cases c with
      | zero => rfl
      | succ c =>
        simp only [Heap.slots, List.getElem?_set]
        by_cases e : b = c
        · subst e
          have := (List.getElem?_eq_some_iff.mp hb).1
          simp [hb, this]
        · simp [e]

theorem Deallocate_slot (h : Heap α) (b : Nat) (q : Ptr) : (Deallocate h b).slot q = h.slot q := by
  unfold Heap.slot
  rw [Deallocate_slots]

theorem Deallocate_freed_of_ne (h : Heap α) (b c : Nat) (hne : c ≠ b) :
    (Deallocate h b).freed c = h.freed c := by
  unfold Deallocate
  cases b with
  | zero => rfl
  | succ b =>
    simp only
    cases hb : h.blocks[b]? with
    | none => rfl
    | some blk =>
      cases c with
      | zero => rfl
      | succ c =>
        have e : ¬ b = c := fun e => hne (by rw [e])
        simp [Heap.freed, List.getElem?_set, e]

/-- The bulk transfer of the reallocating members, by move or by copy: when it does not throw,
the destination slots receive the source objects and every slot outside the two ranges is left
alone. -/
theorem transfer_spec (E : ElemType α ε) (mv : Bool) (h : Heap α) (first d : Ptr) (n : Nat)
    (hne : first.block ≠ d.block)
    (hsrc : ∀ k, k < n → ∃ x, h.get (first + k) = some x)
    (hok : (if mv then uninitialized_move_n E h first n d
      else uninitialized_copy_n E h first n d).2 = none) :
    h.SameShape (if mv then uninitialized_move_n E h first n d
      else uninitialized_copy_n E h first n d).1 ∧
    (∀ j, (if mv then uninitialized_move_n E h first n d
        else uninitialized_copy_n E h first n d).1.slot ⟨d.block, j⟩ =
      if d.off ≤ j ∧ j < d.off + n
      then (h.slot ⟨d.block, j⟩).map (fun _ => h.get ⟨first.block, first.off + (j - d.off)⟩)
      else h.slot ⟨d.block, j⟩) ∧
    (∀ q, ¬ (q.block = d.block ∧ d.off ≤ q.off ∧ q.off < d.off + n) →
      ¬ (q.block = first.block ∧ first.off ≤ q.off ∧ q.off < first.off + n) →
      (if mv then uninitialized_move_n E h first n d
        else uninitialized_copy_n E h first n d).1.slot q = h.slot q) := by
  have hsrc0 : ∀ k, 0 ≤ k → k < 0 + n → ∃ x, h.get (first + k) = some x :=
    fun k _ hk => hsrc k (by omega)
  cases mv with
  | true =>
    simp only [if_true] at hok ⊢
    obtain ⟨sh, sl⟩ := uninitialized_move_loop_spec E first d hne n 0 h hsrc0 hok
    refine ⟨sh, fun j => ?_, fun q c1 c2 => ?_⟩
    · unfold uninitialized_move_n
      rw [sl]
      simp only [Nat.add_zero, true_and]
      by_cases c : d.off ≤ j ∧ j < d.off + n
      · rw [if_pos c, if_pos c]
      · have c' : ¬ (d.block = first.block ∧ first.off ≤ j ∧ j < first.off + n) :=
          fun e => hne e.1.symm
        rw [if_neg c, if_neg c, if_neg c']
    · unfold uninitialized_move_n
      rw [sl]
      simp only [Nat.add_zero]
      rw [if_neg c1, if_neg c2]
  | false =>
    simp only [Bool.false_eq_true, if_false] at hok ⊢
    obtain ⟨sh, sl⟩ := uninitialized_copy_loop_spec E first d hne n 0 h hsrc0 hok
    refine ⟨sh, fun j => ?_, fun q c1 c2 => ?_⟩
    · unfold uninitialized_copy_n
      rw [sl]
      simp only [Nat.add_zero, true_and]
    · unfold uninitialized_copy_n
      rw [sl]
      simp only [Nat.add_zero]
      rw [if_neg c1]

end AllocLemmas

section EraseProof
variable {α ε : Type}

theorem Ptr.mk_add (b o n : Nat) : ((Ptr.mk b o) + n : Ptr) = Ptr.mk b (o + n) := rfl

theorem Vector.begin_add (v : Vector) (p : Nat) : (v.begin_ + p : Ptr) = Ptr.mk v.data.buffer p := by
  simp [Vector.begin_, RawMemory.add, Ptr.mk_add]

theorem Vector.Holds.slot {h : Heap α} {v : Vector} {xs : List α} (hv : v.Holds h xs) (j : Nat) :
    h.slot ⟨v.data.buffer, j⟩ =
      if j < xs.length then some xs[j]? else if j < v.data.capacity then some none else none :=
  (slots_eq_layout_iff h _ xs _).mp hv.2.2.2.2 j

theorem Vector.Holds.get {h : Heap α} {v : Vector} {xs : List α} (hv : v.Holds h xs) (j : Nat) :
    h.get ⟨v.data.buffer, j⟩ = xs[j]? := by
  rw [Heap.get_eq, hv.slot j]
  by_cases h1 : j < xs.length
  · rw [if_pos h1]; rfl
  · rw [if_neg h1, List.getElem?_eq_none (by omega)]
    split <;> rfl

theorem Vector.Holds.get_some {h : Heap α} {v : Vector} {xs : List α} (hv : v.Holds h xs)
    (j : Nat) (hj : j < xs.length) : ∃ x, h.get ⟨v.data.buffer, j⟩ = some x :=
  ⟨xs[j], by rw [hv.get j, List.getElem?_eq_getElem hj]⟩

theorem Vector.Holds.get_begin {h : Heap α} {v : Vector} {xs : List α} (hv : v.Holds h xs)
    (j : Nat) : h.get (v.begin_ + j) = xs[j]? := by
  rw [Vector.begin_add]; exact hv.get j

/-- What `Erase` leaves in the heap and the object: the sequence with index `p` removed. -/
theorem Vector.Erase_holds (E : ElemType α ε) (h : Heap α) (v : Vector) (xs : List α) (p : Nat)
    (hv : v.Holds h xs) (hp : p < v.size) :
    (Vector.Erase E h v (v.begin_ + p)).2.1.Holds (Vector.Erase E h v (v.begin_ + p)).1
      (xs.eraseIdx p) := by
  have hlen := hv.1
  have hpl : p < xs.length := by omega
  rw [Vector.begin_add]
  unfold Vector.Erase std_move
  simp only [Vector.begin_, Vector.end_, RawMemory.add, Ptr.mk_add, Nat.sub_zero]
  have hsrc : ∀ k, k < v.size - (p + 1) →
      ∃ x, h.get ((Ptr.mk v.data.buffer (p + 1)) + k) = some x := by
    intro k hk
    rw [Ptr.mk_add]
    exact hv.get_some _ (by omega)
  obtain ⟨sh, sl⟩ := move_loop_spec E (v.size - (p + 1)) (Ptr.mk v.data.buffer (p + 1))
    (Ptr.mk v.data.buffer p) h rfl (by simp) hsrc
  have sh2 := sh.trans (sameShape_destroy_n 1 _ ⟨v.data.buffer, v.size - 1⟩)
  refine ⟨?_, ?_, ?_, ?_, ?_⟩
  · simp only [List.length_eraseIdx, hpl, if_true]; omega
  · have := hv.2.1
    simp only; omega
  · rw [sh2.1]; exact hv.2.2.1
  · rw [(sh2.2.2 _).1]; exact hv.2.2.2.1
  · rw [slots_eq_layout_iff]
    intro j
    rw [slot_destroy_n, sl, hv.slot j]
    simp only [Ptr.add_block, Ptr.add_off, List.length_eraseIdx, hpl, if_true,
      List.getElem?_eraseIdx, true_and]
    have hs1 := hv.slot (j + (p + 1 - p))
    have hcap := hv.2.1
    by_cases c1 : j < xs.length - 1
    · have c0 : ¬ (v.size - 1 ≤ j ∧ j < v.size - 1 + 1) := by omega
      rw [if_neg c0, if_pos c1]
      by_cases c2 : j < p
      · have c3 : ¬ (p ≤ j ∧ j < p + (v.size - (p + 1))) := by omega
        have c4 : ¬ (p + 1 ≤ j ∧ j < p + 1 + (v.size - (p + 1))) := by omega
        rw [if_neg c3, if_neg c4, if_pos c2, if_pos (by omega)]
      · have c3 : p ≤ j ∧ j < p + (v.size - (p + 1)) := by omega
        rw [if_pos c3, if_neg c2, hs1, if_pos (by omega)]
        have : j + (p + 1 - p) = j + 1 := by omega
        rw [this]
    · rw [if_neg c1]
      have c3 : ¬ (p ≤ j ∧ j < p + (v.size - (p + 1))) := by omega
      rw [if_neg c3]
      by_cases c0 : v.size - 1 ≤ j ∧ j < v.size - 1 + 1
      · rw [if_pos c0]
        have hj : j < v.data.capacity := by omega
        rw [if_pos hj]
        split
        · rw [if_pos (by omega)]; rfl
        · rw [if_pos (by omega)]; rfl
      · rw [if_neg c0]
        have c4 : ¬ (p + 1 ≤ j ∧ j < p + 1 + (v.size - (p + 1))) := by omega
        rw [if_neg c4, if_neg (by omega)]

/-- C3: for a vector holding `xs` and an index `p < size`, `Erase` at `begin() + p` leaves the
vector holding `xs` with exactly the element at index `p` removed: the slots before `p` keep
their objects, the object formerly at index `i > p` is at index `i - 1`, the size drops by one,
capacity and storage block are unchanged, and the returned iterator is `begin() + p`, which
designates the object that followed the removed one, or is `end()` when `p` was the last
index. -/
theorem Vector.Erase_spec (E : ElemType α ε) (h : Heap α) (v : Vector) (xs : List α) (p : Nat)
    (hv : v.Holds h xs) (hp : p < v.size) :
    (Vector.Erase E h v (v.begin_ + p)).2.1.Holds (Vector.Erase E h v (v.begin_ + p)).1
      (xs.eraseIdx p) ∧
    (Vector.Erase E h v (v.begin_ + p)).2.1.elems (Vector.Erase E h v (v.begin_ + p)).1 =
      xs.eraseIdx p ∧
    (∀ i, i < p → (Vector.Erase E h v (v.begin_ + p)).1.get
      ((Vector.Erase E h v (v.begin_ + p)).2.1.begin_ + i) = xs[i]?) ∧
    (∀ i, p < i → (Vector.Erase E h v (v.begin_ + p)).1.get
      ((Vector.Erase E h v (v.begin_ + p)).2.1.begin_ + (i - 1)) = xs[i]?) ∧
    (Vector.Erase E h v (v.begin_ + p)).2.1.size = v.size - 1 ∧
    (Vector.Erase E h v (v.begin_ + p)).2.1.Capacity = v.Capacity ∧
    (Vector.Erase E h v (v.begin_ + p)).2.1.data = v.data ∧
    (Vector.Erase E h v (v.begin_ + p)).2.2 =
      (Vector.Erase E h v (v.begin_ + p)).2.1.begin_ + p ∧
    (Vector.Erase E h v (v.begin_ + p)).1.get (Vector.Erase E h v (v.begin_ + p)).2.2 =
      xs[p + 1]? ∧
    (p + 1 = v.size → (Vector.Erase E h v (v.begin_ + p)).2.2 =
      (Vector.Erase E h v (v.begin_ + p)).2.1.end_) := by
  have hh := Vector.Erase_holds E h v xs p hv hp
  have hd : (Vector.Erase E h v (v.begin_ + p)).2.1.data = v.data := rfl
  have hsz : (Vector.Erase E h v (v.begin_ + p)).2.1.size = v.size - 1 := rfl
  have hret : (Vector.Erase E h v (v.begin_ + p)).2.2 =
      (Vector.Erase E h v (v.begin_ + p)).2.1.begin_ + p := by
    simp [Vector.Erase, Vector.begin_, RawMemory.add, Ptr.mk_add]
  have hl := hv.1
  refine ⟨hh, hh.elems_eq, ?_, ?_, hsz, ?_, hd, hret, ?_, ?_⟩
  · intro i hi
    rw [hh.get_begin i, List.getElem?_eraseIdx, if_pos hi]
  · intro i hi
    rw [hh.get_begin (i - 1), List.getElem?_eraseIdx, if_neg (by omega)]
    congr 1; omega
  · simp only [Vector.Capacity, hd]
  · rw [hret, hh.get_begin p, List.getElem?_eraseIdx, if_neg (by omega)]
  · intro hlast
    rw [hret, Vector.begin_add (Vector.Erase E h v (v.begin_ + p)).2.1 p]
    simp only [Vector.end_, RawMemory.add, hsz, hd]
    congr 1; omega

end EraseProof

theorem Vector.Erase_spec_witness :
    ((vector_of 4 4).Holds (heap_of [1, 99, 2, 3] 4 0) [1, 99, 2, 3] ∧ 0 < (vector_of 4 4).size) ∧
    (Vector.Erase int_elem (heap_of [1, 99, 2, 3] 4 0) (vector_of 4 4)
        ((vector_of 4 4).begin_ + 0)).2.1.elems
      (Vector.Erase int_elem (heap_of [1, 99, 2, 3] 4 0) (vector_of 4 4)
        ((vector_of 4 4).begin_ + 0)).1 = [99, 2, 3] :=
  ⟨⟨by decide, by decide⟩,
    (Vector.Erase_spec int_elem (heap_of [1, 99, 2, 3] 4 0) (vector_of 4 4) [1, 99, 2, 3] 0
      (by decide) (by decide)).2.1⟩

section ReserveProof
variable {α ε : Type}

theorem slot_replicate_none (h : Heap α) (b n j : Nat) (hs : h.slots b = List.replicate n none) :
    h.slot ⟨b, j⟩ = if j < n then some none else none := by
  show (h.slots b)[j]? = _
  rw [hs]
  by_cases c : j < n
  · rw [if_pos c, List.getElem?_eq_getElem (by simpa using c)]; simp
  · rw [if_neg c, List.getElem?_eq_none (by simp; omega)]

theorem Heap.slot_congr (h h' : Heap α) (b : Nat) (hs : h'.slots b = h.slots b) (j : Nat) :
    h'.slot ⟨b, j⟩ = h.slot ⟨b, j⟩ := by
  show (h'.slots b)[j]? = (h.slots b)[j]?
  rw [hs]

theorem Heap.get_congr (h h' : Heap α) (b : Nat) (hs : h'.slots b = h.slots b) (j : Nat) :
    h'.get ⟨b, j⟩ = h.get ⟨b, j⟩ := by
  rw [Heap.get_eq, Heap.get_eq, Heap.slot_congr h h' b hs]

theorem Vector.Reserve_grow (E : ElemType α ε) (h : Heap α) (v : Vector) (xs : List α) (n : Nat)
    (hv : v.Holds h xs) (hn : v.Capacity < n)
    (hok : (Vector.Reserve E h v n).result = .ok ()) :
    (Vector.Reserve E h v n).self.Holds (Vector.Reserve E h v n).heap xs ∧
    (Vector.Reserve E h v n).self.size = v.size ∧
    (Vector.Reserve E h v n).self.data.capacity = n ∧
    (Vector.Reserve E h v n).self.data.buffer = h.blocks.length + 1 := by
  have hn' : ¬ n ≤ v.data.capacity := by
    simp only [Vector.Capacity, RawMemory.Capacity] at hn; omega
  have hn0 : n ≠ 0 := by omega
  unfold Vector.Reserve at hok ⊢
  simp only [RawMemory.Capacity, if_neg hn'] at hok ⊢
  cases hc : RawMemory.create h n with
  | none => rw [hc] at hok; simp at hok
  | some r =>
    obtain ⟨h1, nd⟩ := r
    rw [hc] at hok
    simp only at hok ⊢
    obtain ⟨hcap, hal⟩ := RawMemory.create_spec h n h1 nd hc
    obtain ⟨hnb, hlen1, hold, hnew, hfr⟩ := Allocate_spec h n h1 nd.buffer hn0 hal
    have hbuf := hv.2.2.1
    have hne : (v.data.GetAddress).block ≠ (nd.GetAddress).block := by
      simp only [RawMemory.GetAddress]; omega
    have hsrc : ∀ k, k < v.size → ∃ x, h1.get (v.data.GetAddress + k) = some x := by
      intro k hk
      simp only [RawMemory.GetAddress, Ptr.mk_add, Nat.zero_add]
      rw [Heap.get_congr h h1 _ (hold _ hbuf).1]
      exact hv.get_some k (by rw [← hv.1]; exact hk)
    cases ht : (if (E.nothrow_move_constructible || !E.copy_constructible) = true then
        uninitialized_move_n E h1 v.data.GetAddress v.size nd.GetAddress
      else uninitialized_copy_n E h1 v.data.GetAddress v.size nd.GetAddress) with
    | mk h2 r =>
      rw [ht] at hok
      cases r with
      | some e => simp at hok
      | none =>
        simp only
        have hok2 : (if (E.nothrow_move_constructible || !E.copy_constructible) = true then
            uninitialized_move_n E h1 v.data.GetAddress v.size nd.GetAddress
          else uninitialized_copy_n E h1 v.data.GetAddress v.size nd.GetAddress).2 = none := by
          rw [ht]
        obtain ⟨sh, sd, _⟩ := transfer_spec E _ h1 _ _ v.size hne hsrc hok2
        rw [ht] at sh sd
        simp only at sh sd
        have sh3 := sh.trans (sameShape_destroy_n v.size h2 v.data.GetAddress)
        simp only [RawMemory.Swap, RawMemory.dtor]
        refine ⟨⟨hv.1, ?_, ?_, ?_, ?_⟩, trivial, hcap, hnb⟩
        · have := hv.2.1
          simp only [Vector.Capacity, RawMemory.Capacity] at hn
          show v.size ≤ nd.capacity
          omega
        · show nd.buffer ≤ _
          rw [Deallocate_blocks_length, sh3.1]; omega
        · show Heap.freed _ nd.buffer = false
          rw [Deallocate_freed_of_ne _ _ _ (by omega), (sh3.2.2 _).1]; exact hfr
        · show Heap.slots _ nd.buffer = layout xs nd.capacity
          rw [slots_eq_layout_iff]
          intro j
          rw [Deallocate_slot, slot_destroy_n, if_neg (by simp only [RawMemory.GetAddress]; omega)]
          have := sd j
          simp only [RawMemory.GetAddress, Nat.zero_add, Nat.zero_le, true_and, Nat.sub_zero]
            at this
          rw [this, slot_replicate_none h1 _ n j hnew, Heap.get_congr h h1 _ (hold _ hbuf).1,
            hv.get j, hcap, ← hv.1]
          have := hv.2.1
          simp only [Vector.Capacity, RawMemory.Capacity] at hn
          by_cases c : j < v.size
          · rw [if_pos c, if_pos c, if_pos (by omega)]; rfl
          · rw [if_neg c, if_neg c]

end ReserveProof

section ResizeProof
variable {α ε : Type}

theorem uninitialized_value_construct_loop_spec (E : ElemType α ε) (first : Ptr) (d : α)
    (hd : E.value_init = .ok d) (n i : Nat) (h : Heap α) :
    (uninitialized_value_construct_loop E first n i h).2 = none ∧
    h.SameShape (uninitialized_value_construct_loop E first n i h).1 ∧
    ∀ q, (uninitialized_value_construct_loop E first n i h).1.slot q =
      if q.block = first.block ∧ first.off + i ≤ q.off ∧ q.off < first.off + i + n
      then (h.slot q).map (fun _ => some d) else h.slot q := by
  induction n generalizing i h with
  | zero =>
    refine ⟨rfl, Heap.sameShape_refl h, fun q => ?_⟩
    have c : ¬ (q.block = first.block ∧ first.off + i ≤ q.off ∧ q.off < first.off + i + 0) := by
      omega
    rw [if_neg c]; rfl
  | succ n ih =>
    unfold uninitialized_value_construct_loop
    rw [hd]
    simp only
    obtain ⟨r1, sh, sl⟩ := ih (i + 1) (h.set (first + i) (some d))
    refine ⟨r1, (Heap.sameShape_set h _ _).trans sh, fun q => ?_⟩
    rw [sl q, Heap.slot_set]
    by_cases e : q = first + i
    · have hb : q.block = first.block := by rw [e]; rfl
      have h1 : q.off = first.off + i := by rw [e]; rfl
      have c1 : ¬ (q.block = first.block ∧ first.off + (i + 1) ≤ q.off ∧
          q.off < first.off + (i + 1) + n) := by omega
      have c2 : q.block = first.block ∧ first.off + i ≤ q.off ∧
          q.off < first.off + i + (n + 1) := ⟨hb, by omega, by omega⟩
      rw [if_neg c1, if_pos c2, if_pos e, ← e]
    · rw [if_neg e]
      by_cases c2 : q.block = first.block ∧ first.off + i ≤ q.off ∧
          q.off < first.off + i + (n + 1)
      · have c1 : q.block = first.block ∧ first.off + (i + 1) ≤ q.off ∧
            q.off < first.off + (i + 1) + n := by
          refine ⟨c2.1, ?_, by omega⟩
          by_contra hc
          exact e ((Ptr.eq_iff _ _).mpr ⟨c2.1, by simp only [Ptr.add_off]; omega⟩)
        rw [if_pos c1, if_pos c2]
      · have c1 : ¬ (q.block = first.block ∧ first.off + (i + 1) ≤ q.off ∧
            q.off < first.off + (i + 1) + n) := by omega
        rw [if_neg c1, if_neg c2]

theorem uninitialized_value_construct_loop_ok (E : ElemType α ε) (first : Ptr) (n i : Nat)
    (h : Heap α) (hn : 0 < n)
    (hok : (uninitialized_value_construct_loop E first n i h).2 = none) :
    ∃ d, E.value_init = .ok d := by
  cases n with
  | zero => omega
  | succ n =>
    unfold uninitialized_value_construct_loop at hok
    cases hd : E.value_init with
    | ok d => exact ⟨d, rfl⟩
    | error e => rw [hd] at hok; simp at hok

/-- After a `Reserve(n)` that returns, the vector holds the same sequence, has the same size and
its capacity is the larger of the old capacity and `n`. -/
theorem Vector.Reserve_ensures (E : ElemType α ε) (h : Heap α) (v : Vector) (xs : List α)
    (n : Nat) (hv : v.Holds h xs) (hok : (Vector.Reserve E h v n).result = .ok ()) :
    (Vector.Reserve E h v n).self.Holds (Vector.Reserve E h v n).heap xs ∧
    (Vector.Reserve E h v n).self.size = v.size ∧
    (Vector.Reserve E h v n).self.data.capacity = max v.data.capacity n := by
  by_cases hle : n ≤ v.data.capacity
  · have e : Vector.Reserve E h v n = ⟨h, v, .ok ()⟩ := by
      have hle' : n ≤ v.data.Capacity := hle
      unfold Vector.Reserve
      rw [if_pos hle']
    rw [e]
    exact ⟨hv, rfl, by simp only; omega⟩
  · obtain ⟨h1, h2, h3, _⟩ := Vector.Reserve_grow E h v xs n hv (by
      simp only [Vector.Capacity, RawMemory.Capacity]; omega) hok
    exact ⟨h1, h2, by rw [h3]; omega⟩

theorem getElem?_append_replicate (xs : List α) (m : Nat) (d : α) (j : Nat) :
    (xs ++ List.replicate m d)[j]? =
      if j < xs.length then xs[j]? else if j < xs.length + m then some d else none := by
  by_cases c : j < xs.length
  · rw [if_pos c, List.getElem?_append_left c]
  · rw [if_neg c, List.getElem?_append_right (by omega)]
    by_cases c2 : j < xs.length + m
    · rw [if_pos c2, List.getElem?_eq_getElem (by simp; omega)]; simp
    · rw [if_neg c2, List.getElem?_eq_none (by simp; omega)]

theorem Vector.Resize_shrink (E : ElemType α ε) (h : Heap α) (v : Vector) (xs : List α) (n : Nat)
    (hv : v.Holds h xs) (hn : n < v.size) :
    (Vector.Resize E h v n).result = .ok () ∧
    (Vector.Resize E h v n).self.Holds (Vector.Resize E h v n).heap (xs.take n) ∧
    (Vector.Resize E h v n).self.size = n ∧
    (Vector.Resize E h v n).self.data = v.data := by
  unfold Vector.Resize
  rw [if_pos hn]
  have hl := hv.1
  have hc := hv.2.1
  have sh := sameShape_destroy_n (v.size - n) h (v.data.add n)
  refine ⟨rfl, ⟨?_, ?_, ?_, ?_, ?_⟩, rfl, rfl⟩
  · simp only [List.length_take]; omega
  · show n ≤ v.data.capacity; omega
  · show v.data.buffer ≤ _; rw [sh.1]; exact hv.2.2.1
  · show Heap.freed _ v.data.buffer = false; rw [(sh.2.2 _).1]; exact hv.2.2.2.1
  · show Heap.slots _ v.data.buffer = layout (xs.take n) v.data.capacity
    rw [slots_eq_layout_iff]
    intro j
    rw [slot_destroy_n, hv.slot j]
    simp only [RawMemory.add, true_and, List.length_take, List.getElem?_take]
    split_ifs <;> first | rfl | omega

theorem Vector.Resize_grow (E : ElemType α ε) (h : Heap α) (v : Vector) (xs : List α) (n : Nat)
    (hv : v.Holds h xs) (hn : v.size < n) (hok : (Vector.Resize E h v n).result = .ok ()) :
    ∃ d, E.value_init = .ok d ∧
    (Vector.Resize E h v n).self.Holds (Vector.Resize E h v n).heap
      (xs ++ List.replicate (n - v.size) d) ∧
    (Vector.Resize E h v n).self.size = n ∧
    (Vector.Resize E h v n).self.data.capacity = max v.data.capacity n := by
  unfold Vector.Resize at hok ⊢
  rw [if_neg (by omega), if_pos hn] at hok ⊢
  cases hr : Vector.Reserve E h v n with
  | mk h1 v1 res =>
    rw [hr] at hok
    cases res with
    | error e => simp at hok
    | ok u =>
      simp only at hok ⊢
      have hres : (Vector.Reserve E h v n).result = .ok () := by rw [hr]
      obtain ⟨hv1, hs1, hc1⟩ := Vector.Reserve_ensures E h v xs n hv hres
      rw [hr] at hv1 hs1 hc1
      simp only at hv1 hs1 hc1
      cases hu : uninitialized_value_construct_n E h1 (v1.data.add v1.size) (n - v1.size) with
      | mk h2 r =>
        rw [hu] at hok
        cases r with
        | some e => simp at hok
        | none =>
          simp only
          have hok2 : (uninitialized_value_construct_loop E (v1.data.add v1.size) (n - v1.size)
              0 h1).2 = none := by
            have := congrArg Prod.snd hu
            exact this
          obtain ⟨d, hd⟩ := uninitialized_value_construct_loop_ok E _ _ 0 h1 (by omega) hok2
          obtain ⟨_, sh, sl⟩ := uninitialized_value_construct_loop_spec E (v1.data.add v1.size) d hd
            (n - v1.size) 0 h1
          have e2 : (uninitialized_value_construct_loop E (v1.data.add v1.size) (n - v1.size)
              0 h1).1 = h2 := congrArg Prod.fst hu
          rw [e2] at sh sl
          have hl := hv.1
          refine ⟨d, hd, ⟨?_, ?_, ?_, ?_, ?_⟩, trivial, hc1⟩
          · simp only [List.length_append, List.length_replicate]; omega
          · show n ≤ v1.data.capacity; rw [hc1]; omega
          · show v1.data.buffer ≤ _; rw [sh.1]; exact hv1.2.2.1
          · show Heap.freed _ v1.data.buffer = false; rw [(sh.2.2 _).1]; exact hv1.2.2.2.1
          · show Heap.slots _ v1.data.buffer = layout _ v1.data.capacity
            rw [slots_eq_layout_iff]
            intro j
            rw [sl, hv1.slot j, getElem?_append_replicate]
            simp only [RawMemory.add, true_and, List.length_append, List.length_replicate,
              Nat.add_zero]
            have hcap := hv1.2.1
            split_ifs <;> first | rfl | omega

end ResizeProof

section PushProof
variable {α ε : Type}

theorem Vector.PushBack_eq_EmplaceBack (E : ElemType α ε) (h : Heap α) (v : Vector) (x : α) :
    (Vector.PushBack E h v x).heap = (Vector.EmplaceBack E h v (E.copy_ctor x)).heap ∧
    (Vector.PushBack E h v x).self = (Vector.EmplaceBack E h v (E.copy_ctor x)).self ∧
    (Vector.PushBack E h v x).succeeded = (Vector.EmplaceBack E h v (E.copy_ctor x)).succeeded := by
  unfold Vector.PushBack Vector.EmplaceBack
  split
  · cases RawMemory.create h (if v.size ≠ 0 then v.Capacity * 2 else 1) with
    | none => exact ⟨rfl, rfl, rfl⟩
    | some r =>
      obtain ⟨h1, nd⟩ := r
      simp only
      cases E.copy_ctor x with
      | error e => exact ⟨rfl, rfl, rfl⟩
      | ok y =>
        simp only
        split
        · exact ⟨rfl, rfl, rfl⟩
        · exact ⟨rfl, rfl, rfl⟩
  · cases E.copy_ctor x with
    | error e => exact ⟨rfl, rfl, rfl⟩
    | ok y => exact ⟨rfl, rfl, rfl⟩

theorem Vector.PushBackMove_eq_EmplaceBack (E : ElemType α ε) (h : Heap α) (v : Vector) (x : α) :
    (Vector.PushBackMove E h v x).heap = (Vector.EmplaceBack E h v (E.move_ctor x)).heap ∧
    (Vector.PushBackMove E h v x).self = (Vector.EmplaceBack E h v (E.move_ctor x)).self ∧
    (Vector.PushBackMove E h v x).succeeded =
      (Vector.EmplaceBack E h v (E.move_ctor x)).succeeded := by
  unfold Vector.PushBackMove Vector.EmplaceBack
  split
  · cases RawMemory.create h (if v.size ≠ 0 then v.Capacity * 2 else 1) with
    | none => exact ⟨rfl, rfl, rfl⟩
    | some r =>
      obtain ⟨h1, nd⟩ := r
      simp only
      cases E.move_ctor x with
      | error e => exact ⟨rfl, rfl, rfl⟩
      | ok y =>
        simp only
        split
        · exact ⟨rfl, rfl, rfl⟩
        · exact ⟨rfl, rfl, rfl⟩
  · cases E.move_ctor x with
    | error e => exact ⟨rfl, rfl, rfl⟩
    | ok y => exact ⟨rfl, rfl, rfl⟩

theorem getElem?_append_singleton (xs : List α) (x : α) (j : Nat) :
    (xs ++ [x])[j]? =
      if j < xs.length then xs[j]? else if j = xs.length then some x else none := by
  have := getElem?_append_replicate xs 1 x j
  simp only [List.replicate_one] at this
  rw [this]
  split_ifs <;> first | rfl | omega

theorem Outcome.succeeded_of_error {β : Type} (hp : Heap α) (v : Vector) (e : Exn ε) :
    (Outcome.mk hp v (Except.error e : Except (Exn ε) β)).succeeded = false := rfl

/-- What `EmplaceBack` does when it returns: the object built from the arguments is appended;
below capacity `data_` is kept, at capacity the storage is a fresh block of
`size_ != 0 ? Capacity() * 2 : 1` slots. -/
theorem Vector.EmplaceBack_holds (E : ElemType α ε) (h : Heap α) (v : Vector) (xs : List α)
    (args : Except ε α) (hv : v.Holds h xs)
    (hok : (Vector.EmplaceBack E h v args).succeeded = true) :
    ∃ x, args = .ok x ∧
    (Vector.EmplaceBack E h v args).self.Holds (Vector.EmplaceBack E h v args).heap (xs ++ [x]) ∧
    (Vector.EmplaceBack E h v args).self.size = v.size + 1 ∧
    (v.size < v.data.capacity → (Vector.EmplaceBack E h v args).self.data = v.data) ∧
    (v.size = v.data.capacity →
      (Vector.EmplaceBack E h v args).self.data.capacity = (if v.size ≠ 0 then v.data.capacity * 2 else 1) ∧
      (Vector.EmplaceBack E h v args).self.data.buffer = h.blocks.length + 1) := by
  have hl := hv.1
  have hcap := hv.2.1
  have hbuf := hv.2.2.1
  unfold Vector.EmplaceBack at hok ⊢
  simp only [Vector.Capacity, RawMemory.Capacity] at hok ⊢
  by_cases hfull : v.size = v.data.capacity
  · rw [if_pos hfull] at hok ⊢
    have hn0 : (if v.size ≠ 0 then v.data.capacity * 2 else 1) ≠ 0 := by
      split_ifs <;> omega
    have hge : v.size + 1 ≤ (if v.size ≠ 0 then v.data.capacity * 2 else 1) := by
      split_ifs <;> omega
    generalize (if v.size ≠ 0 then v.data.capacity * 2 else 1) = n' at hok hn0 hge ⊢
    cases hc : RawMemory.create h n' with
    | none => rw [hc] at hok; simp [Outcome.succeeded] at hok
    | some r =>
      obtain ⟨h1, nd⟩ := r
      rw [hc] at hok
      simp only at hok ⊢
      obtain ⟨hndc, hal⟩ := RawMemory.create_spec h _ h1 nd hc
      obtain ⟨hnb, hlen1, hold, hnew, hfr⟩ := Allocate_spec h _ h1 nd.buffer hn0 hal
      cases args with
      | error e => simp [Outcome.succeeded] at hok
      | ok x =>
        simp only at hok ⊢
        have hne : (v.data.GetAddress).block ≠ (nd.GetAddress).block := by
          simp only [RawMemory.GetAddress]; omega
        have hsrc : ∀ k, k < v.size →
            ∃ y, (h1.set (nd.add v.size) (some x)).get (v.data.GetAddress + k) = some y := by
          intro k hk
          rw [Heap.get_set_of_ne _ _ _ _ (by
            intro e; have := congrArg Ptr.block e
            simp only [RawMemory.GetAddress, RawMemory.add, Ptr.add_block] at this; omega)]
          simp only [RawMemory.GetAddress, Ptr.mk_add, Nat.zero_add]
          rw [Heap.get_congr h h1 _ (hold _ hbuf).1]
          exact hv.get_some k (by omega)
        cases ht : (if (E.nothrow_move_constructible || !E.copy_constructible) = true then
            uninitialized_move_n E (h1.set (nd.add v.size) (some x)) v.data.GetAddress v.size
              nd.GetAddress
          else uninitialized_copy_n E (h1.set (nd.add v.size) (some x)) v.data.GetAddress v.size
              nd.GetAddress) with
        | mk h3 r =>
          rw [ht] at hok
          cases r with
          | some e => simp [Outcome.succeeded] at hok
          | none =>
            simp only
            have hok2 : (if (E.nothrow_move_constructible || !E.copy_constructible) = true then
                uninitialized_move_n E (h1.set (nd.add v.size) (some x)) v.data.GetAddress v.size
                  nd.GetAddress
              else uninitialized_copy_n E (h1.set (nd.add v.size) (some x)) v.data.GetAddress
                  v.size nd.GetAddress).2 = none := by rw [ht]
            obtain ⟨sh, sd, _⟩ := transfer_spec E _ _ _ _ v.size hne hsrc hok2
            rw [ht] at sh sd
            simp only at sh sd
            have sh3 := ((Heap.sameShape_set h1 (nd.add v.size) (some x)).trans sh).trans
              (sameShape_destroy_n v.size h3 v.data.GetAddress)
            simp only [RawMemory.Swap, RawMemory.dtor]
            refine ⟨x, rfl, ⟨?_, ?_, ?_, ?_, ?_⟩, trivial, fun c => by omega, fun _ => ⟨hndc, hnb⟩⟩
            · simp only [List.length_append, List.length_singleton]; omega
            · show v.size + 1 ≤ nd.capacity; omega
            · show nd.buffer ≤ _
              rw [Deallocate_blocks_length, sh3.1]; omega
            · show Heap.freed _ nd.buffer = false
              rw [Deallocate_freed_of_ne _ _ _ (by omega), (sh3.2.2 _).1]; exact hfr
            · show Heap.slots _ nd.buffer = layout (xs ++ [x]) nd.capacity
              rw [slots_eq_layout_iff]
              intro j
              rw [Deallocate_slot, slot_destroy_n,
                if_neg (by simp only [RawMemory.GetAddress]; omega)]
              have := sd j
              simp only [RawMemory.GetAddress, Nat.zero_add, Nat.zero_le, true_and, Nat.sub_zero]
                at this
              rw [this, Heap.get_set_of_ne _ _ _ _ (by
                intro e; have := congrArg Ptr.block e
                simp only [RawMemory.add] at this; omega),
                Heap.slot_set, slot_replicate_none h1 _ _ j hnew,
                Heap.get_congr h h1 _ (hold _ hbuf).1, hv.get j, getElem?_append_singleton]
              simp only [RawMemory.add, Ptr.mk.injEq, true_and, List.length_append,
                List.length_singleton]
              have hslot := slot_replicate_none h1 _ _ v.size hnew
              rw [hslot]
              split_ifs <;> first | rfl | omega
  · rw [if_neg hfull] at hok ⊢
    cases args with
    | error e => simp [Outcome.succeeded] at hok
    | ok x =>
      simp only
      have sh := Heap.sameShape_set h (v.data.add v.size) (some x)
      refine ⟨x, rfl, ⟨?_, ?_, ?_, ?_, ?_⟩, trivial, fun _ => trivial, fun c => absurd c hfull⟩
      · simp only [List.length_append, List.length_singleton]; omega
      · show v.size + 1 ≤ v.data.capacity; omega
      · show v.data.buffer ≤ _; rw [sh.1]; exact hbuf
      · show Heap.freed _ v.data.buffer = false; rw [(sh.2.2 _).1]; exact hv.2.2.2.1
      · show Heap.slots _ v.data.buffer = layout (xs ++ [x]) v.data.capacity
        rw [slots_eq_layout_iff]
        intro j
        rw [Heap.slot_set, hv.slot j, getElem?_append_singleton]
        simp only [RawMemory.add, Ptr.mk.injEq, true_and, List.length_append,
          List.length_singleton]
        have hslot := hv.slot v.size
        rw [hslot]
        split_ifs <;> first | rfl | omega

end PushProof
section BackCalls
variable {α ε : Type}

theorem Vector.PopBack_holds (h : Heap α) (v : Vector) (xs : List α) (hv : v.Holds h xs)
    (hpos : 0 < v.size) :
    (Vector.PopBack h v).2.Holds (Vector.PopBack h v).1 xs.dropLast ∧
    (Vector.PopBack h v).2.size = v.size - 1 ∧ (Vector.PopBack h v).2.data = v.data := by
  have hl := hv.1
  have hcap := hv.2.1
  unfold Vector.PopBack
  have sh := sameShape_destroy_n 1 h (v.data.add (v.size - 1))
  refine ⟨⟨?_, ?_, ?_, ?_, ?_⟩, rfl, rfl⟩
  · simp only [List.length_dropLast]; omega
  · show v.size - 1 ≤ v.data.capacity; omega
  · show v.data.buffer ≤ _; rw [sh.1]; exact hv.2.2.1
  · show Heap.freed _ v.data.buffer = false; rw [(sh.2.2 _).1]; exact hv.2.2.2.1
  · show Heap.slots _ v.data.buffer = layout xs.dropLast v.data.capacity
    rw [slots_eq_layout_iff]
    intro j
    rw [slot_destroy_n, hv.slot j]
    simp only [RawMemory.add, true_and, List.length_dropLast, List.dropLast_eq_take,
      List.getElem?_take, List.length_take]
    split_ifs <;> first | rfl | omega

/-- One call that returns keeps the vector in step with the list-based stack. -/
theorem BackCall.perform_holds (E : ElemType α ε) (h : Heap α) (v : Vector) (xs : List α)
    (c : BackCall α ε) (h1 : Heap α) (v1 : Vector) (hv : v.Holds h xs)
    (hne : c.appends = false → 0 < v.size) (hr : c.perform E h v = some (h1, v1)) :
    v1.Holds h1 (stack_step xs c) ∧
    (c.appends = true → v1.size = v.size + 1 ∧
      (v.size < v.data.capacity → v1.data = v.data) ∧
      (v.size = v.data.capacity →
        v1.data.capacity = (if v.size ≠ 0 then v.data.capacity * 2 else 1))) ∧
    (c.appends = false → v1.size = v.size - 1 ∧ v1.data = v.data) := by
  cases c with
  | push x =>
    simp only [BackCall.perform] at hr
    split at hr
    · rename_i hs
      simp only [Option.some.injEq, Prod.mk.injEq] at hr
      obtain ⟨e1, e2, e3⟩ := Vector.PushBack_eq_EmplaceBack E h v x
      rw [e3] at hs
      obtain ⟨y, hy, hh, hsz, hd1, hd2⟩ := Vector.EmplaceBack_holds E h v xs _ hv hs
      rw [← e1, ← e2, hr.1, hr.2] at hh
      rw [← e2, hr.2] at hsz hd1 hd2
      have hx : y = x := by
        unfold ElemType.copy_ctor at hy
        split at hy
        · simp at hy
        · simp only [Except.ok.injEq] at hy; exact hy.symm
      subst hx
      exact ⟨hh, fun _ => ⟨hsz, hd1, fun c => (hd2 c).1⟩, fun c => by simp [BackCall.appends] at c⟩
    · simp at hr
  | push_move x =>
    simp only [BackCall.perform] at hr
    split at hr
    · rename_i hs
      simp only [Option.some.injEq, Prod.mk.injEq] at hr
      obtain ⟨e1, e2, e3⟩ := Vector.PushBackMove_eq_EmplaceBack E h v x
      rw [e3] at hs
      obtain ⟨y, hy, hh, hsz, hd1, hd2⟩ := Vector.EmplaceBack_holds E h v xs _ hv hs
      rw [← e1, ← e2, hr.1, hr.2] at hh
      rw [← e2, hr.2] at hsz hd1 hd2
      have hx : y = x := by
        unfold ElemType.move_ctor at hy
        split at hy
        · simp at hy
        · simp only [Except.ok.injEq] at hy; exact hy.symm
      subst hx
      exact ⟨hh, fun _ => ⟨hsz, hd1, fun c => (hd2 c).1⟩, fun c => by simp [BackCall.appends] at c⟩
    · simp at hr
  | emplace args =>
    simp only [BackCall.perform] at hr
    split at hr
    · rename_i hs
      simp only [Option.some.injEq, Prod.mk.injEq] at hr
      obtain ⟨y, hy, hh, hsz, hd1, hd2⟩ := Vector.EmplaceBack_holds E h v xs _ hv hs
      rw [hr.1, hr.2] at hh
      rw [hr.2] at hsz hd1 hd2
      subst hy
      exact ⟨hh, fun _ => ⟨hsz, hd1, fun c => (hd2 c).1⟩, fun c => by simp [BackCall.appends] at c⟩
    · simp at hr
  | pop =>
    simp only [BackCall.perform, Option.some.injEq] at hr
    obtain ⟨hh, hsz, hd⟩ := Vector.PopBack_holds h v xs hv (hne rfl)
    rw [hr] at hh hsz hd
    exact ⟨hh, fun c => by simp [BackCall.appends] at c, fun _ => ⟨hsz, hd⟩⟩

end BackCalls
section BackCalls2
variable {α ε : Type}

theorem count_pushes_cons (c : BackCall α ε) (cs : List (BackCall α ε)) :
    count_pushes (c :: cs) = (if c.appends = true then 1 else 0) + count_pushes cs := by
  unfold count_pushes
  rw [List.filter_cons]
  cases hc : c.appends
  · simp
  · simp; omega

theorem count_pops_cons (c : BackCall α ε) (cs : List (BackCall α ε)) :
    count_pops (c :: cs) = (if c.appends = true then 0 else 1) + count_pops cs := by
  unfold count_pops
  rw [List.filter_cons]
  cases hc : c.appends
  · simp; omega
  · simp

theorem pops_nonempty_cons (xs : List α) (c : BackCall α ε) (cs : List (BackCall α ε))
    (hp : pops_nonempty xs (c :: cs) = true) :
    (c.appends = false → 0 < xs.length) ∧ pops_nonempty (stack_step xs c) cs = true := by
  unfold pops_nonempty at hp
  rw [Bool.and_eq_true] at hp
  refine ⟨fun hc => ?_, hp.2⟩
  cases c with
  | pop =>
    have := hp.1
    simp only [Bool.not_eq_true', List.isEmpty_eq_false] at this
    exact List.length_pos.mpr (by
      intro e; rw [e] at this; simp at this)
  | push x => simp [BackCall.appends] at hc
  | push_move x => simp [BackCall.appends] at hc
  | emplace a => simp [BackCall.appends] at hc

/-- A sequence of calls that all return keeps the vector in step with the list-based stack. -/
theorem perform_all_holds (E : ElemType α ε) (cs : List (BackCall α ε)) :
    ∀ (h : Heap α) (v : Vector) (xs : List α) (h1 : Heap α) (v1 : Vector), v.Holds h xs →
      pops_nonempty xs cs = true → perform_all E h v cs = some (h1, v1) →
      v1.Holds h1 (stack_run xs cs) ∧ v1.size + count_pops cs = v.size + count_pushes cs := by
  induction cs with
  | nil =>
    intro h v xs h1 v1 hv _ hr
    simp only [perform_all, Option.some.injEq, Prod.mk.injEq] at hr
    rw [← hr.1, ← hr.2]
    exact ⟨hv, rfl⟩
  | cons c cs ih =>
    intro h v xs h1 v1 hv hp hr
    obtain ⟨hp1, hp2⟩ := pops_nonempty_cons xs c cs hp
    unfold perform_all at hr
    cases hc : c.perform E h v with
    | none => rw [hc] at hr; simp at hr
    | some r =>
      obtain ⟨h2, v2⟩ := r
      rw [hc] at hr
      simp only at hr
      have hl := hv.1
      obtain ⟨hh, ha, hb⟩ := BackCall.perform_holds E h v xs c h2 v2 hv
        (fun e => by have := hp1 e; omega) hc
      obtain ⟨ih1, ih2⟩ := ih h2 v2 (stack_step xs c) h1 v1 hh hp2 hr
      refine ⟨ih1, ?_⟩
      rw [count_pushes_cons, count_pops_cons]
      cases happ : c.appends with
      | true =>
        have := (ha happ).1
        simp only [if_true]
        omega
      | false =>
        have := (hb happ).1
        have := hp1 happ
        simp only [Bool.false_eq_true, if_false]
        omega

theorem holds_default (h : Heap α) : ({} : Vector).Holds h [] :=
  ⟨rfl, Nat.le_refl _, Nat.zero_le _, rfl, rfl⟩

/-- C4: for every sequence of `PushBack` / `EmplaceBack` / `PopBack` calls applied to an empty
vector, with no `PopBack` on an empty vector and every call returning, the vector then holds
exactly the contents of the list-based stack driven by the same calls, and its size is the
number of pushes minus the number of pops.  As the statement is for every sequence, it covers
the state after each call of a longer sequence.  `PopBack` leaves `data_`, hence the capacity,
unchanged. -/
theorem perform_all_stack (E : ElemType α ε) (h : Heap α) (v : Vector)
    (cs : List (BackCall α ε)) (h1 : Heap α) (v1 : Vector) (hv : v.Holds h [])
    (hp : pops_nonempty ([] : List α) cs = true) (hr : perform_all E h v cs = some (h1, v1)) :
    v1.size = count_pushes cs - count_pops cs ∧
    v1.elems h1 = stack_run [] cs ∧
    v1.Holds h1 (stack_run [] cs) ∧
    (∀ (h2 : Heap α) (v2 : Vector), (Vector.PopBack h2 v2).2.Capacity = v2.Capacity) := by
  obtain ⟨a, b⟩ := perform_all_holds E cs h v [] h1 v1 hv hp hr
  have hz : v.size = 0 := hv.1
  refine ⟨by omega, a.elems_eq, a, fun _ _ => rfl⟩

end BackCalls2
section Growth
variable {α ε : Type}

theorem perform_all_stack_witness :
    ({} : Vector).Holds ({ blocks := [], avail := 100 } : Heap Nat) [] ∧
    pops_nonempty ([] : List Nat) sample_calls = true ∧
    perform_all int_elem { blocks := [], avail := 100 } {} sample_calls =
      some (after_sample_calls.1, after_sample_calls.2) ∧
    after_sample_calls.2.size = count_pushes sample_calls - count_pops sample_calls ∧
    stack_run ([] : List Nat) sample_calls = [1, 3] :=
  ⟨by decide, by decide, by decide,
    (perform_all_stack int_elem { blocks := [], avail := 100 } {} sample_calls
      after_sample_calls.1 after_sample_calls.2 (by decide) (by decide) (by decide)).1,
    by decide⟩

end Growth
section ReserveThenPush
variable {α ε : Type}

/-- Appending calls that fit in the spare capacity and all return leave `data_` alone. -/
theorem perform_all_in_place (E : ElemType α ε) (cs : List (BackCall α ε)) :
    ∀ (h : Heap α) (v : Vector) (xs : List α) (h1 : Heap α) (v1 : Vector), v.Holds h xs →
      (∀ c ∈ cs, c.appends = true) → v.size + cs.length ≤ v.data.capacity →
      perform_all E h v cs = some (h1, v1) →
      v1.data = v.data ∧ v1.size = v.size + cs.length ∧ v1.Holds h1 (stack_run xs cs) := by
  induction cs with
  | nil =>
    intro h v xs h1 v1 hv _ _ hr
    simp only [perform_all, Option.some.injEq, Prod.mk.injEq] at hr
    rw [← hr.1, ← hr.2]
    exact ⟨rfl, rfl, hv⟩
  | cons c cs ih =>
    intro h v xs h1 v1 hv ha hc hr
    unfold perform_all at hr
    cases hp : c.perform E h v with
    | none => rw [hp] at hr; simp at hr
    | some r =>
      obtain ⟨h2, v2⟩ := r
      rw [hp] at hr
      simp only at hr
      have happ : c.appends = true := ha c (List.mem_cons_self _ _)
      obtain ⟨hh, hb, _⟩ := BackCall.perform_holds E h v xs c h2 v2 hv
        (fun e => by rw [happ] at e; simp at e) hp
      obtain ⟨hsz, hd1, _⟩ := hb happ
      simp only [List.length_cons] at hc
      have hd : v2.data = v.data := hd1 (by omega)
      obtain ⟨i1, i2, i3⟩ := ih h2 v2 (stack_step xs c) h1 v1 hh
        (fun c' hc' => ha c' (List.mem_cons_of_mem _ hc')) (by rw [hd, hsz]; omega) hr
      refine ⟨i1.trans hd, ?_, i3⟩
      rw [i2, hsz]; simp only [List.length_cons]; omega

/-- C6: after a `Reserve(k)` that returns on a default-constructed vector, any `n ≤ k`
appending calls that return leave `data_` as `Reserve` set it: the storage block is the one
`Reserve` obtained and the capacity is `k`.  The size is `n`, so as long as fewer than `k`
objects have been pushed the next append finds `size_ != Capacity()` and does not take the
reallocation branch. -/
theorem Vector.Reserve_then_pushes (E : ElemType α ε) (h : Heap α) (k : Nat)
    (cs : List (BackCall α ε)) (h1 : Heap α) (v1 : Vector)
    (hres : (Vector.Reserve E h {} k).result = .ok ())
    (ha : ∀ c ∈ cs, c.appends = true) (hlen : cs.length ≤ k)
    (hr : perform_all E (Vector.Reserve E h {} k).heap (Vector.Reserve E h {} k).self cs =
      some (h1, v1)) :
    v1.data = (Vector.Reserve E h {} k).self.data ∧
    v1.data.buffer = (Vector.Reserve E h {} k).self.data.buffer ∧
    v1.Capacity = k ∧ v1.size = cs.length ∧
    (cs.length < k → ¬ v1.size = v1.Capacity) := by
  obtain ⟨hh, hs, hc⟩ := Vector.Reserve_ensures E h {} [] k (holds_default h) hres
  have hs0 : (Vector.Reserve E h {} k).self.size = 0 := hs
  have hck : (Vector.Reserve E h {} k).self.data.capacity = k := by
    rw [hc]; show max 0 k = k; omega
  obtain ⟨a, b, _⟩ := perform_all_in_place E cs _ _ [] h1 v1 hh ha (by rw [hs0, hck]; omega) hr
  have hcap : v1.Capacity = k := by
    show v1.data.capacity = k
    rw [a, hck]
  have hsz : v1.size = cs.length := by rw [b, hs0]; omega
  exact ⟨a, by rw [a], hcap, hsz, fun hlt => by rw [hcap, hsz]; omega⟩

theorem Vector.Reserve_then_pushes_witness :
    (Vector.Reserve int_elem { blocks := [], avail := 7 } {} 3).result = .ok () ∧
    (∀ c ∈ three_pushes, c.appends = true) ∧ three_pushes.length ≤ 3 ∧
    perform_all int_elem (Vector.Reserve int_elem { blocks := [], avail := 7 } {} 3).heap
      (Vector.Reserve int_elem { blocks := [], avail := 7 } {} 3).self three_pushes =
      some (after_reserve_three_pushes.1, after_reserve_three_pushes.2) ∧
    after_reserve_three_pushes.2.data =
      (Vector.Reserve int_elem { blocks := [], avail := 7 } {} 3).self.data :=
  ⟨rfl, by decide, by decide, by decide,
    (Vector.Reserve_then_pushes int_elem { blocks := [], avail := 7 } 3 three_pushes
      after_reserve_three_pushes.1 after_reserve_three_pushes.2 rfl (by decide) (by decide)
      (by decide)).1⟩

end ReserveThenPush

section CopyAssign
variable {α ε : Type}

theorem copy_assign_at_eq (h : Heap α) (dst src : Ptr) (x : α) (hx : h.get src = some x) :
    copy_assign_at h dst src = h.set dst (some x) := by
  unfold copy_assign_at
  rw [hx]

theorem copy_assign_loop_spec (dst src : RawMemory) (hne : src.buffer ≠ dst.buffer) (n i : Nat)
    (h : Heap α) (hsrc : ∀ k, i ≤ k → k < i + n → ∃ x, h.get ⟨src.buffer, k⟩ = some x) :
    h.SameShape (copy_assign_loop dst src n i h) ∧
    ∀ q, (copy_assign_loop dst src n i h).slot q =
      if q.block = dst.buffer ∧ i ≤ q.off ∧ q.off < i + n
      then (h.slot q).map (fun _ => h.get ⟨src.buffer, q.off⟩)
      else h.slot q := by
  induction n generalizing i h with
  | zero =>
    refine ⟨Heap.sameShape_refl h, fun q => ?_⟩
    have c : ¬ (q.block = dst.buffer ∧ i ≤ q.off ∧ q.off < i + 0) := by omega
    rw [if_neg c]; rfl
  | succ n ih =>
    obtain ⟨x, hx⟩ := hsrc i (le_refl _) (by omega)
    unfold copy_assign_loop
    simp only [RawMemory.add]
    rw [copy_assign_at_eq h _ _ x hx]
    have hsrc1 : ∀ k, i + 1 ≤ k → k < i + 1 + n →
        ∃ y, (h.set ⟨dst.buffer, i⟩ (some x)).get ⟨src.buffer, k⟩ = some y := by
      intro k hk1 hk2
      obtain ⟨y, hy⟩ := hsrc k (by omega) (by omega)
      refine ⟨y, ?_⟩
      rw [Heap.get_set_of_ne _ _ _ _ ?_]
      · exact hy
      · intro e; apply hne; exact congrArg Ptr.block e
    obtain ⟨sh, sl⟩ := ih (i + 1) _ hsrc1
    refine ⟨(Heap.sameShape_set h _ _).trans sh, fun q => ?_⟩
    rw [sl q]
    have hsrcq : (h.set ⟨dst.buffer, i⟩ (some x)).get ⟨src.buffer, q.off⟩ =
        h.get ⟨src.buffer, q.off⟩ := by
      apply Heap.get_set_of_ne
      intro e; apply hne; exact congrArg Ptr.block e
    rw [hsrcq, Heap.slot_set]
    by_cases e : q = ⟨dst.buffer, i⟩
    · have hb : q.block = dst.buffer := by rw [e]
      have h1 : q.off = i := by rw [e]
      have c1 : ¬ (q.block = dst.buffer ∧ i + 1 ≤ q.off ∧ q.off < i + 1 + n) := by omega
      have c2 : q.block = dst.buffer ∧ i ≤ q.off ∧ q.off < i + (n + 1) :=
        ⟨hb, by omega, by omega⟩
      have hfx : h.get ⟨src.buffer, q.off⟩ = some x := by rw [h1]; exact hx
      rw [if_neg c1, if_pos c2, if_pos e, hfx, ← e]
    · rw [if_neg e]
      by_cases c2 : q.block = dst.buffer ∧ i ≤ q.off ∧ q.off < i + (n + 1)
      · have c1 : q.block = dst.buffer ∧ i + 1 ≤ q.off ∧ q.off < i + 1 + n := by
          refine ⟨c2.1, ?_, by omega⟩
          by_contra hc
          exact e ((Ptr.eq_iff _ _).mpr ⟨c2.1, by simp only; omega⟩)
        rw [if_pos c1, if_pos c2]
      · have c1 : ¬ (q.block = dst.buffer ∧ i + 1 ≤ q.off ∧ q.off < i + 1 + n) := by omega
        rw [if_neg c1, if_neg c2]

/-- A vector keeps holding its sequence when its block is left alone. -/
theorem Vector.Holds.frame {h h1 : Heap α} {v : Vector} {xs : List α} (hv : v.Holds h xs)
    (hs : h1.slots v.data.buffer = h.slots v.data.buffer)
    (hf : h1.freed v.data.buffer = h.freed v.data.buffer)
    (hl : h.blocks.length ≤ h1.blocks.length) : v.Holds h1 xs :=
  ⟨hv.1, hv.2.1, Nat.le_trans hv.2.2.1 hl, by rw [hf]; exact hv.2.2.2.1, by rw [hs]; exact hv.2.2.2.2⟩

theorem swap_RawMemory_eq (h : Heap α) (a b : RawMemory) : swap_RawMemory h a b = (h, b, a) := by
  cases a; cases b; rfl

theorem Vector.Swap_eq (h : Heap α) (a b : Vector) :
    Vector.Swap h a b = (h, { data := b.data, size := b.size }, { data := a.data, size := a.size }) := by
  unfold Vector.Swap
  rw [swap_RawMemory_eq]

/-- What the copy constructor builds when it returns: a vector holding the same sequence in a
fresh block of exactly `other.size` slots (no block for size `0`); no existing block is
touched. -/
theorem Vector.copy_ctor_spec (E : ElemType α ε) (h : Heap α) (other : Vector) (ys : List α)
    (h1 : Heap α) (c : Vector) (ho : other.Holds h ys)
    (hr : Vector.copy_ctor E h other = (h1, .ok c)) :
    c.Holds h1 ys ∧ c.size = other.size ∧ c.data.capacity = other.size ∧
    c.data.buffer = (if other.size = 0 then 0 else h.blocks.length + 1) ∧
    h.blocks.length ≤ h1.blocks.length ∧
    (∀ b, b ≤ h.blocks.length → h1.slots b = h.slots b ∧ h1.freed b = h.freed b) := by
  have hl := ho.1
  have hbuf := ho.2.2.1
  unfold Vector.copy_ctor at hr
  cases hc : RawMemory.create h other.size with
  | none => rw [hc] at hr; simp at hr
  | some r =>
    obtain ⟨h2, nd⟩ := r
    rw [hc] at hr
    simp only at hr
    obtain ⟨hndc, hal⟩ := RawMemory.create_spec h _ h2 nd hc
    cases hu : uninitialized_copy_n E h2 other.data.GetAddress other.size nd.GetAddress with
    | mk h3 r =>
      rw [hu] at hr
      cases r with
      | some e => simp at hr
      | none =>
        simp only [Prod.mk.injEq, Except.ok.injEq] at hr
        obtain ⟨e1, e2⟩ := hr
        subst e1 e2
        by_cases hz : other.size = 0
        · rw [hz, Allocate_zero] at hal
          simp only [Option.some.injEq, Prod.mk.injEq] at hal
          obtain ⟨e1, e2⟩ := hal
          rw [hz] at hu
          simp only [uninitialized_copy_n, uninitialized_copy_loop, Prod.mk.injEq, and_true] at hu
          subst hu
          subst e1
          have hys : ys = [] := List.length_eq_zero.mp (by omega)
          subst hys
          refine ⟨⟨hz, by simp only; omega, ?_, ?_, ?_⟩, rfl, hndc, ?_, Nat.le_refl _,
            fun _ _ => ⟨rfl, rfl⟩⟩
          · show nd.buffer ≤ _; rw [← e2]; exact Nat.zero_le _
          · show Heap.freed _ nd.buffer = false; rw [← e2]; rfl
          · show Heap.slots _ nd.buffer = layout [] nd.capacity
            rw [← e2, hndc, hz]; rfl
          · rw [if_pos hz]; exact e2.symm
        · obtain ⟨hnb, hlen1, hold, hnew, hfr⟩ := Allocate_spec h _ h2 nd.buffer hz hal
          have hne : (other.data.GetAddress).block ≠ (nd.GetAddress).block := by
            simp only [RawMemory.GetAddress]; omega
          have hsrc : ∀ k, k < other.size → ∃ x, h2.get (other.data.GetAddress + k) = some x := by
            intro k hk
            simp only [RawMemory.GetAddress, Ptr.mk_add, Nat.zero_add]
            rw [Heap.get_congr h h2 _ (hold _ hbuf).1]
            exact ho.get_some k (by omega)
          have hok2 : (uninitialized_copy_loop E other.data.GetAddress nd.GetAddress other.size
              0 h2).2 = none := congrArg Prod.snd hu
          obtain ⟨sh, sl⟩ := uninitialized_copy_loop_spec E _ _ hne other.size 0 h2
            (fun k _ hk => hsrc k (by omega)) hok2
          have e3 : (uninitialized_copy_loop E other.data.GetAddress nd.GetAddress other.size
              0 h2).1 = h3 := congrArg Prod.fst hu
          rw [e3] at sh sl
          refine ⟨⟨hl, by simp only; omega, ?_, ?_, ?_⟩, rfl, hndc, ?_, ?_, ?_⟩
          · show nd.buffer ≤ _; rw [sh.1]; omega
          · show Heap.freed _ nd.buffer = false; rw [(sh.2.2 _).1]; exact hfr
          · show Heap.slots _ nd.buffer = layout ys nd.capacity
            rw [slots_eq_layout_iff]
            intro j
            rw [sl, slot_replicate_none h2 _ _ j hnew]
            simp only [RawMemory.GetAddress, Nat.zero_add, Nat.zero_le, true_and, Nat.sub_zero,
              Nat.add_zero]
            rw [Heap.get_congr h h2 _ (hold _ hbuf).1, ho.get j, hndc, ← hl]
            by_cases c : j < other.size
            · rw [if_pos c, if_pos c, if_pos c]; rfl
            · rw [if_neg c, if_neg c, if_neg c]
          · rw [if_neg hz]; exact hnb
          · rw [sh.1]; omega
          · intro b hb
            refine ⟨?_, ?_⟩
            · rw [← (hold b hb).1]
              apply List.ext_getElem?
              intro j
              have := sl ⟨b, j⟩
              rw [if_neg (by simp only [RawMemory.GetAddress]; omega)] at this
              exact this
            · rw [(sh.2.2 b).1]; exact (hold b hb).2

end CopyAssign
section CopyAssign2
variable {α ε : Type}

theorem Heap.slots_eq_of_slot (h h1 : Heap α) (b : Nat)
    (hs : ∀ j, h1.slot ⟨b, j⟩ = h.slot ⟨b, j⟩) : h1.slots b = h.slots b :=
  List.ext_getElem? hs

theorem slots_destroy_n_of_ne (n : Nat) (h : Heap α) (p : Ptr) (b : Nat) (hne : b ≠ p.block) :
    (destroy_n h p n).slots b = h.slots b := by
  apply Heap.slots_eq_of_slot
  intro j
  rw [slot_destroy_n, if_neg (by simp only; omega)]

/-- Destroying a vector leaves every other block alone. -/
theorem Vector.Holds.frame_dtor {h : Heap α} {v w : Vector} {xs : List α} (hv : v.Holds h xs)
    (hne : v.data.buffer ≠ w.data.buffer) : v.Holds (Vector.dtor h w) xs := by
  unfold Vector.dtor RawMemory.dtor
  apply hv.frame
  · rw [Deallocate_slots, slots_destroy_n_of_ne _ _ _ _ hne]
  · rw [Deallocate_freed_of_ne _ _ _ hne, ((sameShape_destroy_n _ _ _).2.2 _).1]
  · rw [Deallocate_blocks_length, (sameShape_destroy_n _ _ _).1]

theorem Vector.Holds.capacity_zero {h : Heap α} {v : Vector} {xs : List α} (hv : v.Holds h xs)
    (hb : v.data.buffer = 0) : v.data.capacity = 0 := by
  have h5 := hv.2.2.2.2
  rw [hb] at h5
  have := congrArg List.length h5
  rw [layout_length _ _ (by rw [← hv.1]; exact hv.2.1)] at this
  exact this.symm

/-- What copy assignment from another object does when it returns. -/
theorem Vector.copy_assign_other (E : ElemType α ε) (h : Heap α) (self rhs : Vector)
    (xs ys : List α) (hs : self.Holds h xs) (hr : rhs.Holds h ys) (hsep : self.Separate rhs)
    (hok : (Vector.copy_assign E h self (.other rhs)).result = .ok ()) :
    (Vector.copy_assign E h self (.other rhs)).self.Holds
      (Vector.copy_assign E h self (.other rhs)).heap ys ∧
    rhs.Holds (Vector.copy_assign E h self (.other rhs)).heap ys ∧
    (Vector.copy_assign E h self (.other rhs)).self.size = rhs.size ∧
    (rhs.size ≤ self.data.capacity →
      (Vector.copy_assign E h self (.other rhs)).self.data = self.data) ∧
    (self.data.capacity < rhs.size →
      (Vector.copy_assign E h self (.other rhs)).self.data.capacity = rhs.size) := by
  have hxl := hs.1
  have hyl := hr.1
  have hsc := hs.2.1
  have hrc := hr.2.1
  unfold Vector.copy_assign at hok ⊢
  simp only [RawMemory.Capacity] at hok ⊢
  by_cases hbig : rhs.size > self.data.capacity
  · rw [if_pos hbig] at hok ⊢
    cases hc : Vector.copy_ctor E h rhs with
    | mk h1 res =>
      rw [hc] at hok
      cases res with
      | error e => simp at hok
      | ok c =>
        simp only [Vector.Swap_eq]
        obtain ⟨hch, hcs, hcc, hcb, hlen, hold⟩ := Vector.copy_ctor_spec E h rhs ys h1 c hr hc
        rw [if_neg (by omega)] at hcb
        have hsb := hs.2.2.1
        have hrb := hr.2.2.1
        have hne1 : c.data.buffer ≠ self.data.buffer := by omega
        have hs1 : self.Holds h1 xs := hs.frame (hold _ hsb).1 (hold _ hsb).2 hlen
        have hr1 : rhs.Holds h1 ys := hr.frame (hold _ hrb).1 (hold _ hrb).2 hlen
        have hcv : ({ data := c.data, size := c.size } : Vector) = c := rfl
        have hsv : ({ data := self.data, size := self.size } : Vector) = self := rfl
        rw [hcv, hsv]
        refine ⟨hch.frame_dtor hne1, ?_, hcs, fun c => by omega, fun _ => hcc⟩
        by_cases hz : self.data.buffer = rhs.data.buffer
        · have hz0 := hsep hz
          have hcz := hs1.capacity_zero hz0
          have hsz : self.size = 0 := by omega
          have : Vector.dtor h1 self = h1 := by
            unfold Vector.dtor RawMemory.dtor
            rw [hsz, hz0]
            rfl
          rw [this]; exact hr1
        · exact hr1.frame_dtor (fun e => hz e.symm)
  · rw [if_neg hbig] at hok ⊢
    by_cases hz : self.data.buffer = rhs.data.buffer
    · have hz0 := hsep hz
      have hcz := hs.capacity_zero hz0
      have hrz := hr.capacity_zero (by rw [← hz]; exact hz0)
      have hsz : self.size = 0 := by omega
      have hrsz : rhs.size = 0 := by omega
      have hys : ys = [] := List.length_eq_zero.mp (by omega)
      have hxs : xs = [] := List.length_eq_zero.mp (by omega)
      rw [if_neg (by omega), hsz, hrsz]
      simp only [copy_assign_loop, uninitialized_copy_n, uninitialized_copy_loop, Nat.sub_self]
      have e : ({ data := self.data, size := 0 } : Vector) = self := by
        cases self; simp only at hsz; subst hsz; rfl
      rw [e, hys]
      rw [hxs] at hs
      rw [hys] at hr
      refine ⟨hs, hr, ?_, ?_, ?_⟩
      · trivial
      · exact fun _ => trivial
      · intro c; omega
    · have hne : rhs.data.buffer ≠ self.data.buffer := fun e => hz e.symm
      by_cases hlt : rhs.size < self.size
      · rw [if_pos hlt]
        have hsrc : ∀ k, 0 ≤ k → k < 0 + rhs.size → ∃ x, h.get ⟨rhs.data.buffer, k⟩ = some x :=
          fun k _ hk => hr.get_some k (by omega)
        obtain ⟨sh, sl⟩ := copy_assign_loop_spec self.data rhs.data hne rhs.size 0 h hsrc
        have sh2 := sh.trans (sameShape_destroy_n (self.size - rhs.size)
          (copy_assign_loop self.data rhs.data rhs.size 0 h) (self.data.GetAddress + rhs.size))
        refine ⟨⟨hyl, by simp only; omega, ?_, ?_, ?_⟩, ?_, rfl, fun _ => rfl, fun c => by omega⟩
        · show self.data.buffer ≤ _; rw [sh2.1]; exact hs.2.2.1
        · show Heap.freed _ self.data.buffer = false; rw [(sh2.2.2 _).1]; exact hs.2.2.2.1
        · show Heap.slots _ self.data.buffer = layout ys self.data.capacity
          rw [slots_eq_layout_iff]
          intro j
          rw [slot_destroy_n, sl, hs.slot j, hr.get j]
          simp only [RawMemory.GetAddress, Ptr.mk_add, Nat.zero_add, Nat.zero_le, true_and]
          split_ifs <;> first | rfl | omega
        · apply hr.frame
          · apply Heap.slots_eq_of_slot
            intro j
            rw [slot_destroy_n, sl]
            simp only [RawMemory.GetAddress, Ptr.mk_add]
            rw [if_neg (by intro c; exact hne c.1), if_neg (by intro c; exact hne c.1)]
          · exact (sh2.2.2 _).1
          · rw [sh2.1]
      · rw [if_neg hlt] at hok ⊢
        have hsrc : ∀ k, 0 ≤ k → k < 0 + self.size → ∃ x, h.get ⟨rhs.data.buffer, k⟩ = some x :=
          fun k _ hk => hr.get_some k (by omega)
        obtain ⟨sh, sl⟩ := copy_assign_loop_spec self.data rhs.data hne self.size 0 h hsrc
        cases hu : uninitialized_copy_n E (copy_assign_loop self.data rhs.data self.size 0 h)
            (rhs.data.add self.size) (rhs.size - self.size) (self.data.add self.size) with
        | mk h2 r =>
          rw [hu] at hok
          cases r with
          | some e => simp at hok
          | none =>
            simp only
            have hok2 : (uninitialized_copy_loop E (rhs.data.add self.size)
                (self.data.add self.size) (rhs.size - self.size) 0
                (copy_assign_loop self.data rhs.data self.size 0 h)).2 = none :=
              congrArg Prod.snd hu
            have hsrc2 : ∀ k, 0 ≤ k → k < 0 + (rhs.size - self.size) →
                ∃ x, (copy_assign_loop self.data rhs.data self.size 0 h).get
                  (rhs.data.add self.size + k) = some x := by
              intro k _ hk
              simp only [RawMemory.add, Ptr.mk_add]
              have hg : (copy_assign_loop self.data rhs.data self.size 0 h).get
                  ⟨rhs.data.buffer, self.size + k⟩ = h.get ⟨rhs.data.buffer, self.size + k⟩ := by
                rw [Heap.get_eq, Heap.get_eq, sl, if_neg (by intro c; exact hne c.1)]
              rw [hg]
              exact hr.get_some _ (by omega)
            obtain ⟨sh2, sl2⟩ := uninitialized_copy_loop_spec E (rhs.data.add self.size)
              (self.data.add self.size) hne (rhs.size - self.size) 0 _ hsrc2 hok2
            have e3 : (uninitialized_copy_loop E (rhs.data.add self.size)
                (self.data.add self.size) (rhs.size - self.size) 0
                (copy_assign_loop self.data rhs.data self.size 0 h)).1 = h2 :=
              congrArg Prod.fst hu
            rw [e3] at sh2 sl2
            have sh3 := sh.trans sh2
            refine ⟨⟨hyl, by simp only; omega, ?_, ?_, ?_⟩, ?_, trivial, fun _ => trivial,
              fun c => by omega⟩
            · show self.data.buffer ≤ _; rw [sh3.1]; exact hs.2.2.1
            · show Heap.freed _ self.data.buffer = false; rw [(sh3.2.2 _).1]; exact hs.2.2.2.1
            · show Heap.slots _ self.data.buffer = layout ys self.data.capacity
              rw [slots_eq_layout_iff]
              intro j
              rw [sl2, sl, hs.slot j]
              simp only [RawMemory.add, Nat.zero_add, Nat.zero_le, true_and, Nat.add_zero]
              have hg : (copy_assign_loop self.data rhs.data self.size 0 h).get
                  ⟨rhs.data.buffer, self.size + (j - self.size)⟩ =
                  h.get ⟨rhs.data.buffer, self.size + (j - self.size)⟩ := by
                rw [Heap.get_eq, Heap.get_eq, sl, if_neg (by intro c; exact hne c.1)]
              rw [hg, hr.get, hr.get]
              split_ifs <;> first
                | rfl
                | omega
                | (have : self.size + (j - self.size) = j := by omega
                   rw [this]; rfl)
            · apply hr.frame
              · apply Heap.slots_eq_of_slot
                intro j
                rw [sl2, sl]
                simp only [RawMemory.add]
                rw [if_neg (by intro c; exact hne c.1), if_neg (by intro c; exact hne c.1)]
              · exact (sh3.2.2 _).1
              · rw [sh3.1]

/-- C9: after a copy assignment `this = rhs` from another vector that returns, `this` holds
the sequence of `rhs` (same size, same elements) and `rhs` still holds it; when `rhs.size` does
not exceed the old capacity of `this`, `data_` of `this` (storage block and capacity) is
unchanged, otherwise the capacity of `this` is exactly `rhs.size`; self-assignment returns the
heap and the object untouched. -/
theorem Vector.copy_assign_spec (E : ElemType α ε) (h : Heap α) (self rhs : Vector)
    (xs ys : List α) (hs : self.Holds h xs) (hr : rhs.Holds h ys) (hsep : self.Separate rhs)
    (hok : (Vector.copy_assign E h self (.other rhs)).result = .ok ()) :
    (Vector.copy_assign E h self (.other rhs)).self.Holds
      (Vector.copy_assign E h self (.other rhs)).heap ys ∧
    (Vector.copy_assign E h self (.other rhs)).self.size = rhs.size ∧
    (Vector.copy_assign E h self (.other rhs)).self.elems
      (Vector.copy_assign E h self (.other rhs)).heap = rhs.elems h ∧
    rhs.Holds (Vector.copy_assign E h self (.other rhs)).heap ys ∧
    (rhs.size ≤ self.Capacity →
      (Vector.copy_assign E h self (.other rhs)).self.data = self.data) ∧
    (self.Capacity < rhs.size →
      (Vector.copy_assign E h self (.other rhs)).self.Capacity = rhs.size) ∧
    ((Vector.copy_assign E h self .this).heap = h ∧
      (Vector.copy_assign E h self .this).self = self ∧
      (Vector.copy_assign E h self .this).result = .ok ()) := by
  obtain ⟨a, b, c, d, e⟩ := Vector.copy_assign_other E h self rhs xs ys hs hr hsep hok
  exact ⟨a, c, by rw [a.elems_eq, hr.elems_eq], b, d, e, rfl, rfl, rfl⟩

theorem Vector.copy_assign_spec_witness :
    (vector_of 1 1).Holds (heap_two [5] [1, 2, 3] 1 3 10) [5] ∧
    (vector_at 2 3 3).Holds (heap_two [5] [1, 2, 3] 1 3 10) [1, 2, 3] ∧
    (vector_of 1 1).Separate (vector_at 2 3 3) ∧
    (Vector.copy_assign int_elem (heap_two [5] [1, 2, 3] 1 3 10) (vector_of 1 1)
      (.other (vector_at 2 3 3))).result = .ok () ∧
    (Vector.copy_assign int_elem (heap_two [5] [1, 2, 3] 1 3 10) (vector_of 1 1)
      (.other (vector_at 2 3 3))).self.elems
      (Vector.copy_assign int_elem (heap_two [5] [1, 2, 3] 1 3 10) (vector_of 1 1)
        (.other (vector_at 2 3 3))).heap = [1, 2, 3] ∧
    (Vector.copy_assign int_elem (heap_two [5] [1, 2, 3] 1 3 10) (vector_of 1 1)
      (.other (vector_at 2 3 3))).self.Capacity = 3 :=
  ⟨by decide, by decide, by decide, rfl, by decide,
    (Vector.copy_assign_spec int_elem (heap_two [5] [1, 2, 3] 1 3 10) (vector_of 1 1)
      (vector_at 2 3 3) [5] [1, 2, 3] (by decide) (by decide) (by decide) rfl).2.2.2.2.2.1
      (by decide)⟩

end CopyAssign2

section Move
variable {α ε : Type}

/-- C10, as the code has it: move construction leaves the source with size `0` (and no
storage) and the new vector holding the source's former sequence; move assignment from another
vector leaves the heap as it is, the destination holding the source's former sequence and the
source holding the destination's former sequence, so that the source's size is the
destination's former size, `0` exactly when the destination was empty. -/
theorem Vector.move_spec (h : Heap α) (src dst : Vector) (xs ys : List α)
    (hsrc : src.Holds h xs) (hdst : dst.Holds h ys) :
    ((Vector.move_ctor src).1.Holds h xs ∧ (Vector.move_ctor src).2.size = 0 ∧
      (Vector.move_ctor src).2.Holds h []) ∧
    ((Vector.move_assign h dst (.other src)).1 = h ∧
      (Vector.move_assign h dst (.other src)).2.1.Holds h xs ∧
      ∃ src1, (Vector.move_assign h dst (.other src)).2.2 = some src1 ∧ src1.Holds h ys ∧
        src1.size = dst.size ∧ (src1.size = 0 ↔ ys = [])) := by
  refine ⟨⟨hsrc, rfl, holds_default h⟩, ?_⟩
  unfold Vector.move_assign
  simp only [Vector.Swap_eq]
  refine ⟨trivial, hsrc, { data := dst.data, size := dst.size }, rfl, hdst, rfl, ?_⟩
  show dst.size = 0 ↔ ys = []
  rw [hdst.1]
  exact List.length_eq_zero

theorem Vector.move_spec_witness :
    (vector_at 2 3 3).Holds (heap_two [5] [1, 2, 3] 1 3 10) [1, 2, 3] ∧
    (vector_of 1 1).Holds (heap_two [5] [1, 2, 3] 1 3 10) [5] ∧
    (Vector.move_assign (heap_two [5] [1, 2, 3] 1 3 10) (vector_of 1 1)
      (.other (vector_at 2 3 3))).2.1.Holds (heap_two [5] [1, 2, 3] 1 3 10) [1, 2, 3] :=
  ⟨by decide, by decide,
    (Vector.move_spec (heap_two [5] [1, 2, 3] 1 3 10) (vector_at 2 3 3) (vector_of 1 1)
      [1, 2, 3] [5] (by decide) (by decide)).2.2.1⟩

/-- C10 fails as stated: move-assigning a vector holding `1, 2, 3` into a vector holding `5`
leaves the source with size `1`, not `0`. -/
theorem Vector.move_assign_source_keeps_size :
    (vector_at 2 3 3).Holds (heap_two [5] [1, 2, 3] 1 3 10) [1, 2, 3] ∧
    (vector_of 1 1).Holds (heap_two [5] [1, 2, 3] 1 3 10) [5] ∧
    ((Vector.move_assign (heap_two [5] [1, 2, 3] 1 3 10) (vector_of 1 1)
      (.other (vector_at 2 3 3))).2.2.map Vector.size) = some 1 ∧
    ¬ ((Vector.move_assign (heap_two [5] [1, 2, 3] 1 3 10) (vector_of 1 1)
      (.other (vector_at 2 3 3))).2.2.map Vector.size) = some 0 := by
  decide

end Move

section InsertRealloc
variable {α ε : Type}

/-- The two bulk transfers of a reallocating insertion, by move or by copy: the objects before
index `p` go to the same indices of the new block, those from `p` on go one slot further. -/
theorem two_part_transfer (E : ElemType α ε) (mv : Bool) (h2 : Heap α) (buf nb p size : Nat)
    (hne : buf ≠ nb) (hp : p ≤ size) (hlive : ∀ k, k < size → ∃ x, h2.get ⟨buf, k⟩ = some x)
    (hok1 : (if mv then uninitialized_move_n E h2 ⟨buf, 0⟩ p ⟨nb, 0⟩
      else uninitialized_copy_n E h2 ⟨buf, 0⟩ p ⟨nb, 0⟩).2 = none)
    (hok2 : (if mv then uninitialized_move_n E
        (if mv then uninitialized_move_n E h2 ⟨buf, 0⟩ p ⟨nb, 0⟩
          else uninitialized_copy_n E h2 ⟨buf, 0⟩ p ⟨nb, 0⟩).1 ⟨buf, p⟩ (size - p) ⟨nb, p + 1⟩
      else uninitialized_copy_n E
        (if mv then uninitialized_move_n E h2 ⟨buf, 0⟩ p ⟨nb, 0⟩
          else uninitialized_copy_n E h2 ⟨buf, 0⟩ p ⟨nb, 0⟩).1 ⟨buf, p⟩ (size - p)
          ⟨nb, p + 1⟩).2 = none) :
    h2.SameShape (if mv then uninitialized_move_n E
        (if mv then uninitialized_move_n E h2 ⟨buf, 0⟩ p ⟨nb, 0⟩
          else uninitialized_copy_n E h2 ⟨buf, 0⟩ p ⟨nb, 0⟩).1 ⟨buf, p⟩ (size - p) ⟨nb, p + 1⟩
      else uninitialized_copy_n E
        (if mv then uninitialized_move_n E h2 ⟨buf, 0⟩ p ⟨nb, 0⟩
          else uninitialized_copy_n E h2 ⟨buf, 0⟩ p ⟨nb, 0⟩).1 ⟨buf, p⟩ (size - p)
          ⟨nb, p + 1⟩).1 ∧
    ∀ j, (if mv then uninitialized_move_n E
        (if mv then uninitialized_move_n E h2 ⟨buf, 0⟩ p ⟨nb, 0⟩
          else uninitialized_copy_n E h2 ⟨buf, 0⟩ p ⟨nb, 0⟩).1 ⟨buf, p⟩ (size - p) ⟨nb, p + 1⟩
      else uninitialized_copy_n E
        (if mv then uninitialized_move_n E h2 ⟨buf, 0⟩ p ⟨nb, 0⟩
          else uninitialized_copy_n E h2 ⟨buf, 0⟩ p ⟨nb, 0⟩).1 ⟨buf, p⟩ (size - p)
          ⟨nb, p + 1⟩).1.slot ⟨nb, j⟩ =
      if j < p then (h2.slot ⟨nb, j⟩).map (fun _ => h2.get ⟨buf, j⟩)
      else if p + 1 ≤ j ∧ j < size + 1 then (h2.slot ⟨nb, j⟩).map (fun _ => h2.get ⟨buf, j - 1⟩)
      else h2.slot ⟨nb, j⟩ := by
  have hsrc1 : ∀ k, k < p → ∃ x, h2.get ((⟨buf, 0⟩ : Ptr) + k) = some x := by
    intro k hk
    rw [Ptr.mk_add, Nat.zero_add]
    exact hlive k (by omega)
  obtain ⟨sh1, sd1, so1⟩ := transfer_spec E mv h2 ⟨buf, 0⟩ ⟨nb, 0⟩ p hne hsrc1 hok1
  generalize (if mv then uninitialized_move_n E h2 ⟨buf, 0⟩ p ⟨nb, 0⟩
      else uninitialized_copy_n E h2 ⟨buf, 0⟩ p ⟨nb, 0⟩).1 = h3 at hok2 sh1 sd1 so1 ⊢
  have hkeep : ∀ k, p ≤ k → h3.slot ⟨buf, k⟩ = h2.slot ⟨buf, k⟩ := by
    intro k hk
    apply so1
    · simp only; omega
    · simp only; omega
  have hsrc2 : ∀ k, k < size - p → ∃ x, h3.get ((⟨buf, p⟩ : Ptr) + k) = some x := by
    intro k hk
    rw [Ptr.mk_add]
    obtain ⟨x, hx⟩ := hlive (p + k) (by omega)
    refine ⟨x, ?_⟩
    rw [Heap.get_eq, hkeep _ (by omega), ← Heap.get_eq]
    exact hx
  obtain ⟨sh2, sd2, _⟩ := transfer_spec E mv h3 ⟨buf, p⟩ ⟨nb, p + 1⟩ (size - p) hne hsrc2 hok2
  refine ⟨sh1.trans sh2, fun j => ?_⟩
  rw [sd2 j]
  simp only
  have e1 := sd1 j
  simp only [Nat.zero_le, true_and, Nat.zero_add, Nat.sub_zero] at e1
  by_cases c1 : j < p
  · rw [if_neg (by omega), if_pos c1, e1, if_pos c1]
  · rw [if_neg c1]
    by_cases c2 : p + 1 ≤ j ∧ j < size + 1
    · rw [if_pos (by omega), if_pos c2, e1, if_neg c1]
      have : p + (j - (p + 1)) = j - 1 := by omega
      rw [this, Heap.get_eq, hkeep _ (by omega), ← Heap.get_eq]
    · rw [if_neg (by omega), if_neg c2, e1, if_neg c1]

theorem getElem?_insert_at (xs : List α) (p : Nat) (x : α) (hp : p ≤ xs.length) (j : Nat) :
    (xs.take p ++ [x] ++ xs.drop p)[j]? =
      if j < p then xs[j]? else if j = p then some x else xs[j - 1]? := by
  have hl : (xs.take p ++ [x]).length = p + 1 := by simp; omega
  by_cases c1 : j < p + 1
  · rw [List.getElem?_append_left (by omega), getElem?_append_singleton]
    simp only [List.length_take, List.getElem?_take]
    split_ifs <;> first | rfl | omega
  · rw [List.getElem?_append_right (by omega), hl, List.getElem?_drop]
    rw [if_neg (by omega), if_neg (by omega)]
    congr 1; omega

theorem length_insert_at (xs : List α) (p : Nat) (x : α) (hp : p ≤ xs.length) :
    (xs.take p ++ [x] ++ xs.drop p).length = xs.length + 1 := by
  simp; omega

end InsertRealloc
section InsertRealloc2
variable {α ε : Type}

/-- What the reallocating branch of `Emplace` does when it returns. -/
theorem Vector.Emplace_realloc (E : ElemType α ε) (h : Heap α) (v : Vector) (xs : List α)
    (p : Nat) (args : Except ε α) (hv : v.Holds h xs) (hfull : v.size = v.Capacity)
    (hp : p ≤ v.size) (hok : (Vector.Emplace E h v ⟨v.data.buffer, p⟩ args).succeeded = true) :
    ∃ x, args = .ok x ∧
    (Vector.Emplace E h v ⟨v.data.buffer, p⟩ args).self.Holds
      (Vector.Emplace E h v ⟨v.data.buffer, p⟩ args).heap (xs.take p ++ [x] ++ xs.drop p) ∧
    (Vector.Emplace E h v ⟨v.data.buffer, p⟩ args).self.size = v.size + 1 ∧
    (Vector.Emplace E h v ⟨v.data.buffer, p⟩ args).self.data.capacity =
      (if v.size ≠ 0 then v.data.capacity * 2 else 1) ∧
    (Vector.Emplace E h v ⟨v.data.buffer, p⟩ args).self.data.buffer = h.blocks.length + 1 ∧
    (Vector.Emplace E h v ⟨v.data.buffer, p⟩ args).result =
      .ok ⟨(Vector.Emplace E h v ⟨v.data.buffer, p⟩ args).self.data.buffer, p⟩ := by
  have hl := hv.1
  have hcap := hv.2.1
  have hbuf := hv.2.2.1
  have hfull' : v.size = v.data.capacity := hfull
  unfold Vector.Emplace at hok ⊢
  simp only [Vector.Capacity, RawMemory.Capacity, Vector.begin_, Vector.end_, RawMemory.add,
    Ptr.mk_add, Nat.sub_zero, Nat.zero_add, RawMemory.GetAddress] at hok ⊢
  rw [if_pos hfull'] at hok ⊢
  have hn0 : (if v.size ≠ 0 then v.data.capacity * 2 else 1) ≠ 0 := by
    split_ifs <;> omega
  have hge : v.size + 1 ≤ (if v.size ≠ 0 then v.data.capacity * 2 else 1) := by
    split_ifs <;> omega
  generalize (if v.size ≠ 0 then v.data.capacity * 2 else 1) = n' at hok hn0 hge ⊢
  cases hc : RawMemory.create h n' with
  | none => rw [hc] at hok; simp [Outcome.succeeded] at hok
  | some r =>
    obtain ⟨h1, nd⟩ := r
    rw [hc] at hok
    simp only at hok ⊢
    obtain ⟨hndc, hal⟩ := RawMemory.create_spec h _ h1 nd hc
    obtain ⟨hnb, hlen1, hold, hnew, hfr⟩ := Allocate_spec h _ h1 nd.buffer hn0 hal
    cases args with
    | error e => simp [Outcome.succeeded] at hok
    | ok x =>
      simp only at hok ⊢
      have hne : v.data.buffer ≠ nd.buffer := by omega
      have hlive : ∀ k, k < v.size →
          ∃ y, (h1.set ⟨nd.buffer, p⟩ (some x)).get ⟨v.data.buffer, k⟩ = some y := by
        intro k hk
        rw [Heap.get_set_of_ne _ _ _ _ (by
          intro e; exact hne (congrArg Ptr.block e)), Heap.get_congr h h1 _ (hold _ hbuf).1]
        exact hv.get_some k (by omega)
      have key : ∀ (mv : Bool) (h5 : Heap α),
          (if mv then uninitialized_move_n E (h1.set ⟨nd.buffer, p⟩ (some x))
              ⟨v.data.buffer, 0⟩ p ⟨nd.buffer, 0⟩
            else uninitialized_copy_n E (h1.set ⟨nd.buffer, p⟩ (some x))
              ⟨v.data.buffer, 0⟩ p ⟨nd.buffer, 0⟩).2 = none →
          (if mv then uninitialized_move_n E
              (if mv then uninitialized_move_n E (h1.set ⟨nd.buffer, p⟩ (some x))
                  ⟨v.data.buffer, 0⟩ p ⟨nd.buffer, 0⟩
                else uninitialized_copy_n E (h1.set ⟨nd.buffer, p⟩ (some x))
                  ⟨v.data.buffer, 0⟩ p ⟨nd.buffer, 0⟩).1
              ⟨v.data.buffer, p⟩ (v.size - p) ⟨nd.buffer, p + 1⟩
            else uninitialized_copy_n E
              (if mv then uninitialized_move_n E (h1.set ⟨nd.buffer, p⟩ (some x))
                  ⟨v.data.buffer, 0⟩ p ⟨nd.buffer, 0⟩
                else uninitialized_copy_n E (h1.set ⟨nd.buffer, p⟩ (some x))
                  ⟨v.data.buffer, 0⟩ p ⟨nd.buffer, 0⟩).1
              ⟨v.data.buffer, p⟩ (v.size - p) ⟨nd.buffer, p + 1⟩) = (h5, none) →
          ({ data := nd, size := v.size + 1 } : Vector).Holds
            (Deallocate (destroy_n h5 ⟨v.data.buffer, 0⟩ v.size) v.data.buffer)
            (xs.take p ++ [x] ++ xs.drop p) := by
        intro mv h5 hok1 hr2
        obtain ⟨sh, sd⟩ := two_part_transfer E mv _ v.data.buffer nd.buffer p v.size hne hp
          hlive hok1 (by rw [hr2])
        rw [hr2] at sh sd
        simp only at sh sd
        have sh3 := ((Heap.sameShape_set h1 ⟨nd.buffer, p⟩ (some x)).trans sh).trans
          (sameShape_destroy_n v.size h5 ⟨v.data.buffer, 0⟩)
        refine ⟨?_, ?_, ?_, ?_, ?_⟩
        · show v.size + 1 = _
          rw [length_insert_at xs p x (by omega)]; omega
        · show v.size + 1 ≤ nd.capacity; omega
        · show nd.buffer ≤ _
          rw [Deallocate_blocks_length, sh3.1]; omega
        · show Heap.freed _ nd.buffer = false
          rw [Deallocate_freed_of_ne _ _ _ (by omega), (sh3.2.2 _).1]; exact hfr
        · show Heap.slots _ nd.buffer = layout _ nd.capacity
          rw [slots_eq_layout_iff]
          intro j
          rw [Deallocate_slot, slot_destroy_n, if_neg (by simp only; omega), sd j,
            Heap.slot_set, slot_replicate_none h1 _ _ j hnew,
            Heap.get_set_of_ne _ _ _ _ (by intro e; exact hne (congrArg Ptr.block e)),
            Heap.get_set_of_ne _ _ _ _ (by intro e; exact hne (congrArg Ptr.block e)),
            Heap.get_congr h h1 _ (hold _ hbuf).1, Heap.get_congr h h1 _ (hold _ hbuf).1,
            hv.get, hv.get, getElem?_insert_at xs p x (by omega),
            length_insert_at xs p x (by omega), slot_replicate_none h1 _ _ p hnew, hndc]
          simp only [Ptr.mk.injEq, true_and]
          split_ifs <;> first | rfl | omega
      by_cases hm : (E.nothrow_move_constructible || !E.copy_constructible) = true
      · rw [if_pos hm] at hok ⊢
        simp only [uninitialized_move, Nat.sub_zero] at hok ⊢
        cases hu1 : uninitialized_move_n E (h1.set ⟨nd.buffer, p⟩ (some x))
            ⟨v.data.buffer, 0⟩ p ⟨nd.buffer, 0⟩ with
        | mk h3 r1 =>
          rw [hu1] at hok
          cases r1 with
          | some e => simp [Outcome.succeeded] at hok
          | none =>
            simp only at hok ⊢
            cases hu2 : uninitialized_move_n E h3 ⟨v.data.buffer, p⟩ (v.size - p)
                ⟨nd.buffer, p + 1⟩ with
            | mk h4 r2 =>
              rw [hu2] at hok
              cases r2 with
              | some e => simp [Outcome.succeeded] at hok
              | none =>
                simp only [RawMemory.Swap, RawMemory.dtor, RawMemory.GetAddress]
                have hk := key true h4 (by simp only [if_true]; rw [hu1])
                  (by simp only [if_true]; rw [hu1]; exact hu2)
                exact ⟨x, rfl, hk, trivial, hndc, hnb, trivial⟩
      · rw [if_neg hm] at hok ⊢
        simp only [uninitialized_copy, Nat.sub_zero] at hok ⊢
        cases hu1 : uninitialized_copy_n E (h1.set ⟨nd.buffer, p⟩ (some x))
            ⟨v.data.buffer, 0⟩ p ⟨nd.buffer, 0⟩ with
        | mk h3 r1 =>
          rw [hu1] at hok
          cases r1 with
          | some e => simp [Outcome.succeeded] at hok
          | none =>
            simp only at hok ⊢
            cases hu2 : uninitialized_copy_n E h3 ⟨v.data.buffer, p⟩ (v.size - p)
                ⟨nd.buffer, p + 1⟩ with
            | mk h4 r2 =>
              rw [hu2] at hok
              cases r2 with
              | some e => simp [Outcome.succeeded] at hok
              | none =>
                simp only [RawMemory.Swap, RawMemory.dtor, RawMemory.GetAddress]
                have hk := key false h4
                  (by simp only [Bool.false_eq_true, if_false]; rw [hu1])
                  (by simp only [Bool.false_eq_true, if_false]; rw [hu1]; exact hu2)
                exact ⟨x, rfl, hk, trivial, hndc, hnb, trivial⟩

end InsertRealloc2

section InPlace
variable {α ε : Type}

theorem move_backward_loop_spec (E : ElemType α ε) (b : Nat) (n last d_last : Nat) (h : Heap α)
    (hlt : last < d_last) (hn : n ≤ last) (hin : d_last ≤ (h.slots b).length)
    (hsrc : ∀ k, last - n ≤ k → k < last → ∃ x, h.get ⟨b, k⟩ = some x) :
    h.SameShape (move_backward_loop E b b n last d_last h) ∧
    ∀ q, (move_backward_loop E b b n last d_last h).slot q =
      if q.block = b ∧ d_last - n ≤ q.off ∧ q.off < d_last
      then h.slot ⟨b, q.off - (d_last - last)⟩
      else if q.block = b ∧ last - n ≤ q.off ∧ q.off < last
      then (h.slot q).map (Option.map E.moved_from)
      else h.slot q := by
  induction n generalizing last d_last h with
  | zero =>
    refine ⟨Heap.sameShape_refl h, fun q => ?_⟩
    have c : ¬ (q.block = b ∧ d_last - 0 ≤ q.off ∧ q.off < d_last) := by omega
    have c' : ¬ (q.block = b ∧ last - 0 ≤ q.off ∧ q.off < last) := by omega
    rw [if_neg c, if_neg c']; rfl
  | succ n ih =>
    obtain ⟨x, hx⟩ := hsrc (last - 1) (by omega) (by omega)
    unfold move_backward_loop
    rw [move_assign_at_eq E h _ _ x hx]
    have hfd : (⟨b, last - 1⟩ : Ptr) ≠ ⟨b, d_last - 1⟩ := by
      intro e; have := congrArg Ptr.off e; simp only at this; omega
    have shs := sameShape_move_step E h ⟨b, d_last - 1⟩ ⟨b, last - 1⟩ x
    have hsrc1 : ∀ k, last - 1 - n ≤ k → k < last - 1 →
        ∃ y, ((h.set ⟨b, d_last - 1⟩ (some x)).set ⟨b, last - 1⟩ (some (E.moved_from x))).get
          ⟨b, k⟩ = some y := by
      intro k hk1 hk2
      obtain ⟨y, hy⟩ := hsrc k (by omega) (by omega)
      refine ⟨y, ?_⟩
      rw [get_move_step_of_ne]
      · exact hy
      · intro e; have := congrArg Ptr.off e; simp only at this; omega
      · intro e; have := congrArg Ptr.off e; simp only at this; omega
    obtain ⟨sh, sl⟩ := ih (last - 1) (d_last - 1) _ (by omega) (by omega)
      (by rw [(shs.2.2 b).2]; omega) hsrc1
    refine ⟨shs.trans sh, fun q => ?_⟩
    rw [sl q]
    have hs := (Heap.get_eq_some h ⟨b, last - 1⟩ x).mp hx
    have hdin : ∃ s, h.slot ⟨b, d_last - 1⟩ = some s :=
      ⟨_, List.getElem?_eq_getElem (by show d_last - 1 < (h.slots b).length; omega)⟩
    obtain ⟨sd, hsd⟩ := hdin
    have hdelta : d_last - 1 - (last - 1) = d_last - last := by omega
    rw [hdelta]
    by_cases c1 : q.block = b ∧ d_last - 1 - n ≤ q.off ∧ q.off < d_last - 1
    · have c2 : q.block = b ∧ d_last - (n + 1) ≤ q.off ∧ q.off < d_last := by omega
      have n1 : (⟨b, q.off - (d_last - last)⟩ : Ptr) ≠ ⟨b, last - 1⟩ := by
        intro e; have := congrArg Ptr.off e; simp only at this; omega
      have n2 : (⟨b, q.off - (d_last - last)⟩ : Ptr) ≠ ⟨b, d_last - 1⟩ := by
        intro e; have := congrArg Ptr.off e; simp only at this; omega
      rw [if_pos c1, if_pos c2, slot_move_step E h _ _ _ x hx hfd, if_neg n1, if_neg n2]
    · rw [if_neg c1]
      by_cases e : q = ⟨b, d_last - 1⟩
      · have c3 : ¬ (q.block = b ∧ last - 1 - n ≤ q.off ∧ q.off < last - 1) := by
          rw [e]; simp only [true_and]; omega
        have c2 : q.block = b ∧ d_last - (n + 1) ≤ q.off ∧ q.off < d_last := by
          rw [e]; simp only [true_and]; omega
        have e' : ¬ q = ⟨b, last - 1⟩ := by rw [e]; exact fun c => hfd c.symm
        have hsrcq : (⟨b, q.off - (d_last - last)⟩ : Ptr) = ⟨b, last - 1⟩ := by
          rw [e]; simp only [Ptr.mk.injEq, true_and]; omega
        rw [if_neg c3, if_pos c2, slot_move_step E h _ _ _ x hx hfd, if_neg e', if_pos e,
          hsrcq, hs, hsd]; rfl
      · have c2 : ¬ (q.block = b ∧ d_last - (n + 1) ≤ q.off ∧ q.off < d_last) := by
          intro c
          rcases Nat.lt_or_ge q.off (d_last - 1) with hl | hl
          · exact c1 ⟨c.1, by omega, hl⟩
          · exact e ((Ptr.eq_iff _ _).mpr ⟨c.1, by simp only; omega⟩)
        rw [if_neg c2]
        by_cases e' : q = ⟨b, last - 1⟩
        · have c3 : ¬ (q.block = b ∧ last - 1 - n ≤ q.off ∧ q.off < last - 1) := by
            rw [e']; simp only [true_and]; omega
          have c4 : q.block = b ∧ last - (n + 1) ≤ q.off ∧ q.off < last := by
            rw [e']; simp only [true_and]; omega
          rw [if_neg c3, if_pos c4, slot_move_step E h _ _ _ x hx hfd, if_pos e', e', hs]; rfl
        · by_cases c4 : q.block = b ∧ last - (n + 1) ≤ q.off ∧ q.off < last
          · have c3 : q.block = b ∧ last - 1 - n ≤ q.off ∧ q.off < last - 1 := by
              refine ⟨c4.1, by omega, ?_⟩
              by_contra hc
              exact e' ((Ptr.eq_iff _ _).mpr ⟨c4.1, by simp only; omega⟩)
            rw [if_pos c3, if_pos c4, slot_move_step E h _ _ _ x hx hfd, if_neg e', if_neg e]
          · have c3 : ¬ (q.block = b ∧ last - 1 - n ≤ q.off ∧ q.off < last - 1) := by omega
            rw [if_neg c3, if_neg c4, slot_move_step E h _ _ _ x hx hfd, if_neg e', if_neg e]

end InPlace
section InPlace2
variable {α ε : Type}

theorem moved_last_getElem? (E : ElemType α ε) (xs : List α) (j : Nat) :
    (moved_last E xs)[j]? =
      if j + 1 = xs.length then (xs[j]?).map E.moved_from else xs[j]? := by
  rcases List.eq_nil_or_concat xs with e | ⟨ys, l, e⟩
  · subst e
    simp [moved_last]
  · rw [List.concat_eq_append] at e
    subst e
    have h1 : (ys ++ [l]).getLast? = some l := by simp
    have h2 : (ys ++ [l]).dropLast = ys := by simp
    unfold moved_last
    rw [h1]
    simp only [h2]
    rw [getElem?_append_singleton, getElem?_append_singleton]
    simp only [List.length_append, List.length_singleton]
    split_ifs <;> first | rfl | omega

theorem moved_last_length (E : ElemType α ε) (xs : List α) :
    (moved_last E xs).length = xs.length := by
  rcases List.eq_nil_or_concat xs with e | ⟨ys, l, e⟩
  · subst e; rfl
  · rw [List.concat_eq_append] at e
    subst e
    have h1 : (ys ++ [l]).getLast? = some l := by simp
    unfold moved_last
    rw [h1]
    simp

theorem moved_last_of_id (E : ElemType α ε) (hid : ∀ y, E.moved_from y = y) (xs : List α) :
    moved_last E xs = xs := by
  apply List.ext_getElem?
  intro j
  rw [moved_last_getElem?]
  split_ifs
  · cases xs[j]? with
    | none => rfl
    | some y => simp [hid]
  · rfl

end InPlace2
section InPlace3
variable {α ε : Type}

theorem Vector.Holds.slots_length {h : Heap α} {v : Vector} {xs : List α} (hv : v.Holds h xs) :
    (h.slots v.data.buffer).length = v.data.capacity := by
  rw [hv.2.2.2.2, layout_length _ _ (by rw [← hv.1]; exact hv.2.1)]

/-- What the branch `size_ != Capacity()` of `Emplace` does when it returns: the new object
is at index `p` and the old ones are around it in order, except that the object that was last
is left in its moved-from state. -/
theorem Vector.Emplace_in_place (E : ElemType α ε) (h : Heap α) (v : Vector) (xs : List α)
    (p : Nat) (args : Except ε α) (hv : v.Holds h xs) (hlt : v.size < v.Capacity)
    (hp : p ≤ v.size) (hok : (Vector.Emplace E h v (v.begin_ + p) args).succeeded = true) :
    ∃ x, args = .ok x ∧
      (Vector.Emplace E h v (v.begin_ + p) args).InsertedAt (moved_last E xs) p x ∧
      (Vector.Emplace E h v (v.begin_ + p) args).self.data = v.data := by
  have hl := hv.1
  have hcap := hv.2.1
  have hbuf := hv.2.2.1
  have hlt' : v.size < v.data.capacity := hlt
  have hlen := hv.slots_length
  rw [Vector.begin_add] at hok ⊢
  unfold Outcome.InsertedAt
  unfold Vector.Emplace at hok ⊢
  simp only [Vector.Capacity, RawMemory.Capacity, Vector.begin_, Vector.end_, RawMemory.add,
    Ptr.mk_add, Nat.sub_zero, Nat.zero_add, RawMemory.GetAddress] at hok ⊢
  rw [if_neg (by omega)] at hok ⊢
  by_cases hz : v.size = 0
  · rw [if_pos hz] at hok ⊢
    cases args with
    | error e => simp [Outcome.succeeded] at hok
    | ok x =>
      simp only
      have hp0 : p = 0 := by omega
      subst hp0
      have hxs : xs = [] := List.length_eq_zero.mp (by omega)
      subst hxs
      have sh := Heap.sameShape_set h ⟨v.data.buffer, 0⟩ (some x)
      refine ⟨x, rfl, ⟨⟨?_, ?_, ?_, ?_, ?_⟩, ?_, trivial⟩, trivial⟩
      · show v.size + 1 = _; rw [hz]; rfl
      · show v.size + 1 ≤ v.data.capacity; omega
      · show v.data.buffer ≤ _; rw [sh.1]; exact hbuf
      · show Heap.freed _ v.data.buffer = false; rw [(sh.2.2 _).1]; exact hv.2.2.2.1
      · show Heap.slots _ v.data.buffer = layout [x] v.data.capacity
        rw [slots_eq_layout_iff]
        intro j
        rw [Heap.slot_set, hv.slot j, hv.slot 0]
        simp only [Ptr.mk.injEq, true_and, List.length_nil, List.length_singleton]
        split_ifs <;> first | rfl | omega | (subst_vars; rfl)
      · rw [hz]; rfl
  · rw [if_neg hz] at hok ⊢
    obtain ⟨l, hgl⟩ := hv.get_some (v.size - 1) (by omega)
    have hxl : xs[v.size - 1]? = some l := by rw [← hv.get]; exact hgl
    cases hmc : move_construct_at E h ⟨v.data.buffer, v.size⟩ ⟨v.data.buffer, v.size - 1⟩ with
    | mk h1 r =>
      rw [hmc] at hok
      cases r with
      | some e => simp [Outcome.succeeded] at hok
      | none =>
        simp only at hok ⊢
        have hmc2 := move_construct_at_eq E h ⟨v.data.buffer, v.size⟩
          ⟨v.data.buffer, v.size - 1⟩ l hgl (by rw [hmc])
        rw [hmc] at hmc2
        simp only [Prod.mk.injEq, and_true] at hmc2
        have hfd : (⟨v.data.buffer, v.size - 1⟩ : Ptr) ≠ ⟨v.data.buffer, v.size⟩ := by
          intro e; have := congrArg Ptr.off e; simp only at this; omega
        have sl1 : ∀ q, h1.slot q =
            if q = ⟨v.data.buffer, v.size - 1⟩ then some (some (E.moved_from l))
            else if q = ⟨v.data.buffer, v.size⟩
              then (h.slot ⟨v.data.buffer, v.size⟩).map (fun _ => some l)
            else h.slot q := by
          intro q; rw [hmc2]; exact slot_move_step E h _ _ q l hgl hfd
        have sh1 : h.SameShape h1 := by rw [hmc2]; exact sameShape_move_step E h _ _ l
        cases args with
        | error e => simp [Outcome.succeeded] at hok
        | ok x =>
          simp only
          unfold move_backward
          simp only [Nat.sub_zero]
          have hsrc : ∀ k, v.size - (v.size - p) ≤ k → k < v.size →
              ∃ y, h1.get ⟨v.data.buffer, k⟩ = some y := by
            intro k _ hk
            by_cases e : k = v.size - 1
            · refine ⟨E.moved_from l, ?_⟩
              rw [Heap.get_eq_some, sl1, if_pos (by rw [e])]
            · obtain ⟨y, hy⟩ := hv.get_some k (by omega)
              refine ⟨y, ?_⟩
              rw [Heap.get_eq_some, sl1, if_neg (by
                intro c; have := congrArg Ptr.off c; simp only at this; omega), if_neg (by
                intro c; have := congrArg Ptr.off c; simp only at this; omega)]
              exact (Heap.get_eq_some _ _ _).mp hy
          obtain ⟨sh2, sl2⟩ := move_backward_loop_spec E v.data.buffer (v.size - p) v.size
            (v.size + 1) h1 (by omega) (by omega) (by rw [(sh1.2.2 _).2, hlen]; omega) hsrc
          have sh3 := (sh1.trans sh2).trans (sameShape_destroy_n 1
            (move_backward_loop E v.data.buffer v.data.buffer (v.size - p) v.size (v.size + 1) h1)
            ⟨v.data.buffer, p⟩)
          have sh4 := sh3.trans (Heap.sameShape_set _ ⟨v.data.buffer, p⟩ (some x))
          refine ⟨x, rfl, ⟨⟨?_, ?_, ?_, ?_, ?_⟩, ?_, trivial⟩, trivial⟩
          · show v.size + 1 = _
            rw [length_insert_at _ p x (by rw [moved_last_length]; omega), moved_last_length]
            omega
          · show v.size + 1 ≤ v.data.capacity; omega
          · show v.data.buffer ≤ _; rw [sh4.1]; exact hbuf
          · show Heap.freed _ v.data.buffer = false; rw [(sh4.2.2 _).1]; exact hv.2.2.2.1
          · show Heap.slots _ v.data.buffer = layout _ v.data.capacity
            rw [slots_eq_layout_iff]
            intro j
            have hpin : ∃ s, (destroy_n (move_backward_loop E v.data.buffer v.data.buffer
                (v.size - p) v.size (v.size + 1) h1) ⟨v.data.buffer, p⟩ 1).slot
                ⟨v.data.buffer, p⟩ = some s :=
              ⟨_, List.getElem?_eq_getElem (by
                show p < (Heap.slots _ v.data.buffer).length
                rw [(sh3.2.2 _).2, hlen]; omega)⟩
            obtain ⟨sp, hsp⟩ := hpin
            rw [Heap.slot_set, hsp, slot_destroy_n, sl2, sl1, sl1,
              length_insert_at _ p x (by rw [moved_last_length]; omega), moved_last_length,
              getElem?_insert_at _ p x (by rw [moved_last_length]; omega),
              moved_last_getElem?, moved_last_getElem?, hv.slot j, hv.slot (j - (v.size + 1 - v.size)),
              hv.slot v.size]
            simp only [Ptr.mk.injEq, true_and]
            have hd1 : v.size + 1 - v.size = 1 := by omega
            rw [hd1]
            have g1 : ¬ v.size < xs.length := by omega
            have g2 : v.size + 1 - (v.size - p) = p + 1 := by omega
            have g3 : v.size - (v.size - p) = p := by omega
            have g4 : j - 1 + 1 = xs.length ↔ j - 1 = v.size - 1 := by omega
            have g5 : j + 1 = xs.length ↔ j = v.size - 1 := by omega
            simp only [g1, g2, g3, g4, g5, hlt', if_true, if_false, Option.map_some']
            by_cases c0 : j = p
            · have a1 : p < xs.length + 1 := by omega
              simp only [c0, a1, if_true, if_false]
              rw [if_neg (Nat.lt_irrefl p)]
            · have a0 : ¬ (p ≤ j ∧ j < p + 1) := by omega
              simp only [c0, a0, if_false]
              by_cases c1 : p + 1 ≤ j ∧ j < v.size + 1
              · have a1 : j < xs.length + 1 := by omega
                have a2 : ¬ j < p := by omega
                simp only [c1, a1, a2, and_self, if_true, if_false]
                by_cases c2 : j - 1 = v.size - 1
                · simp only [c2, if_true, hxl, Option.map_some']
                · have a3 : ¬ j - 1 = v.size := by omega
                  have a4 : j - 1 < xs.length := by omega
                  simp only [c2, a3, a4, if_true, if_false]
              · have a1 : ¬ (p ≤ j ∧ j < v.size) := by omega
                simp only [c1, a1, if_false]
                by_cases c2 : j < p
                · have a2 : j < xs.length + 1 := by omega
                  have a3 : ¬ j = v.size := by omega
                  have a4 : j < xs.length := by omega
                  simp only [c2, a2, a3, a4, if_true, if_false]
                  by_cases c3 : j = v.size - 1
                  · simp only [c3, if_true, hxl, Option.map_some']
                  · simp only [c3, if_false]
                · have a2 : ¬ j < xs.length + 1 := by omega
                  have a3 : ¬ j = v.size := by omega
                  have a4 : ¬ j < xs.length := by omega
                  have a5 : ¬ j = v.size - 1 := by omega
                  simp only [a2, a3, a4, a5, if_false]
          · show v.size + 1 = _
            rw [moved_last_length, hl]

end InPlace3
section InPlace4
variable {α ε : Type}

/-- For an element type whose moves leave the source as it was, the branch
`size_ != Capacity()` of `Emplace` inserts as expected and keeps `data_`. -/
theorem Vector.Emplace_in_place_of_id (E : ElemType α ε) (hid : ∀ y, E.moved_from y = y)
    (h : Heap α) (v : Vector) (xs : List α) (p : Nat) (args : Except ε α) (hv : v.Holds h xs)
    (hlt : v.size < v.Capacity) (hp : p ≤ v.size)
    (hok : (Vector.Emplace E h v (v.begin_ + p) args).succeeded = true) :
    ∃ x, args = .ok x ∧ (Vector.Emplace E h v (v.begin_ + p) args).InsertedAt xs p x ∧
      (Vector.Emplace E h v (v.begin_ + p) args).self.data = v.data := by
  have := Vector.Emplace_in_place E h v xs p args hv hlt hp hok
  rw [moved_last_of_id E hid xs] at this
  exact this

/-- C1 fails on the code.  A vector of strings holding `a, b, c` in a block of 4 slots
(`size < capacity`): `Insert` of `x` at index 1 leaves `a, x, b` followed by an empty string,
and `Insert` of `x` at index 3 (`p = size`) leaves `a, b`, an empty string, `x`.  In both cases
the object that was last is left in its moved-from state instead of keeping its value `c`:
`std::move_backward(pos, end(), end() + 1)` moves once more from the slot `size_ - 1` that the
preceding `new (data_ + size_) T(std::move(data_[size_ - 1]))` has already moved from. -/
theorem Vector.Insert_in_place_loses_last :
    (vector_of 3 4).Holds (heap_of ["a", "b", "c"] 4 0) ["a", "b", "c"] ∧
    (vector_of 3 4).size < (vector_of 3 4).Capacity ∧
    (Vector.Insert string_elem (heap_of ["a", "b", "c"] 4 0) (vector_of 3 4)
        ((vector_of 3 4).begin_ + 1) "x").succeeded = true ∧
    (Vector.Insert string_elem (heap_of ["a", "b", "c"] 4 0) (vector_of 3 4)
        ((vector_of 3 4).begin_ + 1) "x").self.elems
      (Vector.Insert string_elem (heap_of ["a", "b", "c"] 4 0) (vector_of 3 4)
        ((vector_of 3 4).begin_ + 1) "x").heap = ["a", "x", "b", ""] ∧
    (Vector.Insert string_elem (heap_of ["a", "b", "c"] 4 0) (vector_of 3 4)
        ((vector_of 3 4).begin_ + 3) "x").self.elems
      (Vector.Insert string_elem (heap_of ["a", "b", "c"] 4 0) (vector_of 3 4)
        ((vector_of 3 4).begin_ + 3) "x").heap = ["a", "b", "", "x"] ∧
    ¬ (Vector.Insert string_elem (heap_of ["a", "b", "c"] 4 0) (vector_of 3 4)
        ((vector_of 3 4).begin_ + 1) "x").InsertedAt ["a", "b", "c"] 1 "x" := by
  refine ⟨by decide, by decide, by decide, by decide, by decide, ?_⟩
  intro hc
  have h1 := hc.1.elems_eq
  revert h1
  decide

end InPlace4

section MoveAssign
variable {α ε : Type}

/-- C11: for two distinct vectors `a` and `b` holding `xs` and `ys`, the move assignment
`a = std::move(b)` exchanges their states: the heap is untouched, `a` becomes what `b` was
(its size, its capacity, its elements `ys`) and `b` becomes what `a` was (its size, its
capacity, its elements `xs`); move-assigning `a` to itself changes nothing; and `Swap` applied
twice gives back both vectors and the heap. -/
theorem Vector.move_assign_exchanges (h : Heap α) (a b : Vector) (xs ys : List α)
    (ha : a.Holds h xs) (hb : b.Holds h ys) :
    (∃ a1 b1, Vector.move_assign h a (.other b) = (h, a1, some b1) ∧
      a1.size = b.size ∧ a1.Capacity = b.Capacity ∧ a1.Holds h ys ∧ a1.elems h = ys ∧
      b1.size = a.size ∧ b1.Capacity = a.Capacity ∧ b1.Holds h xs ∧ b1.elems h = xs) ∧
    Vector.move_assign h a .this = (h, a, none) ∧
    Vector.Swap (Vector.Swap h a b).1 (Vector.Swap h a b).2.1 (Vector.Swap h a b).2.2
      = (h, a, b) := by
  refine ⟨⟨b, a, ?_, rfl, rfl, hb, hb.elems_eq, rfl, rfl, ha, ha.elems_eq⟩, rfl, ?_⟩
  · simp only [Vector.move_assign, Vector.Swap_eq]
  · rw [Vector.Swap_eq, Vector.Swap_eq]

theorem Vector.move_assign_exchanges_witness :
    (∃ a1 b1, Vector.move_assign (heap_two [1, 2] [7] 3 1 5) (vector_at 1 2 3)
        (.other (vector_at 2 1 1)) = (heap_two [1, 2] [7] 3 1 5, a1, some b1) ∧
      a1.size = (vector_at 2 1 1).size ∧ a1.Capacity = (vector_at 2 1 1).Capacity ∧
      a1.Holds (heap_two [1, 2] [7] 3 1 5) [7] ∧ a1.elems (heap_two [1, 2] [7] 3 1 5) = [7] ∧
      b1.size = (vector_at 1 2 3).size ∧ b1.Capacity = (vector_at 1 2 3).Capacity ∧
      b1.Holds (heap_two [1, 2] [7] 3 1 5) [1, 2] ∧
      b1.elems (heap_two [1, 2] [7] 3 1 5) = [1, 2]) ∧
    Vector.move_assign (heap_two [1, 2] [7] 3 1 5) (vector_at 1 2 3) .this
      = (heap_two [1, 2] [7] 3 1 5, vector_at 1 2 3, none) ∧
    Vector.Swap (Vector.Swap (heap_two [1, 2] [7] 3 1 5) (vector_at 1 2 3) (vector_at 2 1 1)).1
      (Vector.Swap (heap_two [1, 2] [7] 3 1 5) (vector_at 1 2 3) (vector_at 2 1 1)).2.1
      (Vector.Swap (heap_two [1, 2] [7] 3 1 5) (vector_at 1 2 3) (vector_at 2 1 1)).2.2
      = (heap_two [1, 2] [7] 3 1 5, vector_at 1 2 3, vector_at 2 1 1) :=
  Vector.move_assign_exchanges (heap_two [1, 2] [7] 3 1 5) (vector_at 1 2 3) (vector_at 2 1 1)
    [1, 2] [7] (by decide) (by decide)

end MoveAssign

section Sized
variable {α ε : Type}

/-- What the constructor `Vector(size_t size)` builds when it returns. -/
theorem Vector.sized_holds (E : ElemType α ε) (h : Heap α) (n : Nat) (h1 : Heap α) (v : Vector)
    (hr : Vector.sized E h n = (h1, .ok v)) :
    v.Size = n ∧ v.Capacity = n ∧ n ≤ v.Capacity ∧
    (∃ xs, v.Holds h1 xs ∧ xs.length = n ∧ (∀ x ∈ xs, E.value_init = .ok x) ∧
      ∀ i, i < n → ∃ d, E.value_init = .ok d ∧ h1.get (v.index i) = some d) ∧
    ({} : Vector).Size = 0 ∧ ({} : Vector).Capacity = 0 ∧ ({} : Vector).Holds h [] := by
  unfold Vector.sized at hr
  cases hc : RawMemory.create h n with
  | none => rw [hc] at hr; simp at hr
  | some r =>
    obtain ⟨h2, nd⟩ := r
    rw [hc] at hr
    simp only at hr
    obtain ⟨hndc, hal⟩ := RawMemory.create_spec h _ h2 nd hc
    cases hu : uninitialized_value_construct_n E h2 nd.GetAddress n with
    | mk h3 r =>
      rw [hu] at hr
      cases r with
      | some e => simp at hr
      | none =>
        simp only [Prod.mk.injEq, Except.ok.injEq] at hr
        obtain ⟨e1, e2⟩ := hr
        subst e1 e2
        refine ⟨rfl, hndc, Nat.le_of_eq hndc.symm, ?_, rfl, rfl, holds_default h⟩
        by_cases hz : n = 0
        · subst hz
          rw [Allocate_zero] at hal
          simp only [Option.some.injEq, Prod.mk.injEq] at hal
          obtain ⟨e1, e2⟩ := hal
          simp only [uninitialized_value_construct_n, uninitialized_value_construct_loop,
            Prod.mk.injEq, and_true] at hu
          subst hu
          subst e1
          refine ⟨[], ⟨rfl, Nat.zero_le _, ?_, ?_, ?_⟩, rfl, (fun x hx => nomatch hx),
            (fun i hi => absurd hi (Nat.not_lt_zero i))⟩
          · show nd.buffer ≤ _; rw [← e2]; exact Nat.zero_le _
          · show Heap.freed _ nd.buffer = false; rw [← e2]; rfl
          · show Heap.slots _ nd.buffer = layout [] nd.capacity
            rw [← e2, hndc]; rfl
        · obtain ⟨hnb, hlen1, hold, hnew, hfr⟩ := Allocate_spec h _ h2 nd.buffer hz hal
          have hok2 : (uninitialized_value_construct_loop E nd.GetAddress n 0 h2).2 = none :=
            congrArg Prod.snd hu
          obtain ⟨d, hd⟩ := uninitialized_value_construct_loop_ok E _ n 0 h2 (by omega) hok2
          obtain ⟨_, sh, sl⟩ := uninitialized_value_construct_loop_spec E nd.GetAddress d hd n 0 h2
          have e3 : (uninitialized_value_construct_loop E nd.GetAddress n 0 h2).1 = h3 :=
            congrArg Prod.fst hu
          rw [e3] at sh sl
          have hH : Vector.Holds h3 { data := nd, size := n } (List.replicate n d) := by
            refine ⟨by simp, by simp only; omega, ?_, ?_, ?_⟩
            · show nd.buffer ≤ _; rw [sh.1]; omega
            · show Heap.freed _ nd.buffer = false; rw [(sh.2.2 _).1]; exact hfr
            · show Heap.slots _ nd.buffer = layout (List.replicate n d) nd.capacity
              rw [slots_eq_layout_iff]
              intro j
              rw [sl, slot_replicate_none h2 nd.buffer n j hnew]
              simp only [RawMemory.GetAddress, List.length_replicate, hndc]
              by_cases hj : j < n
              · have c : True ∧ 0 + 0 ≤ j ∧ j < 0 + 0 + n := ⟨trivial, by omega, by omega⟩
                simp only [hj, if_true, c, and_self, Option.map_some', List.getElem?_replicate]
              · have c : ¬ (True ∧ 0 + 0 ≤ j ∧ j < 0 + 0 + n) := by omega
                simp only [hj, if_false, c]
          refine ⟨List.replicate n d, hH, by simp, fun x hx => ?_, fun i hi => ⟨d, hd, ?_⟩⟩
          · rw [List.eq_of_mem_replicate hx]; exact hd
          · show Heap.get h3 ⟨nd.buffer, i⟩ = some d
            have := hH.get i
            simp only at this
            rw [this]
            simp [hi]

end Sized

section RawMemoryOps
variable {α ε : Type}

/-- The operations of `RawMemory` other than move assignment leave every slot as it is: the
constructor only adds a block whose slots are all raw, the destructor changes no slot, and the
move constructor, `Swap`, `operator+`, `operator[]`, `GetAddress` and `Capacity` do not touch
the heap at all (they are functions of the objects alone). -/
theorem RawMemory.slots_untouched (h : Heap α) (m : RawMemory) (n : Nat) :
    (∀ h1 r, RawMemory.create h n = some (h1, r) →
      (∀ b, b ≤ h.blocks.length → h1.slots b = h.slots b) ∧
      (r.buffer ≠ 0 → h.blocks.length < r.buffer) ∧ h1.live r.buffer = 0) ∧
    (∀ b, (RawMemory.dtor h m).slots b = h.slots b) := by
  refine ⟨fun h1 r hc => ?_, fun b => Deallocate_slots h _ b⟩
  obtain ⟨hcap, hal⟩ := RawMemory.create_spec h n h1 r hc
  by_cases hz : n = 0
  · subst hz
    rw [Allocate_zero] at hal
    simp only [Option.some.injEq, Prod.mk.injEq] at hal
    obtain ⟨e1, e2⟩ := hal
    subst e1
    refine ⟨fun _ _ => rfl, fun hne => absurd e2.symm hne, ?_⟩
    rw [← e2]; rfl
  · obtain ⟨hnb, _, hold, hnew, _⟩ := Allocate_spec h n h1 r.buffer hz hal
    refine ⟨fun b hb => (hold b hb).1, fun _ => by omega, ?_⟩
    unfold Heap.live
    rw [hnew]
    simp

/-- Move construction and move assignment of `RawMemory` give the destination the block and
the capacity of the source and leave the source with no block and capacity `0`. -/
theorem RawMemory.move_transfers (h : Heap α) (self src : RawMemory) :
    RawMemory.move_ctor src = (src, { buffer := 0, capacity := 0 }) ∧
    (RawMemory.move_assign h self src).2 = (src, { buffer := 0, capacity := 0 }) :=
  ⟨rfl, rfl⟩

/-- C19 fails on the code.  Take a `RawMemory` object `a` that owns block `1` of two slots,
both holding a live object, and another `RawMemory` object `b` that owns block `2`: the move
assignment `a = std::move(b)` runs `std::destroy_n(GetAddress(), capacity_)` and so ends the
lifetime of both objects in `a`'s former block (the number of live objects there drops from
`2` to `0`), and the block is never released.  The transfer of the block and of the capacity
is as stated: `a` receives block `2` with capacity `3` and `b` is left with no block and
capacity `0`. -/
theorem RawMemory.move_assign_destroys :
    (heap_two [1, 2] [] 2 3 0).slots 1 = [some 1, some 2] ∧
    (heap_two [1, 2] [] 2 3 0).live 1 = 2 ∧
    (RawMemory.move_assign (heap_two [1, 2] [] 2 3 0) ⟨1, 2⟩ ⟨2, 3⟩).1.slots 1 = [none, none] ∧
    (RawMemory.move_assign (heap_two [1, 2] [] 2 3 0) ⟨1, 2⟩ ⟨2, 3⟩).1.live 1 = 0 ∧
    (RawMemory.move_assign (heap_two [1, 2] [] 2 3 0) ⟨1, 2⟩ ⟨2, 3⟩).1.freed 1 = false ∧
    (RawMemory.move_assign (heap_two [1, 2] [] 2 3 0) ⟨1, 2⟩ ⟨2, 3⟩).2 = (⟨2, 3⟩, ⟨0, 0⟩) := by
  decide

end RawMemoryOps

section ErrorValue
variable {α ε : Type}

/-- C16 fails on the code.  The element type `throwing_elem` is transferred by copy and its
copy constructor throws the error code `7` when the object `13` is copied.  For a full vector
holding `1, 13`, `Insert` of `5` at index `0` (the copy of the suffix fails) and at index `2`
(the copy of the prefix fails) reallocate and fail, and so do `Insert(T&&)` and `Emplace`; the
exception that escapes is the string literal that the handlers throw and not the error code
`7` raised by the failing copy.  `Reserve` and `PushBack` on the same vector do pass the error
code on. -/
theorem Vector.Insert_replaces_error :
    (vector_of 2 2).Holds (heap_of [1, 13] 2 10) [1, 13] ∧
    (vector_of 2 2).size = (vector_of 2 2).Capacity ∧
    throwing_elem.copy_throws 13 = some 7 ∧
    (Vector.Insert throwing_elem (heap_of [1, 13] 2 10) (vector_of 2 2)
      ((vector_of 2 2).begin_ + 0) 5).thrown = some (.c_str "Execption!") ∧
    (Vector.Insert throwing_elem (heap_of [1, 13] 2 10) (vector_of 2 2)
      ((vector_of 2 2).begin_ + 2) 5).thrown = some (.c_str "Execption!") ∧
    (Vector.InsertMove throwing_elem (heap_of [1, 13] 2 10) (vector_of 2 2)
      ((vector_of 2 2).begin_ + 0) 5).thrown = some (.c_str "Execption!") ∧
    (Vector.Emplace throwing_elem (heap_of [1, 13] 2 10) (vector_of 2 2)
      ((vector_of 2 2).begin_ + 2) (.ok 5)).thrown = some (.c_str "Execption!") ∧
    (Vector.Insert throwing_elem (heap_of [1, 13] 2 10) (vector_of 2 2)
      ((vector_of 2 2).begin_ + 0) 5).thrown ≠ some (.elem 7) ∧
    (Vector.Reserve throwing_elem (heap_of [1, 13] 2 10) (vector_of 2 2) 4).thrown
      = some (.elem 7) ∧
    (Vector.PushBack throwing_elem (heap_of [1, 13] 2 10) (vector_of 2 2) 5).thrown
      = some (.elem 7) := by
  decide

end ErrorValue

section KeepsLemmas
variable {α ε : Type}

theorem Heap.keeps_refl (b : Nat) (h : Heap α) : Heap.Keeps b h h :=
  ⟨rfl, rfl, Nat.le_refl _⟩

theorem Heap.Keeps.andThen {b : Nat} {h1 h2 h3 : Heap α} (x : Heap.Keeps b h1 h2)
    (y : Heap.Keeps b h2 h3) : Heap.Keeps b h1 h3 :=
  ⟨y.1.trans x.1, y.2.1.trans x.2.1, Nat.le_trans x.2.2 y.2.2⟩

theorem Heap.SameShape.keeps {b : Nat} {h h1 : Heap α} (sh : h.SameShape h1)
    (hs : h1.slots b = h.slots b) : Heap.Keeps b h h1 :=
  ⟨hs, (sh.2.2 b).1, Nat.le_of_eq sh.1.symm⟩

theorem Heap.keeps_set (b : Nat) (h : Heap α) (p : Ptr) (s : Option α) (hne : b ≠ p.block) :
    Heap.Keeps b h (h.set p s) :=
  (Heap.sameShape_set h p s).keeps (by rw [Heap.slots_set, if_neg hne])

theorem keeps_destroy_n (b n : Nat) (h : Heap α) (p : Ptr) (hne : b ≠ p.block) :
    Heap.Keeps b h (destroy_n h p n) :=
  (sameShape_destroy_n n h p).keeps (slots_destroy_n_of_ne n h p b hne)

theorem keeps_copy_construct_at (E : ElemType α ε) (b : Nat) (h : Heap α) (dst src : Ptr)
    (hne : b ≠ dst.block) : Heap.Keeps b h (copy_construct_at E h dst src).1 := by
  unfold copy_construct_at
  cases h.get src with
  | none => exact Heap.keeps_refl b h
  | some x =>
    simp only
    cases E.copy_throws x with
    | some e => exact Heap.keeps_refl b h
    | none => exact Heap.keeps_set b h dst _ hne

theorem keeps_move_construct_at (E : ElemType α ε) (b : Nat) (h : Heap α) (dst src : Ptr)
    (hne : b ≠ dst.block) (hns : b ≠ src.block) :
    Heap.Keeps b h (move_construct_at E h dst src).1 := by
  unfold move_construct_at
  cases h.get src with
  | none => exact Heap.keeps_refl b h
  | some x =>
    simp only
    cases E.move_throws x with
    | some e => exact Heap.keeps_refl b h
    | none => exact (Heap.keeps_set b h dst _ hne).andThen (Heap.keeps_set b _ src _ hns)

theorem keeps_move_assign_at (E : ElemType α ε) (b : Nat) (h : Heap α) (dst src : Ptr)
    (hne : b ≠ dst.block) (hns : b ≠ src.block) :
    Heap.Keeps b h (move_assign_at E h dst src) := by
  unfold move_assign_at
  cases h.get src with
  | none => exact Heap.keeps_refl b h
  | some x => exact (Heap.keeps_set b h dst _ hne).andThen (Heap.keeps_set b _ src _ hns)

theorem keeps_copy_assign_at (b : Nat) (h : Heap α) (dst src : Ptr) (hne : b ≠ dst.block) :
    Heap.Keeps b h (copy_assign_at h dst src) := by
  unfold copy_assign_at
  cases h.get src with
  | none => exact Heap.keeps_refl b h
  | some x => exact Heap.keeps_set b h dst _ hne

theorem keeps_uninitialized_copy_loop (E : ElemType α ε) (b : Nat) (first d : Ptr)
    (hne : b ≠ d.block) (n i : Nat) (h : Heap α) :
    Heap.Keeps b h (uninitialized_copy_loop E first d n i h).1 := by
  induction n generalizing i h with
  | zero => exact Heap.keeps_refl b h
  | succ n ih =>
    unfold uninitialized_copy_loop
    have k := keeps_copy_construct_at E b h (d + i) (first + i) hne
    cases hc : copy_construct_at E h (d + i) (first + i) with
    | mk h1 r =>
      rw [hc] at k
      cases r with
      | some e => exact k.andThen (keeps_destroy_n b i h1 d hne)
      | none => exact k.andThen (ih (i + 1) h1)

theorem keeps_uninitialized_move_loop (E : ElemType α ε) (b : Nat) (first d : Ptr)
    (hne : b ≠ d.block) (hns : b ≠ first.block) (n i : Nat) (h : Heap α) :
    Heap.Keeps b h (uninitialized_move_loop E first d n i h).1 := by
  induction n generalizing i h with
  | zero => exact Heap.keeps_refl b h
  | succ n ih =>
    unfold uninitialized_move_loop
    have k := keeps_move_construct_at E b h (d + i) (first + i) hne hns
    cases hc : move_construct_at E h (d + i) (first + i) with
    | mk h1 r =>
      rw [hc] at k
      cases r with
      | some e => exact k.andThen (keeps_destroy_n b i h1 d hne)
      | none => exact k.andThen (ih (i + 1) h1)

theorem keeps_uninitialized_value_construct_loop (E : ElemType α ε) (b : Nat) (first : Ptr)
    (hne : b ≠ first.block) (n i : Nat) (h : Heap α) :
    Heap.Keeps b h (uninitialized_value_construct_loop E first n i h).1 := by
  induction n generalizing i h with
  | zero => exact Heap.keeps_refl b h
  | succ n ih =>
    unfold uninitialized_value_construct_loop
    cases E.value_init with
    | error e => exact keeps_destroy_n b i h first hne
    | ok x => exact (Heap.keeps_set b h (first + i) _ hne).andThen (ih (i + 1) _)

theorem keeps_move_loop (E : ElemType α ε) (b n : Nat) (first d : Ptr) (h : Heap α)
    (hne : b ≠ d.block) (hns : b ≠ first.block) : Heap.Keeps b h (move_loop E n first d h) := by
  induction n generalizing first d h with
  | zero => exact Heap.keeps_refl b h
  | succ n ih =>
    unfold move_loop
    exact (keeps_move_assign_at E b h d first hne hns).andThen (ih (first + 1) (d + 1) _ hne hns)

theorem keeps_move_backward_loop (E : ElemType α ε) (b blk d_blk n last d_last : Nat)
    (h : Heap α) (hne : b ≠ d_blk) (hns : b ≠ blk) :
    Heap.Keeps b h (move_backward_loop E blk d_blk n last d_last h) := by
  induction n generalizing last d_last h with
  | zero => exact Heap.keeps_refl b h
  | succ n ih =>
    unfold move_backward_loop
    exact (keeps_move_assign_at E b h _ _ hne hns).andThen (ih _ _ _)

theorem keeps_copy_assign_loop (b : Nat) (dst src : RawMemory) (n i : Nat) (h : Heap α)
    (hne : b ≠ dst.buffer) : Heap.Keeps b h (copy_assign_loop dst src n i h) := by
  induction n generalizing i h with
  | zero => exact Heap.keeps_refl b h
  | succ n ih =>
    unfold copy_assign_loop
    exact (keeps_copy_assign_at b h _ _ hne).andThen (ih _ _)

theorem keeps_Allocate (b n : Nat) (h h1 : Heap α) (nb : Nat) (hb : b ≤ h.blocks.length)
    (ha : Allocate h n = some (h1, nb)) : Heap.Keeps b h h1 := by
  by_cases hz : n = 0
  · subst hz
    rw [Allocate_zero] at ha
    simp only [Option.some.injEq, Prod.mk.injEq] at ha
    rw [← ha.1]
    exact Heap.keeps_refl b h
  · obtain ⟨_, hlen, hold, _, _⟩ := Allocate_spec h n h1 nb hz ha
    exact ⟨(hold b hb).1, (hold b hb).2, by omega⟩

theorem keeps_create (b n : Nat) (h h1 : Heap α) (m : RawMemory) (hb : b ≤ h.blocks.length)
    (hc : RawMemory.create h n = some (h1, m)) : Heap.Keeps b h h1 :=
  keeps_Allocate b n h h1 m.buffer hb (RawMemory.create_spec h n h1 m hc).2

theorem keeps_Deallocate (b c : Nat) (h : Heap α) (hne : b ≠ c) :
    Heap.Keeps b h (Deallocate h c) :=
  ⟨Deallocate_slots h c b, Deallocate_freed_of_ne h c b hne,
    Nat.le_of_eq (Deallocate_blocks_length h c).symm⟩

theorem Vector.Holds.of_keeps {h h1 : Heap α} {v : Vector} {xs : List α} (hv : v.Holds h xs)
    (k : Heap.Keeps v.data.buffer h h1) : v.Holds h1 xs :=
  hv.frame k.1 k.2.1 k.2.2

/-- A vector without a block holds the empty sequence in every heap. -/
theorem Vector.Holds.of_null {h : Heap α} {v : Vector} {xs : List α} (hv : v.Holds h xs)
    (hb : v.data.buffer = 0) (h1 : Heap α) : v.Holds h1 xs := by
  refine ⟨hv.1, hv.2.1, by rw [hb]; exact Nat.zero_le _, by rw [hb]; rfl, ?_⟩
  have h5 := hv.2.2.2.2
  rw [hb] at h5 ⊢
  exact h5

/-- The block a fresh `RawMemory` owns is null or the first block id not yet in use. -/
theorem RawMemory.create_buffer (h h1 : Heap α) (n : Nat) (m : RawMemory)
    (hc : RawMemory.create h n = some (h1, m)) :
    (m.buffer = 0 ∧ n = 0 ∧ h1 = h) ∨ (m.buffer = h.blocks.length + 1 ∧ n ≠ 0) := by
  obtain ⟨_, hal⟩ := RawMemory.create_spec h n h1 m hc
  by_cases hz : n = 0
  · subst hz
    rw [Allocate_zero] at hal
    simp only [Option.some.injEq, Prod.mk.injEq] at hal
    exact Or.inl ⟨hal.2.symm, rfl, hal.1.symm⟩
  · exact Or.inr ⟨(Allocate_spec h n h1 m.buffer hz hal).1, hz⟩

end KeepsLemmas

section OpFrames
variable {α ε : Type}

theorem keeps_uninitialized_copy_n (E : ElemType α ε) (b : Nat) (h : Heap α) (first : Ptr)
    (n : Nat) (d : Ptr) (hne : b ≠ d.block) :
    Heap.Keeps b h (uninitialized_copy_n E h first n d).1 :=
  keeps_uninitialized_copy_loop E b first d hne n 0 h

theorem keeps_uninitialized_move_n (E : ElemType α ε) (b : Nat) (h : Heap α) (first : Ptr)
    (n : Nat) (d : Ptr) (hne : b ≠ d.block) (hns : b ≠ first.block) :
    Heap.Keeps b h (uninitialized_move_n E h first n d).1 :=
  keeps_uninitialized_move_loop E b first d hne hns n 0 h

/-- The bulk transfer of a reallocation writes to the new block, and to the old one only when
it transfers by move. -/
theorem keeps_transfer_n (E : ElemType α ε) (b : Nat) (h : Heap α) (first : Ptr) (n : Nat)
    (d : Ptr) (hne : b ≠ d.block)
    (hns : b ≠ first.block ∨ (E.nothrow_move_constructible || !E.copy_constructible) = false) :
    Heap.Keeps b h (if (E.nothrow_move_constructible || !E.copy_constructible) = true then
      uninitialized_move_n E h first n d else uninitialized_copy_n E h first n d).1 := by
  by_cases c : (E.nothrow_move_constructible || !E.copy_constructible) = true
  · rw [if_pos c]
    rcases hns with hns | hns
    · exact keeps_uninitialized_move_n E b h first n d hne hns
    · rw [c] at hns; cases hns
  · rw [if_neg c]
    exact keeps_uninitialized_copy_n E b h first n d hne

/-- The frame of `EmplaceBack`: a block other than the vector's own is kept whatever the
outcome, the vector's own block is kept when the allocation or the construction of the new
object fails; the storage afterwards is the old block or the first block id not yet in use;
and a call that throws leaves the object as it was. -/
theorem Vector.EmplaceBack_keeps (E : ElemType α ε) (h : Heap α) (v : Vector)
    (args : Except ε α) (b : Nat) (hb : b ≤ h.blocks.length) :
    (b ≠ v.data.buffer → Heap.Keeps b h (Vector.EmplaceBack E h v args).heap) ∧
    (((∃ e, args = .error e) ∨ (v.size = v.Capacity ∧
        RawMemory.create h (if v.size ≠ 0 then v.Capacity * 2 else 1) = none)) →
      Heap.Keeps b h (Vector.EmplaceBack E h v args).heap) ∧
    ((Vector.EmplaceBack E h v args).self.data.buffer = v.data.buffer ∨
      (Vector.EmplaceBack E h v args).self.data.buffer = h.blocks.length + 1) ∧
    ((Vector.EmplaceBack E h v args).succeeded = false →
      (Vector.EmplaceBack E h v args).self = v) := by
  unfold Vector.EmplaceBack
  simp only [Vector.Capacity, RawMemory.Capacity]
  by_cases hfull : v.size = v.data.capacity
  · rw [if_pos hfull]
    have hn0 : (if v.size ≠ 0 then v.data.capacity * 2 else 1) ≠ 0 := by
      split_ifs <;> omega
    generalize (if v.size ≠ 0 then v.data.capacity * 2 else 1) = n' at hn0 ⊢
    cases hc : RawMemory.create h n' with
    | none =>
      exact ⟨fun _ => Heap.keeps_refl b h, fun _ => Heap.keeps_refl b h, Or.inl rfl,
        fun _ => rfl⟩
    | some r =>
      obtain ⟨h1, nd⟩ := r
      simp only
      have k1 := keeps_create b n' h h1 nd hb hc
      have hnb : nd.buffer = h.blocks.length + 1 := by
        rcases RawMemory.create_buffer h h1 n' nd hc with c | c
        · exact absurd c.2.1 hn0
        · exact c.1
      cases args with
      | error e =>
        have k2 := k1.andThen (keeps_Deallocate b nd.buffer h1 (by omega))
        exact ⟨fun _ => k2, fun _ => k2, Or.inl rfl, fun _ => rfl⟩
      | ok x =>
        simp only
        simp only [reduceCtorEq, false_and, and_false, exists_false, or_self, false_or,
          IsEmpty.forall_iff, true_and]
        have k2 := k1.andThen (Heap.keeps_set b h1 (nd.add v.size) (some x)
          (by simp only [RawMemory.add]; omega))
        have k3 := fun (hne : b ≠ v.data.buffer) =>
          k2.andThen (keeps_transfer_n E b (h1.set (nd.add v.size) (some x))
            v.data.GetAddress v.size nd.GetAddress (by simp only [RawMemory.GetAddress]; omega)
            (Or.inl hne))
        cases ht : (if (E.nothrow_move_constructible || !E.copy_constructible) = true then
            uninitialized_move_n E (h1.set (nd.add v.size) (some x)) v.data.GetAddress v.size
              nd.GetAddress
          else uninitialized_copy_n E (h1.set (nd.add v.size) (some x)) v.data.GetAddress v.size
              nd.GetAddress) with
        | mk h3 r =>
          rw [ht] at k3
          cases r with
          | some e =>
            exact ⟨fun hne => (k3 hne).andThen (keeps_Deallocate b nd.buffer h3 (by omega)),
              Or.inl rfl, fun _ => rfl⟩
          | none =>
            simp only [RawMemory.Swap, RawMemory.dtor]
            refine ⟨fun hne => ((k3 hne).andThen
                (keeps_destroy_n b v.size h3 v.data.GetAddress hne)).andThen
                (keeps_Deallocate b v.data.buffer _ hne), Or.inr hnb, fun c => ?_⟩
            simp [Outcome.succeeded] at c
  · rw [if_neg hfull]
    cases args with
    | error e =>
      exact ⟨fun _ => Heap.keeps_refl b h, fun _ => Heap.keeps_refl b h, Or.inl rfl,
        fun _ => rfl⟩
    | ok x =>
      simp only [reduceCtorEq, false_and, and_false, exists_false, or_self, false_or,
        IsEmpty.forall_iff, true_and, hfull]
      refine ⟨fun hne => Heap.keeps_set b h (v.data.add v.size) (some x) hne, Or.inl trivial,
        fun c => ?_⟩
      simp [Outcome.succeeded] at c

end OpFrames

section OpFrames2
variable {α ε : Type}

/-- The frame of `Reserve`: a block other than the vector's own is kept whatever the outcome,
and the vector's own block is kept when the call throws and the transfer is by copy; the
storage afterwards is the old block or the first block id not yet in use; the size is kept;
and a call that throws leaves the object as it was. -/
theorem Vector.Reserve_keeps (E : ElemType α ε) (h : Heap α) (v : Vector) (n b : Nat)
    (hb : b ≤ h.blocks.length) :
    (b ≠ v.data.buffer → Heap.Keeps b h (Vector.Reserve E h v n).heap) ∧
    ((E.nothrow_move_constructible || !E.copy_constructible) = false →
      (Vector.Reserve E h v n).succeeded = false →
      Heap.Keeps b h (Vector.Reserve E h v n).heap) ∧
    ((Vector.Reserve E h v n).self.data.buffer = v.data.buffer ∨
      (Vector.Reserve E h v n).self.data.buffer = h.blocks.length + 1) ∧
    (Vector.Reserve E h v n).self.size = v.size ∧
    ((Vector.Reserve E h v n).succeeded = false → (Vector.Reserve E h v n).self = v) := by
  unfold Vector.Reserve
  simp only [RawMemory.Capacity]
  by_cases hle : n ≤ v.data.capacity
  · rw [if_pos hle]
    exact ⟨fun _ => Heap.keeps_refl b h, fun _ _ => Heap.keeps_refl b h, Or.inl rfl, rfl,
      fun _ => rfl⟩
  · rw [if_neg hle]
    cases hc : RawMemory.create h n with
    | none =>
      exact ⟨fun _ => Heap.keeps_refl b h, fun _ _ => Heap.keeps_refl b h, Or.inl rfl, rfl,
        fun _ => rfl⟩
    | some r =>
      obtain ⟨h1, nd⟩ := r
      simp only
      have k1 := keeps_create b n h h1 nd hb hc
      have hnb : nd.buffer = h.blocks.length + 1 := by
        rcases RawMemory.create_buffer h h1 n nd hc with c | c
        · omega
        · exact c.1
      have k2 := fun hns => k1.andThen (keeps_transfer_n E b h1 v.data.GetAddress v.size
        nd.GetAddress (by simp only [RawMemory.GetAddress]; omega) hns)
      cases ht : (if (E.nothrow_move_constructible || !E.copy_constructible) = true then
          uninitialized_move_n E h1 v.data.GetAddress v.size nd.GetAddress
        else uninitialized_copy_n E h1 v.data.GetAddress v.size nd.GetAddress) with
      | mk h2 r =>
        rw [ht] at k2
        cases r with
        | some e =>
          exact ⟨fun hne => (k2 (Or.inl hne)).andThen (keeps_Deallocate b nd.buffer h2 (by omega)),
            fun hm _ => (k2 (Or.inr hm)).andThen (keeps_Deallocate b nd.buffer h2 (by omega)),
            Or.inl rfl, rfl, fun _ => rfl⟩
        | none =>
          simp only [RawMemory.Swap, RawMemory.dtor]
          refine ⟨fun hne => ((k2 (Or.inl hne)).andThen
              (keeps_destroy_n b v.size h2 v.data.GetAddress hne)).andThen
              (keeps_Deallocate b v.data.buffer _ hne), fun _ c => ?_, Or.inr hnb, trivial,
            fun c => ?_⟩
          · simp [Outcome.succeeded] at c
          · simp [Outcome.succeeded] at c

/-- The frame of `Resize`: a block other than the vector's own is kept whatever the outcome,
and the storage afterwards is the old block or the first block id not yet in use. -/
theorem Vector.Resize_keeps (E : ElemType α ε) (h : Heap α) (v : Vector) (n b : Nat)
    (hb : b ≤ h.blocks.length) (hne : b ≠ v.data.buffer) :
    Heap.Keeps b h (Vector.Resize E h v n).heap ∧
    ((Vector.Resize E h v n).self.data.buffer = v.data.buffer ∨
      (Vector.Resize E h v n).self.data.buffer = h.blocks.length + 1) := by
  obtain ⟨kr, _, hbuf, _, _⟩ := Vector.Reserve_keeps E h v n b hb
  have kr := kr hne
  unfold Vector.Resize
  by_cases c1 : n < v.size
  · rw [if_pos c1]
    exact ⟨keeps_destroy_n b _ h (v.data.add n) hne, Or.inl rfl⟩
  · rw [if_neg c1]
    by_cases c2 : n > v.size
    · rw [if_pos c2]
      cases hr : Vector.Reserve E h v n with
      | mk h1 s1 res =>
        rw [hr] at kr hbuf
        simp only at kr hbuf
        cases res with
        | error e => exact ⟨kr, hbuf⟩
        | ok u =>
          simp only
          have hne1 : b ≠ s1.data.buffer := by omega
          have k2 := kr.andThen (keeps_uninitialized_value_construct_loop E b
            (s1.data.add s1.size) hne1 (n - s1.size) 0 h1)
          cases hu : uninitialized_value_construct_n E h1 (s1.data.add s1.size)
              (n - s1.size) with
          | mk h2 r =>
            have e2 : (uninitialized_value_construct_loop E (s1.data.add s1.size)
                (n - s1.size) 0 h1).1 = h2 := congrArg Prod.fst hu
            rw [e2] at k2
            cases r with
            | some e => exact ⟨k2, hbuf⟩
            | none => exact ⟨k2, hbuf⟩
    · rw [if_neg c2]
      exact ⟨Heap.keeps_refl b h, Or.inl rfl⟩

theorem Vector.PopBack_keeps (h : Heap α) (v : Vector) (b : Nat) (hne : b ≠ v.data.buffer) :
    Heap.Keeps b h (Vector.PopBack h v).1 ∧ (Vector.PopBack h v).2.data = v.data :=
  ⟨keeps_destroy_n b 1 h _ hne, rfl⟩

theorem Vector.Erase_keeps (E : ElemType α ε) (h : Heap α) (v : Vector) (pos : Ptr) (b : Nat)
    (hpos : pos.block = v.data.buffer) (hne : b ≠ v.data.buffer) :
    Heap.Keeps b h (Vector.Erase E h v pos).1 ∧ (Vector.Erase E h v pos).2.1.data = v.data := by
  unfold Vector.Erase
  refine ⟨?_, rfl⟩
  simp only
  exact (keeps_move_loop E b _ (pos + 1) pos h (by rw [hpos]; exact hne)
    (by rw [Ptr.add_block, hpos]; exact hne)).andThen (keeps_destroy_n b 1 _ _ hne)

theorem Vector.write_keeps (h : Heap α) (v : Vector) (i : Nat) (x : α) (b : Nat)
    (hne : b ≠ v.data.buffer) : Heap.Keeps b h (Vector.write h v i x) := by
  unfold Vector.write
  cases h.get (v.index i) with
  | none => exact Heap.keeps_refl b h
  | some y => exact Heap.keeps_set b h _ _ hne

end OpFrames2

section OpFrames3
variable {α ε : Type}

theorem keeps_uninitialized_copy (E : ElemType α ε) (b : Nat) (h : Heap α) (first last d : Ptr)
    (hne : b ≠ d.block) : Heap.Keeps b h (uninitialized_copy E h first last d).1 :=
  keeps_uninitialized_copy_n E b h first _ d hne

theorem keeps_uninitialized_move (E : ElemType α ε) (b : Nat) (h : Heap α) (first last d : Ptr)
    (hne : b ≠ d.block) (hns : b ≠ first.block) :
    Heap.Keeps b h (uninitialized_move E h first last d).1 :=
  keeps_uninitialized_move_n E b h first _ d hne hns

theorem keeps_move_backward (E : ElemType α ε) (b : Nat) (h : Heap α) (first last d_last : Ptr)
    (hne : b ≠ d_last.block) (hns : b ≠ last.block) :
    Heap.Keeps b h (move_backward E h first last d_last) :=
  keeps_move_backward_loop E b _ _ _ _ _ h hne hns

/-- The frame of `Emplace` (and so of both overloads of `Insert`): a block other than the
vector's own is kept whatever the outcome, and the vector's own block is kept when a
reallocating call throws and the transfer is by copy; the storage afterwards is the old block
or the first block id not yet in use; and a call that throws leaves the object as it was. -/
theorem Vector.Emplace_keeps (E : ElemType α ε) (h : Heap α) (v : Vector) (pos : Ptr)
    (args : Except ε α) (b : Nat) (hb : b ≤ h.blocks.length) (hpos : pos.block = v.data.buffer) :
    (b ≠ v.data.buffer → Heap.Keeps b h (Vector.Emplace E h v pos args).heap) ∧
    ((E.nothrow_move_constructible || !E.copy_constructible) = false → v.size = v.Capacity →
      (Vector.Emplace E h v pos args).succeeded = false →
      Heap.Keeps b h (Vector.Emplace E h v pos args).heap) ∧
    ((Vector.Emplace E h v pos args).self.data.buffer = v.data.buffer ∨
      (Vector.Emplace E h v pos args).self.data.buffer = h.blocks.length + 1) ∧
    ((Vector.Emplace E h v pos args).succeeded = false →
      (Vector.Emplace E h v pos args).self = v) := by
  unfold Vector.Emplace
  simp only [Vector.Capacity, RawMemory.Capacity]
  by_cases hfull : v.size = v.data.capacity
  · rw [if_pos hfull]
    have hn0 : (if v.size ≠ 0 then v.data.capacity * 2 else 1) ≠ 0 := by
      split_ifs <;> omega
    generalize (if v.size ≠ 0 then v.data.capacity * 2 else 1) = n' at hn0 ⊢
    cases hc : RawMemory.create h n' with
    | none =>
      exact ⟨fun _ => Heap.keeps_refl b h, fun _ _ _ => Heap.keeps_refl b h, Or.inl rfl,
        fun _ => rfl⟩
    | some r =>
      obtain ⟨h1, nd⟩ := r
      simp only
      have k1 := keeps_create b n' h h1 nd hb hc
      have hnb : nd.buffer = h.blocks.length + 1 := by
        rcases RawMemory.create_buffer h h1 n' nd hc with c | c
        · exact absurd c.2.1 hn0
        · exact c.1
      have hbn : b ≠ nd.buffer := by omega
      cases args with
      | error e =>
        exact ⟨fun _ => k1.andThen (keeps_Deallocate b nd.buffer h1 hbn),
          fun _ _ _ => k1.andThen (keeps_Deallocate b nd.buffer h1 hbn), Or.inl rfl, fun _ => rfl⟩
      | ok x =>
        simp only
        have k2 := k1.andThen (Heap.keeps_set b h1 (nd.add (pos.off - v.begin_.off)) (some x) hbn)
        generalize h1.set (nd.add (pos.off - v.begin_.off)) (some x) = h2 at k2 ⊢
        by_cases hm : (E.nothrow_move_constructible || !E.copy_constructible) = true
        · rw [if_pos hm]
          have hnm : ¬ (E.nothrow_move_constructible || !E.copy_constructible) = false := by
            rw [hm]; simp
          cases hu1 : uninitialized_move E h2 v.begin_ (v.data.add (pos.off - v.begin_.off))
              nd.GetAddress with
          | mk h3 r1 =>
            have k3 := fun (hne : b ≠ v.data.buffer) => k2.andThen (keeps_uninitialized_move E b h2
              v.begin_ (v.data.add (pos.off - v.begin_.off)) nd.GetAddress hbn hne)
            rw [hu1] at k3
            cases r1 with
            | some e =>
              exact ⟨fun hne => (k3 hne).andThen (keeps_Deallocate b nd.buffer h3 hbn),
                fun c => absurd c hnm, Or.inl rfl, fun _ => rfl⟩
            | none =>
              simp only
              cases hu2 : uninitialized_move E h3 (v.begin_ + (pos.off - v.begin_.off)) v.end_
                  (nd.add (pos.off - v.begin_.off) + 1) with
              | mk h4 r2 =>
                have k4 := fun (hne : b ≠ v.data.buffer) => (k3 hne).andThen
                  (keeps_uninitialized_move E b h3 (v.begin_ + (pos.off - v.begin_.off)) v.end_
                    (nd.add (pos.off - v.begin_.off) + 1) hbn hne)
                rw [hu2] at k4
                cases r2 with
                | some e =>
                  exact ⟨fun hne => (k4 hne).andThen (keeps_Deallocate b nd.buffer h4 hbn),
                    fun c => absurd c hnm, Or.inl rfl, fun _ => rfl⟩
                | none =>
                  simp only [RawMemory.Swap, RawMemory.dtor]
                  refine ⟨fun hne => ((k4 hne).andThen
                      (keeps_destroy_n b v.size h4 v.data.GetAddress hne)).andThen
                      (keeps_Deallocate b v.data.buffer _ hne),
                    fun c => absurd c hnm, Or.inr hnb, fun c => ?_⟩
                  simp [Outcome.succeeded] at c
        · rw [if_neg hm]
          cases hu1 : uninitialized_copy E h2 v.begin_ (v.data.add (pos.off - v.begin_.off))
              nd.GetAddress with
          | mk h3 r1 =>
            have k3 := k2.andThen (keeps_uninitialized_copy E b h2
              v.begin_ (v.data.add (pos.off - v.begin_.off)) nd.GetAddress hbn)
            rw [hu1] at k3
            cases r1 with
            | some e =>
              have k4 := (k3.andThen (keeps_destroy_n b 1 h3
                (nd.add (pos.off - v.begin_.off)) hbn)).andThen (keeps_Deallocate b nd.buffer _ hbn)
              exact ⟨fun _ => k4, fun _ _ _ => k4, Or.inl rfl, fun _ => rfl⟩
            | none =>
              simp only
              cases hu2 : uninitialized_copy E h3 (v.begin_ + (pos.off - v.begin_.off)) v.end_
                  (nd.add (pos.off - v.begin_.off) + 1) with
              | mk h4 r2 =>
                have k4 := k3.andThen
                  (keeps_uninitialized_copy E b h3 (v.begin_ + (pos.off - v.begin_.off)) v.end_
                    (nd.add (pos.off - v.begin_.off) + 1) hbn)
                rw [hu2] at k4
                cases r2 with
                | some e =>
                  have k5 := (k4.andThen (keeps_destroy_n b ((pos.off - v.begin_.off) + 1) h4
                    nd.GetAddress hbn)).andThen (keeps_Deallocate b nd.buffer _ hbn)
                  exact ⟨fun _ => k5, fun _ _ _ => k5, Or.inl rfl, fun _ => rfl⟩
                | none =>
                  simp only [RawMemory.Swap, RawMemory.dtor]
                  refine ⟨fun hne => (k4.andThen
                      (keeps_destroy_n b v.size h4 v.data.GetAddress hne)).andThen
                      (keeps_Deallocate b v.data.buffer _ hne),
                    fun _ _ c => ?_, Or.inr hnb, fun c => ?_⟩
                  · simp [Outcome.succeeded] at c
                  · simp [Outcome.succeeded] at c
  · rw [if_neg hfull]
    by_cases hz : v.size = 0
    · rw [if_pos hz]
      cases args with
      | error e =>
        exact ⟨fun _ => Heap.keeps_refl b h, fun _ c => absurd c hfull, Or.inl rfl,
          fun _ => rfl⟩
      | ok x =>
        simp only
        refine ⟨fun hne => Heap.keeps_set b h pos (some x) (by rw [hpos]; exact hne),
          fun _ c => absurd c hfull, Or.inl trivial, fun c => ?_⟩
        simp [Outcome.succeeded] at c
    · rw [if_neg hz]
      cases hu1 : move_construct_at E h (v.data.add v.size) (v.data.add (v.size - 1)) with
      | mk h1 r1 =>
        have k1 := fun (hne : b ≠ v.data.buffer) => keeps_move_construct_at E b h
          (v.data.add v.size) (v.data.add (v.size - 1)) hne hne
        rw [hu1] at k1
        cases r1 with
        | some e =>
          exact ⟨fun hne => k1 hne, fun _ c => absurd c hfull, Or.inl rfl, fun _ => rfl⟩
        | none =>
          simp only
          have k2 := fun (hne : b ≠ v.data.buffer) => ((k1 hne).andThen (keeps_move_backward E b
            h1 pos v.end_ (v.end_ + 1) hne hne)).andThen (keeps_destroy_n b 1 _
              (v.begin_ + (pos.off - v.begin_.off)) hne)
          cases args with
          | error e =>
            exact ⟨fun hne => k2 hne, fun _ c => absurd c hfull, Or.inl rfl, fun _ => rfl⟩
          | ok x =>
            simp only
            refine ⟨fun hne => (k2 hne).andThen (Heap.keeps_set b _ _ _ hne),
              fun _ c => absurd c hfull, Or.inl trivial, fun c => ?_⟩
            simp [Outcome.succeeded] at c

end OpFrames3

section AppendAtomic
variable {α ε : Type}

/-- When the allocation of the grown storage fails or the constructor of the new object
throws, `EmplaceBack` throws. -/
theorem Vector.EmplaceBack_throws (E : ElemType α ε) (h : Heap α) (v : Vector)
    (args : Except ε α)
    (hfail : (∃ e, args = .error e) ∨ (v.size = v.Capacity ∧
      RawMemory.create h (if v.size ≠ 0 then v.Capacity * 2 else 1) = none)) :
    (Vector.EmplaceBack E h v args).succeeded = false := by
  unfold Vector.EmplaceBack
  by_cases hfull : v.size = v.Capacity
  · rw [if_pos hfull]
    cases hc : RawMemory.create h (if v.size ≠ 0 then v.Capacity * 2 else 1) with
    | none => rfl
    | some r =>
      rcases hfail with ⟨e, c⟩ | ⟨_, c⟩
      · subst c; rfl
      · rw [hc] at c; cases c
  · rw [if_neg hfull]
    rcases hfail with ⟨e, c⟩ | ⟨c, _⟩
    · subst c; rfl
    · exact absurd c hfull

/-- C17: a vector `v` holding `xs` on which an append fails because the allocation of the
grown storage fails (`size_ == Capacity()` and `operator new` throws) or because the
constructor of the new object throws (on the growth path or below capacity): `EmplaceBack`
with these arguments, and `PushBack(const T&)` and `PushBack(T&&)` of a value whose copy or
move construction has this outcome, throw and leave the object as it was, with its size, its
capacity and its elements `xs`. -/
theorem Vector.append_atomic (E : ElemType α ε) (h : Heap α) (v : Vector) (xs : List α)
    (args : Except ε α) (hv : v.Holds h xs)
    (hfail : (∃ e, args = .error e) ∨ (v.size = v.Capacity ∧
      RawMemory.create h (if v.size ≠ 0 then v.Capacity * 2 else 1) = none)) :
    ((Vector.EmplaceBack E h v args).succeeded = false ∧
      (Vector.EmplaceBack E h v args).self = v ∧
      (Vector.EmplaceBack E h v args).self.Size = v.Size ∧
      (Vector.EmplaceBack E h v args).self.Capacity = v.Capacity ∧
      (Vector.EmplaceBack E h v args).self.Holds (Vector.EmplaceBack E h v args).heap xs ∧
      (Vector.EmplaceBack E h v args).self.elems (Vector.EmplaceBack E h v args).heap = xs) ∧
    (∀ value, E.copy_ctor value = args →
      (Vector.PushBack E h v value).succeeded = false ∧
      (Vector.PushBack E h v value).self = v ∧
      (Vector.PushBack E h v value).self.Size = v.Size ∧
      (Vector.PushBack E h v value).self.Capacity = v.Capacity ∧
      (Vector.PushBack E h v value).self.Holds (Vector.PushBack E h v value).heap xs ∧
      (Vector.PushBack E h v value).self.elems (Vector.PushBack E h v value).heap = xs) ∧
    (∀ value, E.move_ctor value = args →
      (Vector.PushBackMove E h v value).succeeded = false ∧
      (Vector.PushBackMove E h v value).self = v ∧
      (Vector.PushBackMove E h v value).self.Size = v.Size ∧
      (Vector.PushBackMove E h v value).self.Capacity = v.Capacity ∧
      (Vector.PushBackMove E h v value).self.Holds (Vector.PushBackMove E h v value).heap xs ∧
      (Vector.PushBackMove E h v value).self.elems (Vector.PushBackMove E h v value).heap
        = xs) := by
  have hf := Vector.EmplaceBack_throws E h v args hfail
  obtain ⟨_, k, _, hs⟩ := Vector.EmplaceBack_keeps E h v args v.data.buffer hv.2.2.1
  have k := k hfail
  have hs := hs hf
  have hH := hv.of_keeps k
  refine ⟨⟨hf, hs, by rw [hs], by rw [hs], by rw [hs]; exact hH, by rw [hs]; exact hH.elems_eq⟩,
    fun value hval => ?_, fun value hval => ?_⟩
  · obtain ⟨e1, e2, e3⟩ := Vector.PushBack_eq_EmplaceBack E h v value
    rw [hval] at e1 e2 e3
    rw [e1, e2, e3]
    exact ⟨hf, hs, by rw [hs], by rw [hs], by rw [hs]; exact hH, by rw [hs]; exact hH.elems_eq⟩
  · obtain ⟨e1, e2, e3⟩ := Vector.PushBackMove_eq_EmplaceBack E h v value
    rw [hval] at e1 e2 e3
    rw [e1, e2, e3]
    exact ⟨hf, hs, by rw [hs], by rw [hs], by rw [hs]; exact hH, by rw [hs]; exact hH.elems_eq⟩

theorem Vector.append_atomic_witness :
    (vector_of 2 2).Holds (heap_of [1, 2] 2 10) [1, 2] ∧
    throwing_elem.copy_ctor 13 = .error 7 ∧
    (Vector.PushBack throwing_elem (heap_of [1, 2] 2 10) (vector_of 2 2) 13).succeeded = false ∧
    (Vector.PushBack throwing_elem (heap_of [1, 2] 2 10) (vector_of 2 2) 13).self
      = vector_of 2 2 ∧
    (Vector.PushBack throwing_elem (heap_of [1, 2] 2 10) (vector_of 2 2) 13).self.elems
      (Vector.PushBack throwing_elem (heap_of [1, 2] 2 10) (vector_of 2 2) 13).heap = [1, 2] ∧
    (vector_of 2 2).Holds (heap_of [1, 2] 2 3) [1, 2] ∧
    RawMemory.create (heap_of [1, 2] 2 3) 4 = none ∧
    (Vector.EmplaceBack int_elem (heap_of [1, 2] 2 3) (vector_of 2 2) (.ok 5)).succeeded
      = false ∧
    (Vector.EmplaceBack int_elem (heap_of [1, 2] 2 3) (vector_of 2 2) (.ok 5)).self.elems
      (Vector.EmplaceBack int_elem (heap_of [1, 2] 2 3) (vector_of 2 2) (.ok 5)).heap
      = [1, 2] :=
  ⟨by decide, rfl,
    ((Vector.append_atomic throwing_elem (heap_of [1, 2] 2 10) (vector_of 2 2) [1, 2]
      (.error 7) (by decide) (Or.inl ⟨7, rfl⟩)).2.1 13 rfl).1,
    ((Vector.append_atomic throwing_elem (heap_of [1, 2] 2 10) (vector_of 2 2) [1, 2]
      (.error 7) (by decide) (Or.inl ⟨7, rfl⟩)).2.1 13 rfl).2.1,
    ((Vector.append_atomic throwing_elem (heap_of [1, 2] 2 10) (vector_of 2 2) [1, 2]
      (.error 7) (by decide) (Or.inl ⟨7, rfl⟩)).2.1 13 rfl).2.2.2.2.2,
    by decide, rfl,
    (Vector.append_atomic int_elem (heap_of [1, 2] 2 3) (vector_of 2 2) [1, 2]
      (.ok 5) (by decide) (Or.inr ⟨rfl, rfl⟩)).1.1,
    (Vector.append_atomic int_elem (heap_of [1, 2] 2 3) (vector_of 2 2) [1, 2]
      (.ok 5) (by decide) (Or.inr ⟨rfl, rfl⟩)).1.2.2.2.2.2⟩

end AppendAtomic

section TransferRule
variable {α ε : Type}

theorem uninitialized_copy_loop_congr (E F : ElemType α ε) (hc : F.copy_throws = E.copy_throws)
    (first d : Ptr) (n i : Nat) (h : Heap α) :
    uninitialized_copy_loop F first d n i h = uninitialized_copy_loop E first d n i h := by
  induction n generalizing i h with
  | zero => rfl
  | succ n ih =>
    unfold uninitialized_copy_loop
    have e : copy_construct_at F h (d + i) (first + i) = copy_construct_at E h (d + i) (first + i) := by
      unfold copy_construct_at
      rw [hc]
    rw [e]
    cases copy_construct_at E h (d + i) (first + i) with
    | mk h1 r =>
      cases r with
      | some e => rfl
      | none => exact ih (i + 1) h1

theorem uninitialized_move_loop_congr (E F : ElemType α ε) (hm : F.move_throws = E.move_throws)
    (hf : F.moved_from = E.moved_from) (first d : Ptr) (n i : Nat) (h : Heap α) :
    uninitialized_move_loop F first d n i h = uninitialized_move_loop E first d n i h := by
  induction n generalizing i h with
  | zero => rfl
  | succ n ih =>
    unfold uninitialized_move_loop
    have e : move_construct_at F h (d + i) (first + i) = move_construct_at E h (d + i) (first + i) := by
      unfold move_construct_at
      rw [hm, hf]
    rw [e]
    cases move_construct_at E h (d + i) (first + i) with
    | mk h1 r =>
      cases r with
      | some e => rfl
      | none => exact ih (i + 1) h1

/-- When the traits select the copy, `Reserve` does not depend on the move constructor of
the element type: neither on whether it throws nor on what it leaves in its source. -/
theorem Vector.Reserve_copy_mode (E : ElemType α ε) (h : Heap α) (v : Vector) (n : Nat)
    (hmode : (E.nothrow_move_constructible || !E.copy_constructible) = false)
    (mt : α → Option ε) (mf : α → α) :
    Vector.Reserve { E with move_throws := mt, moved_from := mf } h v n
      = Vector.Reserve E h v n := by
  unfold Vector.Reserve
  simp only [hmode, Bool.false_eq_true, if_false, uninitialized_copy_n]
  have e := uninitialized_copy_loop_congr E { E with move_throws := mt, moved_from := mf } rfl
  simp only [e]

/-- When the traits select the move, `Reserve` does not depend on the copy constructor of
the element type. -/
theorem Vector.Reserve_move_mode (E : ElemType α ε) (h : Heap α) (v : Vector) (n : Nat)
    (hmode : (E.nothrow_move_constructible || !E.copy_constructible) = true)
    (ct : α → Option ε) :
    Vector.Reserve { E with copy_throws := ct } h v n = Vector.Reserve E h v n := by
  unfold Vector.Reserve
  simp only [hmode, if_true, uninitialized_move_n]
  have e := uninitialized_move_loop_congr E { E with copy_throws := ct } rfl rfl
  simp only [e]

/-- C18: `Reserve` transfers by move exactly when the move constructor of the element type is
`noexcept` or the type is not copy-constructible, and by copy otherwise.  In the first case
the outcome does not depend on the copy constructor; in the second it depends neither on
whether the move constructor throws nor on what a move leaves in its source, so no object is
moved from.  Hence, for a copy-constructible type whose move constructor may throw, a
`Reserve(n)` that throws (the allocation failed or a copy threw part-way through) leaves the
object as it was, with its size, its capacity and its elements `xs`.  That the move is used
in the first case shows on a move-only type: a `Reserve` whose second move throws leaves the
first object of the old block moved-from. -/
theorem Vector.Reserve_transfer_rule (E : ElemType α ε) (h : Heap α) (v : Vector)
    (xs : List α) (n : Nat) (hv : v.Holds h xs) :
    ((E.nothrow_move_constructible || !E.copy_constructible) = true →
      ∀ ct, Vector.Reserve { E with copy_throws := ct } h v n = Vector.Reserve E h v n) ∧
    ((E.nothrow_move_constructible || !E.copy_constructible) = false →
      ∀ mt mf, Vector.Reserve { E with move_throws := mt, moved_from := mf } h v n
        = Vector.Reserve E h v n) ∧
    (E.copy_constructible = true → E.nothrow_move_constructible = false →
      (Vector.Reserve E h v n).succeeded = false →
      (Vector.Reserve E h v n).self = v ∧
      (Vector.Reserve E h v n).self.Size = v.Size ∧
      (Vector.Reserve E h v n).self.Capacity = v.Capacity ∧
      (Vector.Reserve E h v n).self.Holds (Vector.Reserve E h v n).heap xs ∧
      (Vector.Reserve E h v n).self.elems (Vector.Reserve E h v n).heap = xs ∧
      (Vector.Reserve E h v n).heap.slots v.data.buffer = h.slots v.data.buffer) ∧
    (move_only_elem.nothrow_move_constructible || !move_only_elem.copy_constructible) = true ∧
    (Vector.Reserve move_only_elem (heap_of ["a", "bad"] 2 10) (vector_of 2 2) 4).succeeded
      = false ∧
    (Vector.Reserve move_only_elem (heap_of ["a", "bad"] 2 10) (vector_of 2 2) 4).heap.slots 1
      = [some "", some "bad"] := by
  refine ⟨fun hm ct => Vector.Reserve_move_mode E h v n hm ct,
    fun hm mt mf => Vector.Reserve_copy_mode E h v n hm mt mf, fun hc ht hf => ?_,
    by decide, by decide, by decide⟩
  obtain ⟨_, k, _, _, hs⟩ := Vector.Reserve_keeps E h v n v.data.buffer hv.2.2.1
  have k := k (by rw [hc, ht]; rfl) hf
  have hs := hs hf
  have hH := hv.of_keeps k
  exact ⟨hs, by rw [hs], by rw [hs], by rw [hs]; exact hH, by rw [hs]; exact hH.elems_eq, k.1⟩

theorem Vector.Reserve_transfer_rule_witness :
    (vector_of 2 2).Holds (heap_of [1, 13] 2 10) [1, 13] ∧
    throwing_elem.copy_constructible = true ∧
    throwing_elem.nothrow_move_constructible = false ∧
    (Vector.Reserve throwing_elem (heap_of [1, 13] 2 10) (vector_of 2 2) 4).succeeded = false ∧
    (Vector.Reserve throwing_elem (heap_of [1, 13] 2 10) (vector_of 2 2) 4).self
      = vector_of 2 2 ∧
    (Vector.Reserve throwing_elem (heap_of [1, 13] 2 10) (vector_of 2 2) 4).self.elems
      (Vector.Reserve throwing_elem (heap_of [1, 13] 2 10) (vector_of 2 2) 4).heap = [1, 13] :=
  ⟨by decide, rfl, rfl, by decide,
    ((Vector.Reserve_transfer_rule throwing_elem (heap_of [1, 13] 2 10) (vector_of 2 2) [1, 13]
      4 (by decide)).2.2.1 rfl rfl (by decide)).1,
    ((Vector.Reserve_transfer_rule throwing_elem (heap_of [1, 13] 2 10) (vector_of 2 2) [1, 13]
      4 (by decide)).2.2.1 rfl rfl (by decide)).2.2.2.2.1⟩

end TransferRule

section CopyFailure
variable {α ε : Type}

theorem get_destroy_n (n : Nat) (h : Heap α) (p q : Ptr) :
    (destroy_n h p n).get q =
      if q.block = p.block ∧ p.off ≤ q.off ∧ q.off < p.off + n then none else h.get q := by
  rw [Heap.get_eq, slot_destroy_n]
  split_ifs
  · cases h.slot q <;> rfl
  · rfl

/-- A placement construction by copy that throws leaves the heap as it is; one that returns
writes at most the destination. -/
theorem copy_construct_at_cases (E : ElemType α ε) (h : Heap α) (dst src : Ptr) :
    (∃ e, copy_construct_at E h dst src = (h, some e) ∧
      ∃ x, h.get src = some x ∧ E.copy_throws x = some e) ∨
    copy_construct_at E h dst src = (h, none) ∨
    ∃ x, h.get src = some x ∧ E.copy_throws x = none ∧
      copy_construct_at E h dst src = (h.set dst (some x), none) := by
  unfold copy_construct_at
  cases hg : h.get src with
  | none => exact Or.inr (Or.inl rfl)
  | some x =>
    simp only
    cases ht : E.copy_throws x with
    | some e => exact Or.inl ⟨e, rfl, x, rfl, ht⟩
    | none => exact Or.inr (Or.inr ⟨x, rfl, ht, rfl⟩)

theorem get_copy_construct_at_of_ne (E : ElemType α ε) (h : Heap α) (dst src q : Ptr)
    (hq : q ≠ dst) : (copy_construct_at E h dst src).1.get q = h.get q := by
  rcases copy_construct_at_cases E h dst src with ⟨e, c, _⟩ | c | ⟨x, _, _, c⟩
  · rw [c]
  · rw [c]
  · rw [c]; exact Heap.get_set_of_ne h dst q _ hq

/-- Whatever its outcome, `std::uninitialized_copy_n` writes only to the destination range. -/
theorem get_uninitialized_copy_loop_outside (E : ElemType α ε) (first d : Ptr) (n i : Nat)
    (h : Heap α) (q : Ptr)
    (hq : ¬ (q.block = d.block ∧ d.off ≤ q.off ∧ q.off < d.off + i + n)) :
    (uninitialized_copy_loop E first d n i h).1.get q = h.get q := by
  induction n generalizing i h with
  | zero => rfl
  | succ n ih =>
    unfold uninitialized_copy_loop
    have hqi : q ≠ d + i := by
      intro e
      apply hq
      rw [e]
      exact ⟨rfl, by simp only [Ptr.add_off]; omega, by simp only [Ptr.add_off]; omega⟩
    have g1 := get_copy_construct_at_of_ne E h (d + i) (first + i) q hqi
    cases hc : copy_construct_at E h (d + i) (first + i) with
    | mk h1 r =>
      rw [hc] at g1
      cases r with
      | some e =>
        simp only
        rw [get_destroy_n, if_neg (by omega)]
        exact g1
      | none =>
        simp only
        rw [ih (i + 1) h1 (by omega)]
        exact g1

/-- When `std::uninitialized_copy_n` throws, no object it constructed is left: a destination
slot that held no object before the call, or that the call had already constructed, holds
none afterwards. -/
theorem get_uninitialized_copy_loop_fail (E : ElemType α ε) (first d : Ptr) (n i : Nat)
    (h : Heap α) (hf : (uninitialized_copy_loop E first d n i h).2 ≠ none) (q : Ptr)
    (hb : q.block = d.block)
    (hq : h.get q = none ∨ (d.off ≤ q.off ∧ q.off < d.off + i)) :
    (uninitialized_copy_loop E first d n i h).1.get q = none := by
  induction n generalizing i h with
  | zero => exact absurd rfl hf
  | succ n ih =>
    unfold uninitialized_copy_loop at hf ⊢
    by_cases hqi : q = d + i
    · cases hc : copy_construct_at E h (d + i) (first + i) with
      | mk h1 r =>
        rw [hc] at hf
        cases r with
        | some e =>
          simp only
          rcases copy_construct_at_cases E h (d + i) (first + i) with ⟨e1, c, _⟩ | c | ⟨x, _, _, c⟩
          · rw [hc] at c
            simp only [Prod.mk.injEq] at c
            rw [get_destroy_n, c.1]
            rcases hq with hq | hq
            · rw [hq]; simp
            · rw [if_pos ⟨hb, hq.1, hq.2⟩]
          · rw [hc] at c; simp at c
          · rw [hc] at c; simp at c
        | none =>
          simp only at hf ⊢
          exact ih (i + 1) h1 hf (Or.inr (by
            rw [hqi]; simp only [Ptr.add_off]; omega))
    · have g1 := get_copy_construct_at_of_ne E h (d + i) (first + i) q hqi
      cases hc : copy_construct_at E h (d + i) (first + i) with
      | mk h1 r =>
        rw [hc] at hf g1
        simp only at g1
        cases r with
        | some e =>
          simp only
          rw [get_destroy_n, g1]
          rcases hq with hq | hq
          · rw [hq]; simp
          · rw [if_pos ⟨hb, hq.1, hq.2⟩]
        | none =>
          simp only at hf ⊢
          refine ih (i + 1) h1 hf ?_
          rcases hq with hq | hq
          · exact Or.inl (by rw [g1]; exact hq)
          · exact Or.inr ⟨hq.1, by omega⟩

/-- When `std::uninitialized_copy_n` returns, the copy constructor threw for none of the
source objects. -/
theorem uninitialized_copy_loop_ok_nothrow (E : ElemType α ε) (first d : Ptr)
    (hne : first.block ≠ d.block) (n i : Nat) (h : Heap α)
    (hok : (uninitialized_copy_loop E first d n i h).2 = none) (k : Nat) (hk1 : i ≤ k)
    (hk2 : k < i + n) (x : α) (hx : h.get (first + k) = some x) : E.copy_throws x = none := by
  induction n generalizing i h with
  | zero => omega
  | succ n ih =>
    unfold uninitialized_copy_loop at hok
    rcases copy_construct_at_cases E h (d + i) (first + i) with ⟨e, c, _⟩ | c | ⟨y, hy, hty, c⟩
    · rw [c] at hok; simp at hok
    · rw [c] at hok
      simp only at hok
      by_cases hki : k = i
      · subst hki
        have hc2 := c
        unfold copy_construct_at at hc2
        rw [hx] at hc2
        simp only at hc2
        cases ht : E.copy_throws x with
        | none => rfl
        | some e => rw [ht] at hc2; simp at hc2
      · exact ih (i + 1) h hok (by omega) (by omega) hx
    · rw [c] at hok
      simp only at hok
      by_cases hki : k = i
      · subst hki
        rw [hx] at hy
        simp only [Option.some.injEq] at hy
        rw [hy]; exact hty
      · refine ih (i + 1) _ hok (by omega) (by omega) ?_
        rw [Heap.get_set_of_ne _ _ _ _ (by
          intro e; apply hne; have := congrArg Ptr.block e; simpa using this)]
        exact hx

theorem Heap.live_eq_zero (h : Heap α) (b : Nat) (hg : ∀ j, h.get ⟨b, j⟩ = none) :
    h.live b = 0 := by
  unfold Heap.live
  rw [List.length_eq_zero, List.filter_eq_nil_iff]
  intro s hs
  obtain ⟨j, hj, e⟩ := List.getElem_of_mem hs
  have := hg j
  rw [Heap.get_eq] at this
  unfold Heap.slot at this
  simp only at this
  rw [List.getElem?_eq_getElem hj, e] at this
  cases s with
  | none => simp
  | some x => simp at this

end CopyFailure

section CopyFailure2
variable {α ε : Type}

theorem Heap.get_of_raw (h : Heap α) (b n : Nat) (hs : h.slots b = List.replicate n none)
    (j : Nat) : h.get ⟨b, j⟩ = none := by
  rw [Heap.get_eq, slot_replicate_none h b n j hs]
  split_ifs <;> rfl

theorem Heap.get_of_unknown (h : Heap α) (b : Nat) (hb : h.blocks.length < b) (j : Nat) :
    h.get ⟨b, j⟩ = none := by
  have hs : h.slots b = [] := by
    unfold Heap.slots
    cases b with
    | zero => rfl
    | succ c =>
      simp only
      rw [List.getElem?_eq_none (by omega)]
  rw [Heap.get_eq]
  unfold Heap.slot
  simp only
  rw [hs]
  rfl

theorem Deallocate_get (h : Heap α) (b : Nat) (q : Ptr) : (Deallocate h b).get q = h.get q := by
  rw [Heap.get_eq, Heap.get_eq, Deallocate_slot]

/-- The reallocating branch of `Emplace` for an element type transferred by copy: when the
call throws, no slot of the new block holds an object; the call throws when the copy
constructor throws for one of the elements; and when the storage was allocated and the new
object constructed, what escapes is the string literal thrown by the handlers. -/
theorem Vector.Emplace_realloc_copy_fail (E : ElemType α ε) (h : Heap α) (v : Vector)
    (xs : List α) (p : Nat) (args : Except ε α) (hv : v.Holds h xs)
    (hfull : v.size = v.Capacity) (hp : p ≤ v.size)
    (hmode : (E.nothrow_move_constructible || !E.copy_constructible) = false) :
    ((Vector.Emplace E h v ⟨v.data.buffer, p⟩ args).succeeded = false →
      ∀ j, (Vector.Emplace E h v ⟨v.data.buffer, p⟩ args).heap.get ⟨h.blocks.length + 1, j⟩
        = none) ∧
    ((∃ y, y ∈ xs ∧ E.copy_throws y ≠ none) →
      (Vector.Emplace E h v ⟨v.data.buffer, p⟩ args).succeeded = false) ∧
    (∀ x, args = .ok x →
      RawMemory.create h (if v.size ≠ 0 then v.Capacity * 2 else 1) ≠ none →
      (Vector.Emplace E h v ⟨v.data.buffer, p⟩ args).succeeded = false →
      (Vector.Emplace E h v ⟨v.data.buffer, p⟩ args).thrown = some (.c_str "Execption!")) := by
  have hl := hv.1
  have hcap := hv.2.1
  have hbuf := hv.2.2.1
  have hfull' : v.size = v.data.capacity := hfull
  have hm : ¬ (E.nothrow_move_constructible || !E.copy_constructible) = true := by
    rw [hmode]; simp
  unfold Vector.Emplace
  simp only [Vector.Capacity, RawMemory.Capacity, Vector.begin_, Vector.end_, RawMemory.add,
    Ptr.mk_add, Nat.sub_zero, Nat.zero_add, RawMemory.GetAddress]
  rw [if_pos hfull']
  have hn0 : (if v.size ≠ 0 then v.data.capacity * 2 else 1) ≠ 0 := by
    split_ifs <;> omega
  generalize (if v.size ≠ 0 then v.data.capacity * 2 else 1) = n' at hn0 ⊢
  cases hc : RawMemory.create h n' with
  | none =>
    exact ⟨fun _ j => Heap.get_of_unknown h _ (by omega) j, fun _ => rfl,
      fun _ _ c => absurd rfl c⟩
  | some r =>
    obtain ⟨h1, nd⟩ := r
    simp only
    obtain ⟨hndc, hal⟩ := RawMemory.create_spec h _ h1 nd hc
    obtain ⟨hnb, hlen1, hold, hnew, hfr⟩ := Allocate_spec h _ h1 nd.buffer hn0 hal
    have hraw := Heap.get_of_raw h1 nd.buffer n' hnew
    rw [← hnb]
    cases args with
    | error e =>
      exact ⟨fun _ j => by rw [RawMemory.dtor, Deallocate_get]; exact hraw j, fun _ => rfl,
        fun x c => by cases c⟩
    | ok x =>
      simp only
      have hne : v.data.buffer ≠ nd.buffer := by omega
      have hraw2 : ∀ j, j ≠ p → (h1.set ⟨nd.buffer, p⟩ (some x)).get ⟨nd.buffer, j⟩ = none := by
        intro j hj
        rw [Heap.get_set_of_ne _ _ _ _ (by
          intro e; apply hj; have := congrArg Ptr.off e; simpa using this)]
        exact hraw j
      have hsrc2 : ∀ k, (h1.set ⟨nd.buffer, p⟩ (some x)).get ⟨v.data.buffer, k⟩ = xs[k]? := by
        intro k
        rw [Heap.get_set_of_ne _ _ _ _ (by
          intro e; exact hne (congrArg Ptr.block e)), Heap.get_congr h h1 _ (hold _ hbuf).1]
        exact hv.get k
      rw [if_neg hm]
      simp only [uninitialized_copy, Nat.sub_zero]
      cases hu1 : uninitialized_copy_n E (h1.set ⟨nd.buffer, p⟩ (some x))
          ⟨v.data.buffer, 0⟩ p ⟨nd.buffer, 0⟩ with
      | mk h3 r1 =>
        have e1 : (uninitialized_copy_loop E ⟨v.data.buffer, 0⟩ ⟨nd.buffer, 0⟩ p 0
            (h1.set ⟨nd.buffer, p⟩ (some x))).1 = h3 := congrArg Prod.fst hu1
        have f1 : (uninitialized_copy_loop E ⟨v.data.buffer, 0⟩ ⟨nd.buffer, 0⟩ p 0
            (h1.set ⟨nd.buffer, p⟩ (some x))).2 = r1 := congrArg Prod.snd hu1
        cases r1 with
        | some e =>
          simp only [RawMemory.dtor]
          refine ⟨fun _ j => ?_, fun _ => rfl, fun _ _ _ _ => rfl⟩
          rw [Deallocate_get, get_destroy_n]
          by_cases hj : j = p
          · rw [if_pos ⟨rfl, by simp only; omega, by simp only; omega⟩]
          · rw [if_neg (by simp only; omega), ← e1]
            exact get_uninitialized_copy_loop_fail E _ _ p 0 _ (by rw [f1]; simp) _ rfl
              (Or.inl (hraw2 j hj))
        | none =>
          simp only
          have hsrc3 : ∀ k, h3.get ⟨v.data.buffer, k⟩ = xs[k]? := by
            intro k
            rw [← e1, get_uninitialized_copy_loop_outside E _ _ p 0 _ _ (by
              simp only; omega)]
            exact hsrc2 k
          have hraw3 : ∀ j, p < j → h3.get ⟨nd.buffer, j⟩ = none := by
            intro j hj
            rw [← e1, get_uninitialized_copy_loop_outside E _ _ p 0 _ _ (by
              simp only; omega)]
            exact hraw2 j (by omega)
          cases hu2 : uninitialized_copy_n E h3 ⟨v.data.buffer, p⟩ (v.size - p)
              ⟨nd.buffer, p + 1⟩ with
          | mk h4 r2 =>
            have e2 : (uninitialized_copy_loop E ⟨v.data.buffer, p⟩ ⟨nd.buffer, p + 1⟩
                (v.size - p) 0 h3).1 = h4 := congrArg Prod.fst hu2
            have f2 : (uninitialized_copy_loop E ⟨v.data.buffer, p⟩ ⟨nd.buffer, p + 1⟩
                (v.size - p) 0 h3).2 = r2 := congrArg Prod.snd hu2
            cases r2 with
            | some e =>
              simp only [RawMemory.dtor]
              refine ⟨fun _ j => ?_, fun _ => rfl, fun _ _ _ _ => rfl⟩
              rw [Deallocate_get, get_destroy_n]
              by_cases hj : j < p + 1
              · rw [if_pos ⟨rfl, by simp only; omega, by simp only; omega⟩]
              · rw [if_neg (by simp only; omega), ← e2]
                exact get_uninitialized_copy_loop_fail E _ _ (v.size - p) 0 _
                  (by rw [f2]; simp) _ rfl (Or.inl (hraw3 j (by omega)))
            | none =>
              simp only [RawMemory.Swap, RawMemory.dtor]
              refine ⟨fun c => ?_, fun hbad => ?_, fun _ _ _ c => ?_⟩
              · simp [Outcome.succeeded] at c
              · exfalso
                obtain ⟨y, hy, hthr⟩ := hbad
                obtain ⟨k, hk, ek⟩ := List.getElem_of_mem hy
                have hxk : xs[k]? = some y := by rw [List.getElem?_eq_getElem hk, ek]
                apply hthr
                by_cases hkp : k < p
                · exact uninitialized_copy_loop_ok_nothrow E ⟨v.data.buffer, 0⟩
                    ⟨nd.buffer, 0⟩ hne p 0 _ f1 k (by omega) (by omega) y (by
                      simp only [Ptr.mk_add, Nat.zero_add]
                      rw [hsrc2 k]; exact hxk)
                · exact uninitialized_copy_loop_ok_nothrow E ⟨v.data.buffer, p⟩
                    ⟨nd.buffer, p + 1⟩ hne (v.size - p) 0 _ f2 (k - p) (by omega) (by omega) y
                    (by
                      simp only [Ptr.mk_add]
                      rw [show p + (k - p) = k by omega, hsrc3 k]; exact hxk)
              · simp [Outcome.succeeded] at c

end CopyFailure2

section StrongGuarantee
variable {α ε : Type}

/-- C15: a full vector `v` (`size_ == Capacity()`) holding `xs`, of an element type that is
copy-constructible and whose move constructor is not `noexcept` (so that the reallocating
branch transfers by copy), and an insertion at index `p <= size_`.  If the copy constructor
throws for one of the elements (while the prefix `[0, p)` or the suffix `[p, size_)` is
copied), `Emplace` throws; and whenever it throws, the object is as it was, with its size,
its capacity and its elements `xs`, and no slot of the new block (the block allocated by this
call) holds an object: the new object and every copied element have been destroyed.  Both
overloads of `Insert` are `Emplace` applied to the outcome of copy or move constructing the
value. -/
theorem Vector.Insert_realloc_strong (E : ElemType α ε) (h : Heap α) (v : Vector)
    (xs : List α) (p : Nat) (args : Except ε α) (hv : v.Holds h xs)
    (hfull : v.size = v.Capacity) (hp : p ≤ v.size) (hcopy : E.copy_constructible = true)
    (hthrow : E.nothrow_move_constructible = false) :
    ((∃ y, y ∈ xs ∧ E.copy_throws y ≠ none) →
      (Vector.Emplace E h v (v.begin_ + p) args).succeeded = false) ∧
    ((Vector.Emplace E h v (v.begin_ + p) args).succeeded = false →
      (Vector.Emplace E h v (v.begin_ + p) args).self = v ∧
      (Vector.Emplace E h v (v.begin_ + p) args).self.Size = v.Size ∧
      (Vector.Emplace E h v (v.begin_ + p) args).self.Capacity = v.Capacity ∧
      (Vector.Emplace E h v (v.begin_ + p) args).self.Holds
        (Vector.Emplace E h v (v.begin_ + p) args).heap xs ∧
      (Vector.Emplace E h v (v.begin_ + p) args).self.elems
        (Vector.Emplace E h v (v.begin_ + p) args).heap = xs ∧
      (Vector.Emplace E h v (v.begin_ + p) args).heap.live (h.blocks.length + 1) = 0 ∧
      ∀ j, (Vector.Emplace E h v (v.begin_ + p) args).heap.get ⟨h.blocks.length + 1, j⟩
        = none) ∧
    (∀ value, Vector.Insert E h v (v.begin_ + p) value
      = Vector.Emplace E h v (v.begin_ + p) (E.copy_ctor value)) ∧
    (∀ value, Vector.InsertMove E h v (v.begin_ + p) value
      = Vector.Emplace E h v (v.begin_ + p) (E.move_ctor value)) := by
  have hmode : (E.nothrow_move_constructible || !E.copy_constructible) = false := by
    rw [hcopy, hthrow]; rfl
  rw [Vector.begin_add]
  obtain ⟨hraw, hbad, _⟩ := Vector.Emplace_realloc_copy_fail E h v xs p args hv hfull hp hmode
  obtain ⟨_, k, _, hs⟩ := Vector.Emplace_keeps E h v ⟨v.data.buffer, p⟩ args v.data.buffer
    hv.2.2.1 rfl
  refine ⟨hbad, fun hf => ?_, fun _ => rfl, fun _ => rfl⟩
  have k := k hmode hfull hf
  have hs := hs hf
  have hH := hv.of_keeps k
  exact ⟨hs, by rw [hs], by rw [hs], by rw [hs]; exact hH, by rw [hs]; exact hH.elems_eq,
    Heap.live_eq_zero _ _ (hraw hf), hraw hf⟩

theorem Vector.Insert_realloc_strong_witness :
    (vector_of 2 2).Holds (heap_of [1, 13] 2 10) [1, 13] ∧
    (vector_of 2 2).size = (vector_of 2 2).Capacity ∧
    throwing_elem.copy_throws 13 = some 7 ∧
    (Vector.Emplace throwing_elem (heap_of [1, 13] 2 10) (vector_of 2 2)
      ((vector_of 2 2).begin_ + 1) (.ok 5)).succeeded = false ∧
    (Vector.Emplace throwing_elem (heap_of [1, 13] 2 10) (vector_of 2 2)
      ((vector_of 2 2).begin_ + 1) (.ok 5)).self = vector_of 2 2 ∧
    (Vector.Emplace throwing_elem (heap_of [1, 13] 2 10) (vector_of 2 2)
      ((vector_of 2 2).begin_ + 1) (.ok 5)).self.elems
      (Vector.Emplace throwing_elem (heap_of [1, 13] 2 10) (vector_of 2 2)
        ((vector_of 2 2).begin_ + 1) (.ok 5)).heap = [1, 13] ∧
    (Vector.Emplace throwing_elem (heap_of [1, 13] 2 10) (vector_of 2 2)
      ((vector_of 2 2).begin_ + 1) (.ok 5)).heap.live 2 = 0 :=
  ⟨by decide, rfl, rfl,
    (Vector.Insert_realloc_strong throwing_elem (heap_of [1, 13] 2 10) (vector_of 2 2) [1, 13]
      1 (.ok 5) (by decide) rfl (by decide) rfl rfl).1 ⟨13, by decide, by decide⟩,
    ((Vector.Insert_realloc_strong throwing_elem (heap_of [1, 13] 2 10) (vector_of 2 2) [1, 13]
      1 (.ok 5) (by decide) rfl (by decide) rfl rfl).2.1 (by decide)).1,
    ((Vector.Insert_realloc_strong throwing_elem (heap_of [1, 13] 2 10) (vector_of 2 2) [1, 13]
      1 (.ok 5) (by decide) rfl (by decide) rfl rfl).2.1 (by decide)).2.2.2.2.1,
    ((Vector.Insert_realloc_strong throwing_elem (heap_of [1, 13] 2 10) (vector_of 2 2) [1, 13]
      1 (.ok 5) (by decide) rfl (by decide) rfl rfl).2.1 (by decide)).2.2.2.2.2.1⟩

end StrongGuarantee

section ClassInvariant
variable {α ε : Type}

theorem Vector.Holds.invariant {h : Heap α} {v : Vector} {xs : List α} (hv : v.Holds h xs) :
    v.Invariant h := by
  refine ⟨hv.2.1, fun i _ => ?_⟩
  have hl := hv.1
  show (h.get ⟨v.data.buffer, i⟩).isSome = true ↔ _
  rw [hv.get i]
  by_cases c : i < xs.length
  · rw [List.getElem?_eq_getElem c]
    simp only [Option.isSome_some, true_iff]
    omega
  · rw [List.getElem?_eq_none (by omega)]
    simp only [Option.isSome_none, Bool.false_eq_true, false_iff]
    omega

/-- Every member function called within its precondition on a vector that holds a sequence
`xs` leaves, when it returns, a vector satisfying the class invariant; so do the
constructors. -/
theorem Vector.invariant_on_return (E : ElemType α ε) (h : Heap α) (v : Vector) (xs : List α)
    (hv : v.Holds h xs) :
    v.Invariant h ∧ ({} : Vector).Invariant h ∧
    (∀ n h1 c, Vector.sized E h n = (h1, .ok c) → c.Invariant h1) ∧
    (∀ h1 c, Vector.copy_ctor E h v = (h1, .ok c) → c.Invariant h1 ∧ v.Invariant h1) ∧
    ((Vector.move_ctor v).1.Invariant h ∧ (Vector.move_ctor v).2.Invariant h) ∧
    (∀ n, (Vector.Reserve E h v n).result = .ok () →
      (Vector.Reserve E h v n).self.Invariant (Vector.Reserve E h v n).heap) ∧
    (∀ n, (Vector.Resize E h v n).result = .ok () →
      (Vector.Resize E h v n).self.Invariant (Vector.Resize E h v n).heap) ∧
    (∀ args, (Vector.EmplaceBack E h v args).succeeded = true →
      (Vector.EmplaceBack E h v args).self.Invariant (Vector.EmplaceBack E h v args).heap) ∧
    (∀ x, (Vector.PushBack E h v x).succeeded = true →
      (Vector.PushBack E h v x).self.Invariant (Vector.PushBack E h v x).heap) ∧
    (∀ x, (Vector.PushBackMove E h v x).succeeded = true →
      (Vector.PushBackMove E h v x).self.Invariant (Vector.PushBackMove E h v x).heap) ∧
    (0 < v.size → (Vector.PopBack h v).2.Invariant (Vector.PopBack h v).1) ∧
    (∀ p args, p ≤ v.size → (Vector.Emplace E h v (v.begin_ + p) args).succeeded = true →
      (Vector.Emplace E h v (v.begin_ + p) args).self.Invariant
        (Vector.Emplace E h v (v.begin_ + p) args).heap) ∧
    (∀ p, p < v.size →
      (Vector.Erase E h v (v.begin_ + p)).2.1.Invariant (Vector.Erase E h v (v.begin_ + p)).1) ∧
    (∀ rhs ys, rhs.Holds h ys → v.Separate rhs →
      (Vector.copy_assign E h v (.other rhs)).result = .ok () →
      (Vector.copy_assign E h v (.other rhs)).self.Invariant
        (Vector.copy_assign E h v (.other rhs)).heap ∧
      rhs.Invariant (Vector.copy_assign E h v (.other rhs)).heap) ∧
    (Vector.copy_assign E h v .this).self.Invariant (Vector.copy_assign E h v .this).heap ∧
    (∀ rhs ys, rhs.Holds h ys →
      (Vector.Swap h v rhs).2.1.Invariant (Vector.Swap h v rhs).1 ∧
      (Vector.Swap h v rhs).2.2.Invariant (Vector.Swap h v rhs).1) := by
  refine ⟨hv.invariant, (holds_default h).invariant, ?_, ?_, ?_, ?_, ?_, ?_, ?_, ?_, ?_, ?_,
    ?_, ?_, hv.invariant, ?_⟩
  · intro n h1 c hr
    obtain ⟨_, _, _, ⟨ys, hH, _⟩, _⟩ := Vector.sized_holds E h n h1 c hr
    exact hH.invariant
  · intro h1 c hr
    obtain ⟨hH, _, _, _, hlen, hold⟩ := Vector.copy_ctor_spec E h v xs h1 c hv hr
    exact ⟨hH.invariant, (hv.frame (hold _ hv.2.2.1).1 (hold _ hv.2.2.1).2 hlen).invariant⟩
  · have hm : (Vector.move_ctor v).1 = v := rfl
    have hm2 : (Vector.move_ctor v).2 = {} := rfl
    rw [hm, hm2]
    exact ⟨hv.invariant, (holds_default h).invariant⟩
  · intro n hok
    exact (Vector.Reserve_ensures E h v xs n hv hok).1.invariant
  · intro n hok
    rcases Nat.lt_trichotomy n v.size with c | c | c
    · exact (Vector.Resize_shrink E h v xs n hv c).2.1.invariant
    · have e : Vector.Resize E h v n = ⟨h, v, .ok ()⟩ := by
        unfold Vector.Resize
        rw [if_neg (by omega), if_neg (by omega)]
      rw [e]
      exact hv.invariant
    · obtain ⟨d, _, hH, _⟩ := Vector.Resize_grow E h v xs n hv c hok
      exact hH.invariant
  · intro args hok
    obtain ⟨x, _, hH, _⟩ := Vector.EmplaceBack_holds E h v xs args hv hok
    exact hH.invariant
  · intro x hok
    obtain ⟨e1, e2, e3⟩ := Vector.PushBack_eq_EmplaceBack E h v x
    rw [e3] at hok
    obtain ⟨y, _, hH, _⟩ := Vector.EmplaceBack_holds E h v xs _ hv hok
    rw [e1, e2]
    exact hH.invariant
  · intro x hok
    obtain ⟨e1, e2, e3⟩ := Vector.PushBackMove_eq_EmplaceBack E h v x
    rw [e3] at hok
    obtain ⟨y, _, hH, _⟩ := Vector.EmplaceBack_holds E h v xs _ hv hok
    rw [e1, e2]
    exact hH.invariant
  · intro hpos
    exact (Vector.PopBack_holds h v xs hv hpos).1.invariant
  · intro p args hp hok
    by_cases hfull : v.size = v.Capacity
    · rw [Vector.begin_add] at hok ⊢
      obtain ⟨x, _, hH, _⟩ := Vector.Emplace_realloc E h v xs p args hv hfull hp hok
      exact hH.invariant
    · have hlt : v.size < v.Capacity := by
        have := hv.2.1
        simp only [Vector.Capacity, RawMemory.Capacity] at hfull ⊢
        omega
      obtain ⟨x, _, hI, _⟩ := Vector.Emplace_in_place E h v xs p args hv hlt hp hok
      exact hI.1.invariant
  · intro p hp
    exact (Vector.Erase_holds E h v xs p hv hp).invariant
  · intro rhs ys hr hsep hok
    obtain ⟨h1, h2, _⟩ := Vector.copy_assign_other E h v rhs xs ys hv hr hsep hok
    exact ⟨h1.invariant, h2.invariant⟩
  · intro rhs ys hr
    rw [Vector.Swap_eq]
    exact ⟨hr.invariant, hv.invariant⟩

/-- C14 fails on the code.  A vector of `throwing_elem` objects holding `1, 2, 3` in a block
of 4 slots satisfies the invariant.  `Insert(begin() + 1, 13)` takes the in-place branch:
the last object is move-constructed into slot `3`, the objects are moved one slot up, slot `1`
is destroyed, and then the copy constructor of the new object throws.  The exception leaves
`size_` at `3` with slot `1` raw and slot `3` holding an object: the slots `[0, size_)` are not
the slots that hold objects, although `size_ <= capacity_` still holds. -/
theorem Vector.Insert_in_place_breaks_invariant :
    (vector_of 3 4).Holds (heap_of [1, 2, 3] 4 10) [1, 2, 3] ∧
    (vector_of 3 4).Invariant (heap_of [1, 2, 3] 4 10) ∧
    (vector_of 3 4).size < (vector_of 3 4).Capacity ∧
    throwing_elem.copy_throws 13 = some 7 ∧
    (Vector.Insert throwing_elem (heap_of [1, 2, 3] 4 10) (vector_of 3 4)
      ((vector_of 3 4).begin_ + 1) 13).thrown = some (.elem 7) ∧
    (Vector.Insert throwing_elem (heap_of [1, 2, 3] 4 10) (vector_of 3 4)
      ((vector_of 3 4).begin_ + 1) 13).self = vector_of 3 4 ∧
    (Vector.Insert throwing_elem (heap_of [1, 2, 3] 4 10) (vector_of 3 4)
      ((vector_of 3 4).begin_ + 1) 13).heap.slots 1 = [some 1, none, some 2, some 3] ∧
    ¬ (Vector.Insert throwing_elem (heap_of [1, 2, 3] 4 10) (vector_of 3 4)
      ((vector_of 3 4).begin_ + 1) 13).self.Invariant
      (Vector.Insert throwing_elem (heap_of [1, 2, 3] 4 10) (vector_of 3 4)
        ((vector_of 3 4).begin_ + 1) 13).heap ∧
    (Vector.Emplace string_elem (heap_of ["a", "b", "c"] 4 10) (vector_of 3 4)
      ((vector_of 3 4).begin_ + 1) (.error ())).heap.slots 1
      = [some "a", none, some "b", some ""] := by
  decide

end ClassInvariant

section Independence
variable {α ε : Type}

theorem Vector.Holds.other_kept {h h1 : Heap α} {a a1 b : Vector} {zs : List α}
    (hb : b.Holds h zs) (hsep : a.Separate b)
    (k : b.data.buffer ≠ a.data.buffer → Heap.Keeps b.data.buffer h h1)
    (hbuf : a1.data.buffer = a.data.buffer ∨ a1.data.buffer = h.blocks.length + 1) :
    b.Holds h1 zs ∧ a1.Separate b := by
  have hle := hb.2.2.1
  constructor
  · by_cases hz : b.data.buffer = 0
    · exact hb.of_null hz h1
    · apply hb.of_keeps
      apply k
      intro e
      exact hz (by rw [e]; exact hsep e.symm)
  · intro e
    rcases hbuf with c | c
    · rw [c] at e ⊢
      exact hsep e
    · omega

/-- Every mutating member function called on a vector leaves a vector with separate storage
untouched. -/
theorem Vector.ops_keep_other (E : ElemType α ε) (h : Heap α) (a b : Vector) (zs : List α)
    (hb : b.Holds h zs) (hsep : a.Separate b) : Vector.KeptByOps E h a b zs := by
  have hle := hb.2.2.1
  have hE : ∀ args, b.Holds (Vector.EmplaceBack E h a args).heap zs ∧
      (Vector.EmplaceBack E h a args).self.Separate b := by
    intro args
    obtain ⟨k, _, hbuf, _⟩ := Vector.EmplaceBack_keeps E h a args b.data.buffer hle
    exact hb.other_kept hsep k hbuf
  have hI : ∀ (p : Nat) args, b.Holds (Vector.Emplace E h a (a.begin_ + p) args).heap zs ∧
      (Vector.Emplace E h a (a.begin_ + p) args).self.Separate b := by
    intro p args
    obtain ⟨k, _, hbuf, _⟩ := Vector.Emplace_keeps E h a (a.begin_ + p) args b.data.buffer hle
      rfl
    exact hb.other_kept hsep k hbuf
  refine ⟨hE, fun x => ?_, fun x => ?_, ?_, hI, fun p x => hI p _, fun p x => hI p _,
    fun p => ?_, fun n => ?_, fun n => ?_, fun i x => ?_⟩
  · obtain ⟨e1, e2, _⟩ := Vector.PushBack_eq_EmplaceBack E h a x
    rw [e1, e2]
    exact hE _
  · obtain ⟨e1, e2, _⟩ := Vector.PushBackMove_eq_EmplaceBack E h a x
    rw [e1, e2]
    exact hE _
  · exact hb.other_kept hsep (fun hne => (Vector.PopBack_keeps h a _ hne).1) (Or.inl rfl)
  · exact hb.other_kept hsep (fun hne => (Vector.Erase_keeps E h a _ _ rfl hne).1) (Or.inl rfl)
  · by_cases hne : b.data.buffer = a.data.buffer
    · have hz : b.data.buffer = 0 := by rw [hne]; exact hsep hne.symm
      have hz2 : a.data.buffer = 0 := by rw [← hne]; exact hz
      refine ⟨hb.of_null hz _, fun e => ?_⟩
      rw [hz] at e
      exact e
    · obtain ⟨k, hbuf⟩ := Vector.Resize_keeps E h a n b.data.buffer hle hne
      exact hb.other_kept hsep (fun _ => k) hbuf
  · obtain ⟨k, _, hbuf, _⟩ := Vector.Reserve_keeps E h a n b.data.buffer hle
    exact hb.other_kept hsep k hbuf
  · exact (hb.other_kept hsep (fun hne => Vector.write_keeps h a i x _ hne)
      (Or.inl (rfl : a.data.buffer = a.data.buffer))).1

/-- C12: when the copy constructor returns, the new vector `c` has the size of `other`, a
capacity of exactly `other.size` slots, and holds the same sequence `ys`; `other` still holds
`ys`; the two have separate storage; and every mutating member function (`PushBack`,
`EmplaceBack`, `PopBack`, `Insert`, `Emplace`, `Erase`, `Resize`, `Reserve`, an element write
`v[i] = x`) called on one of the two leaves the other holding `ys`, with storage still
separate.  The last holds for any two vectors with separate storage in any heap, hence after
any number of such calls. -/
theorem Vector.copy_independent (E : ElemType α ε) (h : Heap α) (other : Vector)
    (ys : List α) (h1 : Heap α) (c : Vector) (ho : other.Holds h ys)
    (hr : Vector.copy_ctor E h other = (h1, .ok c)) :
    c.Size = other.Size ∧ c.Capacity = other.Size ∧ c.Holds h1 ys ∧ c.elems h1 = ys ∧
    other.Holds h1 ys ∧ other.elems h1 = ys ∧ c.Separate other ∧ other.Separate c ∧
    Vector.KeptByOps E h1 c other ys ∧ Vector.KeptByOps E h1 other c ys ∧
    (∀ (h2 : Heap α) (a b : Vector) (zs : List α), b.Holds h2 zs → a.Separate b →
      Vector.KeptByOps E h2 a b zs) := by
  obtain ⟨hH, hsz, hcp, hbf, hlen, hold⟩ := Vector.copy_ctor_spec E h other ys h1 c ho hr
  have ho1 : other.Holds h1 ys := ho.frame (hold _ ho.2.2.1).1 (hold _ ho.2.2.1).2 hlen
  have hle := ho.2.2.1
  have s1 : c.Separate other := by
    intro e
    rw [hbf] at e ⊢
    split_ifs at e ⊢
    · rfl
    · omega
  have s2 : other.Separate c := by
    intro e
    rw [hbf] at e
    split_ifs at e
    · exact e
    · omega
  exact ⟨hsz, hcp, hH, hH.elems_eq, ho1, ho1.elems_eq, s1, s2,
    Vector.ops_keep_other E h1 c other ys ho1 s1, Vector.ops_keep_other E h1 other c ys hH s2,
    fun h2 a b zs hb hsep => Vector.ops_keep_other E h2 a b zs hb hsep⟩

theorem Vector.copy_independent_witness :
    (vector_of 2 3).Holds (heap_of [1, 2] 3 10) [1, 2] ∧
    (vector_at 2 2 2).Capacity = 2 ∧
    (vector_at 2 2 2).elems (heap_two [1, 2] [1, 2] 3 2 8) = [1, 2] ∧
    (vector_of 2 3).elems (heap_two [1, 2] [1, 2] 3 2 8) = [1, 2] ∧
    (vector_of 2 3).Holds
      (Vector.PushBack int_elem (heap_two [1, 2] [1, 2] 3 2 8) (vector_at 2 2 2) 9).heap
      [1, 2] ∧
    (vector_at 2 2 2).Holds
      (Vector.write (heap_two [1, 2] [1, 2] 3 2 8) (vector_of 2 3) 0 7) [1, 2] :=
  ⟨by decide,
    (Vector.copy_independent int_elem (heap_of [1, 2] 3 10) (vector_of 2 3) [1, 2]
      (heap_two [1, 2] [1, 2] 3 2 8) (vector_at 2 2 2) (by decide) rfl).2.1,
    (Vector.copy_independent int_elem (heap_of [1, 2] 3 10) (vector_of 2 3) [1, 2]
      (heap_two [1, 2] [1, 2] 3 2 8) (vector_at 2 2 2) (by decide) rfl).2.2.2.1,
    (Vector.copy_independent int_elem (heap_of [1, 2] 3 10) (vector_of 2 3) [1, 2]
      (heap_two [1, 2] [1, 2] 3 2 8) (vector_at 2 2 2) (by decide) rfl).2.2.2.2.2.1,
    ((Vector.copy_independent int_elem (heap_of [1, 2] 3 10) (vector_of 2 3) [1, 2]
      (heap_two [1, 2] [1, 2] 3 2 8) (vector_at 2 2 2) (by decide) rfl).2.2.2.2.2.2.2.2.1.2.1
      9).1,
    (Vector.copy_independent int_elem (heap_of [1, 2] 3 10) (vector_of 2 3) [1, 2]
      (heap_two [1, 2] [1, 2] 3 2 8) (vector_at 2 2 2) (by decide) rfl).2.2.2.2.2.2.2.2.2.1.2.2.2.2.2.2.2.2.2.2
      0 7⟩

end Independence

section Assertions
variable {α ε : Type}

/-- The capacity that `Resize` and the assertions see after a `Reserve` that returned is the
capacity of the storage the embedded `Reserve` leaves. -/
theorem Vector.reserved_capacity_eq (E : ElemType α ε) (h : Heap α) (v : Vector) (xs : List α)
    (n : Nat) (hv : v.Holds h xs) (hok : (Vector.Reserve E h v n).result = .ok ()) :
    (Vector.Reserve E h v n).self.data.capacity = v.reserved_capacity n := by
  rw [(Vector.Reserve_ensures E h v xs n hv hok).2.2]
  unfold Vector.reserved_capacity RawMemory.Capacity
  split_ifs <;> omega

/-- The storage a growing call allocates has the capacity the assertions see. -/
theorem Vector.new_data_capacity_eq (h h1 : Heap α) (v : Vector) (m : RawMemory)
    (hc : RawMemory.create h (if v.size ≠ 0 then v.Capacity * 2 else 1) = some (h1, m)) :
    m.capacity = v.new_data_capacity :=
  (RawMemory.create_spec h _ h1 m hc).1

theorem Vector.copy_assign_loop_checks (v rhs : Vector) (n : Nat) (hn : n ≤ v.data.capacity)
    (hr : n ≤ rhs.data.capacity) (c : Check)
    (hc : c ∈ (List.range n).flatMap
      (fun counter => [v.data.index_check counter, rhs.data.index_check counter])) :
    c.passes := by
  obtain ⟨counter, hcnt, hmem⟩ := List.mem_flatMap.mp hc
  have hlt := List.mem_range.mp hcnt
  simp only [List.mem_cons, List.mem_singleton, List.not_mem_nil, or_false] at hmem
  rcases hmem with e | e
  · rw [e]; show counter < v.data.capacity; omega
  · rw [e]; show counter < rhs.data.capacity; omega

/-- C20: for vectors `v` and `rhs` with `size_ <= capacity_` and a call within its
precondition (`index < size_` for `operator[]`, `size_ > 0` for `PopBack`, a position
`begin() + p` with `p <= size_` for `Insert` and `Emplace` and with `p < size_` for `Erase`,
any argument for the others), every assertion the call evaluates passes: each offset given to
`RawMemory::operator+` is at most the capacity of the storage addressed, each index given to
`RawMemory::operator[]` is below it, and the index given to `Vector::operator[]` is below the
size.  This covers the storage allocated on growth (`new_data`, and `data_` after `Reserve` or
after the swap) and the storage of `rhs` in the copy assignment. -/
theorem Vector.assertions_hold (E : ElemType α ε) (v rhs : Vector)
    (hv : v.size ≤ v.data.capacity) (hr : rhs.size ≤ rhs.data.capacity) :
    (∀ i, i < v.size → ∀ c ∈ v.index_checks i, c.passes) ∧
    (∀ c ∈ v.begin_checks, c.passes) ∧ (∀ c ∈ v.end_checks, c.passes) ∧
    (∀ c ∈ v.copy_assign_checks (.other rhs), c.passes) ∧
    (∀ c ∈ v.copy_assign_checks .this, c.passes) ∧
    (∀ n, ∀ c ∈ v.Resize_checks n, c.passes) ∧
    (∀ c ∈ v.PushBack_checks, c.passes) ∧
    (∀ c ∈ v.EmplaceBack_checks, c.passes) ∧
    (0 < v.size → ∀ c ∈ v.PopBack_checks, c.passes) ∧
    (∀ p : Nat, p ≤ v.size → ∀ c ∈ v.Emplace_checks E (v.begin_ + p), c.passes) ∧
    (∀ p : Nat, p < v.size → ∀ c ∈ v.Erase_checks, c.passes) := by
  refine ⟨?_, ?_, ?_, ?_, ?_, ?_, ?_, ?_, ?_, ?_, ?_⟩
  · intro i hi
    simp only [Vector.index_checks, RawMemory.index_check, List.forall_mem_cons,
      Check.passes, List.not_mem_nil, IsEmpty.forall_iff, implies_true, and_true]
    omega
  · simp only [Vector.begin_checks, RawMemory.add_check, List.forall_mem_cons,
      Check.passes, List.not_mem_nil, IsEmpty.forall_iff, implies_true, and_true]
    omega
  · simp only [Vector.end_checks, RawMemory.add_check, List.forall_mem_cons,
      Check.passes, List.not_mem_nil, IsEmpty.forall_iff, implies_true, and_true]
    omega
  · intro c hc
    unfold Vector.copy_assign_checks at hc
    simp only [RawMemory.Capacity] at hc
    split_ifs at hc with h1 h2
    · cases hc
    · exact Vector.copy_assign_loop_checks v rhs rhs.size (by omega) hr c hc
    · rcases List.mem_append.mp hc with hc | hc
      · exact Vector.copy_assign_loop_checks v rhs v.size hv (by omega) c hc
      · simp only [List.mem_cons, List.mem_singleton, List.not_mem_nil, or_false] at hc
        rcases hc with e | e
        · rw [e]; show v.size ≤ rhs.data.capacity; omega
        · rw [e]; show v.size ≤ v.data.capacity; omega
  · intro c hc
    cases hc
  · intro n c hc
    unfold Vector.Resize_checks at hc
    split_ifs at hc with h1 h2
    · simp only [List.mem_singleton] at hc
      rw [hc]; show n ≤ v.data.capacity; omega
    · simp only [List.mem_singleton] at hc
      rw [hc]
      show v.size ≤ v.reserved_capacity n
      unfold Vector.reserved_capacity RawMemory.Capacity
      split_ifs <;> omega
    · cases hc
  · unfold Vector.PushBack_checks
    simp only [Vector.Capacity, RawMemory.Capacity, Vector.new_data_capacity,
      RawMemory.add_check]
    split_ifs <;>
      simp only [List.forall_mem_cons, Check.passes, List.not_mem_nil, IsEmpty.forall_iff,
        implies_true, and_true] <;>
      omega
  · unfold Vector.EmplaceBack_checks
    simp only [Vector.Capacity, RawMemory.Capacity, Vector.new_data_capacity,
      RawMemory.add_check, RawMemory.index_check]
    split_ifs <;>
      simp only [List.forall_mem_cons, Check.passes, List.not_mem_nil, IsEmpty.forall_iff,
        implies_true, and_true] <;>
      omega
  · intro hpos
    simp only [Vector.PopBack_checks, RawMemory.add_check, List.forall_mem_cons,
      Check.passes, List.not_mem_nil, IsEmpty.forall_iff, implies_true, and_true]
    omega
  · intro p hp
    simp only [Vector.Emplace_checks, Vector.begin_checks, Vector.end_checks,
      Vector.Capacity, RawMemory.Capacity, Vector.new_data_capacity, RawMemory.add_check,
      RawMemory.index_check, Vector.begin_, RawMemory.add, Ptr.mk_add, Nat.zero_add,
      Nat.sub_zero]
    split_ifs <;>
      simp only [List.forall_mem_append, List.forall_mem_cons, Check.passes, List.not_mem_nil,
        IsEmpty.forall_iff, implies_true, and_true, true_and, and_self, Nat.zero_le] <;>
      omega
  · intro p hp
    simp only [Vector.Erase_checks, Vector.begin_checks, Vector.end_checks,
      RawMemory.add_check, List.forall_mem_append, List.forall_mem_cons,
      Check.passes, List.not_mem_nil, IsEmpty.forall_iff, implies_true, and_true]
    omega

theorem Vector.assertions_hold_witness :
    (vector_of 2 2).size ≤ (vector_of 2 2).data.capacity ∧
    (vector_at 2 1 3).size ≤ (vector_at 2 1 3).data.capacity ∧
    (∀ c ∈ (vector_of 2 2).copy_assign_checks (.other (vector_at 2 1 3)), c.passes) ∧
    (∀ c ∈ (vector_of 2 2).EmplaceBack_checks, c.passes) ∧
    (∀ c ∈ (vector_of 2 2).Emplace_checks int_elem ((vector_of 2 2).begin_ + 1), c.passes) :=
  ⟨by decide, by decide,
    (Vector.assertions_hold int_elem (vector_of 2 2) (vector_at 2 1 3) (by decide)
      (by decide)).2.2.2.1,
    (Vector.assertions_hold int_elem (vector_of 2 2) (vector_at 2 1 3) (by decide)
      (by decide)).2.2.2.2.2.2.2.1,
    (Vector.assertions_hold int_elem (vector_of 2 2) (vector_at 2 1 3) (by decide)
      (by decide)).2.2.2.2.2.2.2.2.2.1 1 (by decide)⟩

end Assertions

end AdvancedVector
